import Mathlib

/-! Non-blocking and lock-free queues: a shallow embedding.

Sequential (one thread at a time) embedding of `HazardPointer.c`,
`SimpleQueue.c`, `RingsQueue.c`, `LLQueue.c` and `BLQueue.c`.

Conventions of the embedding

* A pointer is an address, a natural number; `0` is `NULL`.  A `Value` is a
  natural number too (values are only stored, loaded and compared).  Nodes live in a `Heap`,
  a list of cells indexed by address; `malloc` hands out the next unused
  address, `free` empties the cell.  Dereferencing an empty cell, indexing an
  array out of bounds, or freeing a dead cell is undefined behaviour and makes
  the operation return `none`.
* The header constants (`EMPTY_VALUE`, `TAKEN_VALUE`, `BUFFER_SIZE`, `RING_SIZE`,
  `MAX_THREADS`, `RETIRED_THRESHOLD`) are not part of the sources and are
  parameters, collected in `Config`.
* `push_idx` / `pop_idx` are `int_fast64_t` counters that start at `0` and are
  only ever incremented by one; they are natural numbers here (a wrap would need
  `2^63` increments).  The one signed subtraction of the sources
  (`RingsQueue_push`) is carried out in `Int`.
* A `for` loop with a known trip count is a structural recursion on the number
  of remaining iterations; a `while (1)` loop is a recursion on a fuel argument,
  and running out of fuel yields `none`.
* Mutex lock/unlock pairs are no-ops for a single thread and are omitted.
* An atomic operation executed without interference is its sequential effect
  (`fetch_add` returns the old value and stores the successor, a
  compare-exchange succeeds exactly when the expected value is present).
-/

namespace Queues

/-- Compile-time constants of the headers. -/
structure Config where
  EMPTY_VALUE : Nat
  TAKEN_VALUE : Nat
  BUFFER_SIZE : Nat
  RING_SIZE : Nat
  MAX_THREADS : Nat
  RETIRED_THRESHOLD : Nat
deriving DecidableEq

/-! ## Heap -/

/-- Heap of nodes of type `α`: cell `p` holds the node at address `p`, or `none`
when nothing is allocated there. Cell `0` (`NULL`) is never allocated. -/
structure Heap (α : Type) where
  cells : List (Option α)
deriving DecidableEq

namespace Heap

variable {α : Type}

/-- Heap with only the (dead) `NULL` cell. -/
def empty : Heap α := ⟨[none]⟩

/-- Read the node `*p`. -/
def deref (h : Heap α) (p : Nat) : Option α := (h.cells[p]?).join

/-- Overwrite the node `*p`. -/
def store (h : Heap α) (p : Nat) (x : α) : Option (Heap α) :=
  match h.deref p with
  | none => none
  | some _ => some ⟨h.cells.set p (some x)⟩

/-- Allocate a node with content `x` at the next unused address. -/
def malloc (h : Heap α) (x : α) : Heap α × Nat :=
  (⟨h.cells ++ [some x]⟩, h.cells.length)

/-- The call `free(p)`; `free(NULL)` does nothing. -/
def free (h : Heap α) (p : Nat) : Option (Heap α) :=
  if p = 0 then some h
  else match h.deref p with
    | none => none
    | some _ => some ⟨h.cells.set p none⟩

/-- A sequence of `free` calls. -/
def freeAll (h : Heap α) : List Nat → Option (Heap α)
  | [] => some h
  | p :: ps =>
    match h.free p with
    | none => none
    | some h1 => freeAll h1 ps

end Heap

/-- Array write `a[i] = x` with bounds check. -/
def setAt? {α : Type} (l : List α) (i : Nat) (x : α) : Option (List α) :=
  if i < l.length then some (l.set i x) else none

/-! ## HazardPointer.c -/

/-- The registry `struct HazardPointer`: `pointer[MAX_THREADS]` and
`retired[MAX_THREADS][RETIRED_THRESHOLD+1]`. -/
structure HazardPointer where
  pointer : List Nat
  retired : List (List Nat)
deriving DecidableEq

/-- Per-thread context of a registered thread: the thread-local `_thread_id`
and `end`, and the value of the global `_num_threads` the thread sees. -/
structure Thread where
  _thread_id : Nat
  _num_threads : Nat
  end_ : Nat
deriving DecidableEq

/-- Source function `HazardPointer_register`. -/
def HazardPointer_register (th : Thread) (thread_id num_threads : Nat) : Thread :=
  { th with _thread_id := thread_id, _num_threads := num_threads }

/-- A thread right after `HazardPointer_register(thread_id, num_threads)`, with
the thread-local `end` at its initial value `0`. -/
def Thread.registered (thread_id num_threads : Nat) : Thread :=
  HazardPointer_register ⟨0, 0, 0⟩ thread_id num_threads

/-- Source function `HazardPointer_initialize`: every slot and every retired entry is `NULL`. -/
def HazardPointer_initialize (cfg : Config) : HazardPointer :=
  { pointer := List.replicate cfg.MAX_THREADS 0
    retired := List.replicate cfg.MAX_THREADS (List.replicate (cfg.RETIRED_THRESHOLD + 1) 0) }

/-- Inner loop of `HazardPointer_finalize`: `for (j = 0; j < RETIRED_THRESHOLD; ++j)
free(retired[i][j])`, with `n` iterations left at index `j`; the arguments of the
`free` calls are appended to `freed`. -/
def finalize_row (row : List Nat) : Nat → Nat → List Nat → Option (List Nat)
  | 0, _, freed => some freed
  | n + 1, j, freed =>
    match row[j]? with
    | none => none
    | some p => finalize_row row n (j + 1) (freed ++ [p])

/-- Outer loop of `HazardPointer_finalize`: `for (i = 0; i < _num_threads; ++i)`,
with `n` iterations left at index `i`. -/
def finalize_loop (cfg : Config) :
    Nat → Nat → HazardPointer → Thread → List Nat → Option (HazardPointer × Thread × List Nat)
  | 0, _, hp, th, freed => some (hp, th, freed)
  | n + 1, i, hp, th, freed =>
    match setAt? hp.pointer i 0 with
    | none => none
    | some ps =>
      match hp.retired[i]? with
      | none => none
      | some row =>
        match finalize_row row cfg.RETIRED_THRESHOLD 0 freed with
        | none => none
        | some freed1 =>
          finalize_loop cfg n (i + 1) { hp with pointer := ps } { th with end_ := 0 } freed1

/-- Source function `HazardPointer_finalize`, run by thread `th`. Returns the registry, the
thread context and the arguments of the `free` calls in order. -/
def HazardPointer_finalize (cfg : Config) (th : Thread) (hp : HazardPointer) :
    Option (HazardPointer × Thread × List Nat) :=
  finalize_loop cfg th._num_threads 0 hp th []

/-- Source function `HazardPointer_protect(hp, atom)` where the cell `*atom` holds `atom` and is
not modified during the call: the first load yields `atom`, it is published in
`pointer[_thread_id]`, the re-load agrees (`node != atomic_load(atom)` is false)
and the `do … while` loop exits after its first iteration. -/
def HazardPointer_protect (th : Thread) (hp : HazardPointer) (atom : Nat) :
    Option (HazardPointer × Nat) :=
  let node := atom
  match setAt? hp.pointer th._thread_id node with
  | none => none
  | some ps => some ({ hp with pointer := ps }, node)

/-- Source function `HazardPointer_clear`. -/
def HazardPointer_clear (th : Thread) (hp : HazardPointer) : Option HazardPointer :=
  match setAt? hp.pointer th._thread_id 0 with
  | none => none
  | some ps => some { hp with pointer := ps }

/-- Inner loop of the scan: `for (j = 0; j < _num_threads; ++j) if (p == pointer[j])
{ can_be_freed = 0; break; }` with `n` iterations left at index `j`. -/
def can_be_freed (pointer : List Nat) (p : Nat) : Nat → Nat → Option Bool
  | 0, _ => some true
  | n + 1, j =>
    match pointer[j]? with
    | none => none
    | some h => if p = h then some false else can_be_freed pointer p n (j + 1)

/-- Outer loop of the scan in `HazardPointer_retire`:
`for (i = 0; i <= RETIRED_THRESHOLD; ++i)` over the row of the calling thread,
with `n` iterations left at index `i`; `end_` is the compaction cursor and
`freed` collects the arguments of the `free` calls. -/
def scan (pointer : List Nat) (num_threads : Nat) :
    Nat → Nat → List Nat → Nat → List Nat → Option (List Nat × Nat × List Nat)
  | 0, _, row, end_, freed => some (row, end_, freed)
  | n + 1, i, row, end_, freed =>
    match row[i]? with
    | none => none
    | some p =>
      match can_be_freed pointer p num_threads 0 with
      | none => none
      | some true => scan pointer num_threads n (i + 1) (row.set i 0) end_ (freed ++ [p])
      | some false =>
        if end_ ≠ i then
          match setAt? row end_ p with
          | none => none
          | some row1 => scan pointer num_threads n (i + 1) (row1.set i 0) (end_ + 1) freed
        else scan pointer num_threads n (i + 1) row (end_ + 1) freed

/-- Source function `HazardPointer_retire(hp, ptr)` run by thread `th`. Returns the registry, the
thread context (new `end`) and the arguments of the `free` calls in order. -/
def HazardPointer_retire (cfg : Config) (th : Thread) (hp : HazardPointer) (ptr : Nat) :
    Option (HazardPointer × Thread × List Nat) :=
  match hp.retired[th._thread_id]? with
  | none => none
  | some row =>
    match setAt? row th.end_ ptr with
    | none => none
    | some row1 =>
      if th.end_ + 1 = cfg.RETIRED_THRESHOLD + 1 then
        match scan hp.pointer th._num_threads (cfg.RETIRED_THRESHOLD + 1) 0 row1 0 [] with
        | none => none
        | some (row2, end2, freed) =>
          some ({ hp with retired := hp.retired.set th._thread_id row2 },
                { th with end_ := end2 }, freed)
      else
        some ({ hp with retired := hp.retired.set th._thread_id row1 },
              { th with end_ := th.end_ + 1 }, [])

/-- Slot `j` is inspected by the scan (`j < _num_threads`) and holds `p`. -/
def hazarded (pointer : List Nat) (num_threads : Nat) (p : Nat) : Bool :=
  decide (p ∈ pointer.take num_threads)

/-! ## A registry shared by several threads -/

/-- A call of the hazard-pointer interface. -/
inductive HPCall where
  | protect (atom : Nat)
  | clear
  | retire (ptr : Nat)
deriving DecidableEq

/-- One registry used by the threads with ids `0 .. MAX_THREADS-1`: the
registry itself, the global `_num_threads`, the thread-local `end` of every
thread (indexed by thread id) and the arguments of all `free` calls so far. -/
structure Registry where
  hp : HazardPointer
  num_threads : Nat
  ends : List Nat
  freed : List Nat
deriving DecidableEq

/-- State after `HazardPointer_initialize`, every thread registered with
`num_threads` and its `end` at the initial `0`. -/
def Registry.init (cfg : Config) (num_threads : Nat) : Registry :=
  { hp := HazardPointer_initialize cfg
    num_threads := num_threads
    ends := List.replicate cfg.MAX_THREADS 0
    freed := [] }

/-- Thread `t` performs the call `c` (calls of different threads are
interleaved as whole calls). -/
def Registry.call (cfg : Config) (w : Registry) (t : Nat) (c : HPCall) : Option Registry :=
  match w.ends[t]? with
  | none => none
  | some e =>
    match c with
    | .protect atom =>
      match HazardPointer_protect ⟨t, w.num_threads, e⟩ w.hp atom with
      | none => none
      | some (hp1, _) => some { w with hp := hp1 }
    | .clear =>
      match HazardPointer_clear ⟨t, w.num_threads, e⟩ w.hp with
      | none => none
      | some hp1 => some { w with hp := hp1 }
    | .retire ptr =>
      match HazardPointer_retire cfg ⟨t, w.num_threads, e⟩ w.hp ptr with
      | none => none
      | some (hp1, th1, fr) =>
        some { w with hp := hp1, ends := w.ends.set t th1.end_, freed := w.freed ++ fr }

/-- A sequence of calls, each tagged with the id of the calling thread. -/
def Registry.run (cfg : Config) (w : Registry) : List (Nat × HPCall) → Option Registry
  | [] => some w
  | (t, c) :: cs =>
    match w.call cfg t c with
    | none => none
    | some w1 => Registry.run cfg w1 cs

/-- Thread `t` runs `HazardPointer_finalize`. -/
def Registry.finalize (cfg : Config) (w : Registry) (t : Nat) : Option Registry :=
  match w.ends[t]? with
  | none => none
  | some e =>
    match HazardPointer_finalize cfg ⟨t, w.num_threads, e⟩ w.hp with
    | none => none
    | some (hp1, th1, fr) =>
      some { w with hp := hp1, ends := w.ends.set t th1.end_, freed := w.freed ++ fr }

/-- Shape of the registry arrays: `pointer[MAX_THREADS]`,
`retired[MAX_THREADS][RETIRED_THRESHOLD+1]`. -/
def HazardPointer.WellShaped (cfg : Config) (hp : HazardPointer) : Prop :=
  hp.pointer.length = cfg.MAX_THREADS ∧ hp.retired.length = cfg.MAX_THREADS ∧
    ∀ row ∈ hp.retired, row.length = cfg.RETIRED_THRESHOLD + 1

/-- Example constants: `MAX_THREADS = 4`, `RETIRED_THRESHOLD = 1`,
`BUFFER_SIZE = RING_SIZE = 4`, `EMPTY_VALUE = 0`, `TAKEN_VALUE = 2^64 - 1`. -/
def cfgEx : Config :=
  { EMPTY_VALUE := 0, TAKEN_VALUE := 18446744073709551615, BUFFER_SIZE := 4, RING_SIZE := 4,
    MAX_THREADS := 4, RETIRED_THRESHOLD := 1 }

/-- Invariant of the states of a registry used with `_num_threads = n`. -/
def Registry.Shaped (cfg : Config) (n : Nat) (w : Registry) : Prop :=
  w.hp.WellShaped cfg ∧ w.num_threads = n ∧ w.ends.length = cfg.MAX_THREADS

/-! ## Reference FIFO -/

/-- A call of the queue interface. -/
inductive Op where
  | push (v : Nat)
  | pop
deriving DecidableEq

/-- The values pushed by the calls `ops`, in order. -/
def pushed : List Op → List Nat
  | [] => []
  | .push v :: ops => v :: pushed ops
  | .pop :: ops => pushed ops

/-- Reference FIFO list after the calls `ops`, started with the content `q`. -/
def pendingAfter : List Nat → List Op → List Nat
  | q, [] => q
  | q, .push v :: ops => pendingAfter (q ++ [v]) ops
  | q, .pop :: ops => pendingAfter q.tail ops

/-- Reference FIFO: the results of the `pop` calls among `ops`, in order, started
with the content `q`: a `pop` yields and removes the oldest element, or yields
`EMPTY` when there is none. -/
def fifo (EMPTY : Nat) : List Nat → List Op → List Nat
  | _, [] => []
  | q, .push v :: ops => fifo EMPTY (q ++ [v]) ops
  | q, .pop :: ops => q.headD EMPTY :: fifo EMPTY q.tail ops

/-! ## SimpleQueue.c -/

/-- The node `struct SimpleQueueNode`. -/
structure SimpleQueueNode where
  next : Nat
  item : Nat
deriving DecidableEq

/-- Source function `SimpleQueueNode_new`. -/
def SimpleQueueNode_new (item : Nat) : SimpleQueueNode :=
  { next := 0, item := item }

/-- The `struct SimpleQueue` together with the heap its nodes live in. -/
structure SimpleQueue where
  heap : Heap SimpleQueueNode
  head : Nat
  tail : Nat
deriving DecidableEq

/-- Source function `SimpleQueue_new`. -/
def SimpleQueue_new (cfg : Config) : SimpleQueue :=
  let r := Heap.empty.malloc (SimpleQueueNode_new cfg.EMPTY_VALUE)
  { heap := r.1, head := r.2, tail := r.2 }

/-- Source function `SimpleQueue_push`. -/
def SimpleQueue_push (queue : SimpleQueue) (item : Nat) : Option SimpleQueue :=
  let r := queue.heap.malloc (SimpleQueueNode_new item)
  let new_node := r.2
  match r.1.deref queue.tail with
  | none => none
  | some t =>
    match r.1.store queue.tail { t with next := new_node } with
    | none => none
    | some h2 => some { heap := h2, head := queue.head, tail := new_node }

/-- Source function `SimpleQueue_pop`. -/
def SimpleQueue_pop (cfg : Config) (queue : SimpleQueue) : Option (Nat × SimpleQueue) :=
  match queue.heap.deref queue.head with
  | none => none
  | some h =>
    let begin := h.next
    if begin = 0 then some (cfg.EMPTY_VALUE, queue)
    else
      match queue.heap.deref begin with
      | none => none
      | some b =>
        let val := b.item
        match queue.heap.free queue.head with
        | none => none
        | some h1 => some (val, { heap := h1, head := begin, tail := queue.tail })

/-- Source function `SimpleQueue_is_empty`. -/
def SimpleQueue_is_empty (queue : SimpleQueue) : Option Bool :=
  match queue.heap.deref queue.head with
  | none => none
  | some h => some (decide (h.next = 0))

/-- A sequence of `SimpleQueue_push` / `SimpleQueue_pop` calls; returns the results
of the pops and the final queue. -/
def SimpleQueue_run (cfg : Config) : SimpleQueue → List Op → Option (List Nat × SimpleQueue)
  | q, [] => some ([], q)
  | q, .push v :: ops =>
    match SimpleQueue_push q v with
    | none => none
    | some q1 => SimpleQueue_run cfg q1 ops
  | q, .pop :: ops =>
    match SimpleQueue_pop cfg q with
    | none => none
    | some (v, q1) =>
      match SimpleQueue_run cfg q1 ops with
      | none => none
      | some (vs, q2) => some (v :: vs, q2)

/-- Representation invariant: the nodes of the list sit at the consecutive
addresses `head .. tail`, each linked to the next, the last one with a null
`next`; the node at `head` is the sentinel and the following ones carry the
pending values in order. -/
def SimpleQueue.Inv (q : SimpleQueue) (pending : List Nat) : Prop :=
  1 ≤ q.head ∧ q.tail = q.head + pending.length ∧ q.heap.cells.length = q.tail + 1 ∧
  ∃ s, ∀ i v, (s :: pending)[i]? = some v →
    q.heap.cells[q.head + i]?
      = some (some ⟨if i < pending.length then q.head + i + 1 else 0, v⟩)

/-- Invariant of the registry of a queue that is used by the single thread `th`:
the arrays have their declared shape, the slots of the other threads are null,
the cursor is inside the row, and the first `end` entries of the row of `th` are
pairwise distinct addresses of nodes that are still allocated in `cells` and lie
below `bound` (the head of the queue). -/
def HPInv {α : Type} (cfg : Config) (th : Thread) (hp : HazardPointer)
    (cells : List (Option α)) (bound : Nat) : Prop :=
  hp.WellShaped cfg ∧ th._thread_id < cfg.MAX_THREADS ∧ th._num_threads ≤ cfg.MAX_THREADS ∧
  th.end_ ≤ cfg.RETIRED_THRESHOLD ∧
  (∀ j, j ≠ th._thread_id → j < cfg.MAX_THREADS → hp.pointer[j]? = some 0) ∧
  ∃ row, hp.retired[th._thread_id]? = some row ∧ (row.take th.end_).Nodup ∧
    ∀ p ∈ row.take th.end_, 1 ≤ p ∧ p < bound ∧ ∃ x, cells[p]? = some (some x)

/-! ## Linked lists of nodes at consecutive addresses -/

/-- Shape shared by the queues in single-threaded use: the nodes of the list
sit at the consecutive addresses `head, head+1, …`, each linked to the next, the
last one (the tail, the most recently allocated cell) with a null `next`.
`segs` gives for every node the values it contributes to the queue content, and
`ok i n node seg` is the node-local part of the invariant for the `i`-th of the
`n` nodes (`i = 0`: the node at `head`; `i + 1 = n`: the tail). -/
def Chain {α : Type} (next : α → Nat) (ok : Nat → Nat → α → List Nat → Prop)
    (cells : List (Option α)) (head : Nat) (segs : List (List Nat)) : Prop :=
  1 ≤ head ∧ cells.length = head + segs.length ∧
  ∀ i seg, segs[i]? = some seg → ∃ node, cells[head + i]? = some (some node) ∧
    next node = (if i + 1 < segs.length then head + i + 1 else 0) ∧
    ok i segs.length node seg

/-! ## RingsQueue.c -/

/-- The node `struct RingsQueueNode`. A slot of the `malloc`ed `buffer` that was
never written is `none`; reading it is undefined behaviour. -/
structure RingsQueueNode where
  next : Nat
  buffer : List (Option Nat)
  push_idx : Nat
  pop_idx : Nat
deriving DecidableEq

/-- Source function `RingsQueueNode_new`: the buffer is left uninitialised. -/
def RingsQueueNode_new (cfg : Config) : RingsQueueNode :=
  { next := 0, buffer := List.replicate cfg.RING_SIZE none, push_idx := 0, pop_idx := 0 }

/-- The `struct RingsQueue` together with the heap its nodes live in. -/
structure RingsQueue where
  heap : Heap RingsQueueNode
  head : Nat
  tail : Nat
deriving DecidableEq

/-- Source function `RingsQueue_new`. -/
def RingsQueue_new (cfg : Config) : RingsQueue :=
  let r := Heap.empty.malloc (RingsQueueNode_new cfg)
  { heap := r.1, head := r.2, tail := r.2 }

/-- Source function `RingsQueue_push`. -/
def RingsQueue_push (cfg : Config) (queue : RingsQueue) (item : Nat) : Option RingsQueue :=
  match queue.heap.deref queue.tail with
  | none => none
  | some t =>
    if (t.push_idx : Int) - (t.pop_idx : Int) < (cfg.RING_SIZE : Int) then
      match setAt? t.buffer (t.push_idx % cfg.RING_SIZE) (some item) with
      | none => none
      | some buf =>
        match queue.heap.store queue.tail { t with buffer := buf, push_idx := t.push_idx + 1 } with
        | none => none
        | some h1 => some { queue with heap := h1 }
    else
      let node0 := RingsQueueNode_new cfg
      match setAt? node0.buffer 0 (some item) with
      | none => none
      | some buf =>
        let r := queue.heap.malloc { node0 with buffer := buf, push_idx := node0.push_idx + 1 }
        let node := r.2
        match r.1.store queue.tail { t with next := node } with
        | none => none
        | some h1 => some { heap := h1, head := queue.head, tail := node }

/-- First part of `RingsQueue_pop`: `pop_idx` is read from the head; if the head
has a successor and is exhausted, the head pointer moves to the successor,
`pop_idx` is re-read and the old head node is freed. Returns the queue and the
local `pop_idx`. -/
def RingsQueue_pop_advance (queue : RingsQueue) : Option (RingsQueue × Nat) :=
  match queue.heap.deref queue.head with
  | none => none
  | some h =>
    let pop_idx := h.pop_idx
    let node := h.next
    if node ≠ 0 ∧ pop_idx = h.push_idx then
      match queue.heap.deref node with
      | none => none
      | some n =>
        match queue.heap.free queue.head with
        | none => none
        | some h1 => some ({ heap := h1, head := node, tail := queue.tail }, n.pop_idx)
    else some (queue, pop_idx)

/-- Source function `RingsQueue_pop`. -/
def RingsQueue_pop (cfg : Config) (queue : RingsQueue) : Option (Nat × RingsQueue) :=
  match RingsQueue_pop_advance queue with
  | none => none
  | some (queue1, pop_idx) =>
    match queue1.heap.deref queue1.head with
    | none => none
    | some h =>
      if pop_idx = h.push_idx then some (cfg.EMPTY_VALUE, queue1)
      else
        match h.buffer[pop_idx % cfg.RING_SIZE]? with
        | some (some val) =>
          match queue1.heap.store queue1.head { h with pop_idx := h.pop_idx + 1 } with
          | none => none
          | some h1 => some (val, { queue1 with heap := h1 })
        | _ => none

/-- Source function `RingsQueue_is_empty`. -/
def RingsQueue_is_empty (queue : RingsQueue) : Option Bool :=
  match queue.heap.deref queue.head with
  | none => none
  | some h => some (decide (h.pop_idx = h.push_idx) && decide (h.next = 0))

/-- A sequence of `RingsQueue_push` / `RingsQueue_pop` calls; returns the results
of the pops and the final queue. -/
def RingsQueue_run (cfg : Config) : RingsQueue → List Op → Option (List Nat × RingsQueue)
  | q, [] => some ([], q)
  | q, .push v :: ops =>
    match RingsQueue_push cfg q v with
    | none => none
    | some q1 => RingsQueue_run cfg q1 ops
  | q, .pop :: ops =>
    match RingsQueue_pop cfg q with
    | none => none
    | some (v, q1) =>
      match RingsQueue_run cfg q1 ops with
      | none => none
      | some (vs, q2) => some (v :: vs, q2)

/-- Node-local invariant of a ring: the values `seg` still to be popped from it
are stored at the slots `pop_idx, pop_idx+1, … (mod RING_SIZE)`, up to
`push_idx`; a node behind the head has not been popped from and holds a value; a
node that is not the tail was full when its successor was allocated. -/
def RingsQueueNode.ok (cfg : Config) (i n : Nat) (node : RingsQueueNode)
    (seg : List Nat) : Prop :=
  node.buffer.length = cfg.RING_SIZE ∧ node.push_idx = node.pop_idx + seg.length ∧
  seg.length ≤ cfg.RING_SIZE ∧
  (∀ k v, seg[k]? = some v →
    node.buffer[(node.pop_idx + k) % cfg.RING_SIZE]? = some (some v)) ∧
  (i ≠ 0 → node.pop_idx = 0 ∧ seg ≠ []) ∧
  (i + 1 ≠ n → cfg.RING_SIZE ≤ node.push_idx)

/-- Representation invariant of a `RingsQueue` holding the values `pending`. -/
def RingsQueue.Inv (cfg : Config) (q : RingsQueue) (pending : List Nat) : Prop :=
  ∃ segs, Chain RingsQueueNode.next (RingsQueueNode.ok cfg) q.heap.cells q.head segs ∧
    segs ≠ [] ∧ q.tail + 1 = q.head + segs.length ∧ pending = segs.flatten

/-! ## LLQueue.c -/

/-- The node `struct LLNode`. -/
structure LLNode where
  next : Nat
  item : Nat
deriving DecidableEq

/-- Source function `LLNode_new`. -/
def LLNode_new (item : Nat) : LLNode :=
  { next := 0, item := item }

/-- The `struct LLQueue` together with the heap its nodes live in. -/
structure LLQueue where
  heap : Heap LLNode
  head : Nat
  tail : Nat
  hp : HazardPointer
deriving DecidableEq

/-- Source function `LLQueue_new`. -/
def LLQueue_new (cfg : Config) : LLQueue :=
  let r := Heap.empty.malloc (LLNode_new 1984)
  { heap := r.1, head := r.2, tail := r.2, hp := HazardPointer_initialize cfg }

/-- The `while (1)` loop of `LLQueue_push` for the already allocated `node`,
followed by the code after the loop (`queue->tail = node`, `HazardPointer_clear`). -/
def LLQueue_push_loop (th : Thread) (node : Nat) : Nat → LLQueue → Option LLQueue
  | 0, _ => none
  | fuel + 1, queue =>
    match HazardPointer_protect th queue.hp queue.tail with
    | none => none
    | some (hp1, tail) =>
      match queue.heap.deref tail with
      | none => none
      | some t =>
        if t.next = 0 then
          match queue.heap.store tail { t with next := node } with
          | none => none
          | some h1 =>
            match HazardPointer_clear th hp1 with
            | none => none
            | some hp2 => some { heap := h1, head := queue.head, tail := node, hp := hp2 }
        else LLQueue_push_loop th node fuel { queue with hp := hp1 }

/-- Source function `LLQueue_push`. -/
def LLQueue_push (th : Thread) (fuel : Nat) (queue : LLQueue) (item : Nat) : Option LLQueue :=
  let r := queue.heap.malloc (LLNode_new item)
  LLQueue_push_loop th r.2 fuel { queue with heap := r.1 }

/-- Source function `LLQueue_pop`. Returns the value, the queue and the thread context (the
thread-local `end` changes when the old head is retired). -/
def LLQueue_pop (cfg : Config) (th : Thread) : Nat → LLQueue → Option (Nat × LLQueue × Thread)
  | 0, _ => none
  | fuel + 1, queue =>
    match HazardPointer_protect th queue.hp queue.head with
    | none => none
    | some (hp1, head) =>
      match queue.heap.deref head with
      | none => none
      | some h =>
        let next := h.next
        if next = 0 then
          match HazardPointer_clear th hp1 with
          | none => none
          | some hp2 => some (cfg.EMPTY_VALUE, { queue with hp := hp2 }, th)
        else
          let val := h.item
          match queue.heap.store head { h with item := cfg.EMPTY_VALUE } with
          | none => none
          | some h1 =>
            if val ≠ cfg.EMPTY_VALUE then
              match h1.deref next with
              | none => none
              | some n =>
                match HazardPointer_clear th hp1 with
                | none => none
                | some hp2 =>
                  match HazardPointer_retire cfg th hp2 head with
                  | none => none
                  | some (hp3, th1, freed) =>
                    match h1.freeAll freed with
                    | none => none
                    | some h2 =>
                      some (n.item, { heap := h2, head := next, tail := queue.tail, hp := hp3 },
                        th1)
            else LLQueue_pop cfg th fuel { queue with heap := h1, hp := hp1 }

/-- Source function `LLQueue_is_empty`. -/
def LLQueue_is_empty (th : Thread) (queue : LLQueue) : Option (Bool × LLQueue) :=
  match HazardPointer_protect th queue.hp queue.head with
  | none => none
  | some (hp1, head) =>
    match queue.heap.deref head with
    | none => none
    | some h =>
      match HazardPointer_clear th hp1 with
      | none => none
      | some hp2 => some (decide (h.next = 0), { queue with hp := hp2 })

/-- A sequence of `LLQueue_push` / `LLQueue_pop` calls of one thread, every call
with loop fuel `fuel`; returns the results of the pops, the final queue and the
final thread context. -/
def LLQueue_run (cfg : Config) (fuel : Nat) :
    Thread → LLQueue → List Op → Option (List Nat × LLQueue × Thread)
  | th, q, [] => some ([], q, th)
  | th, q, .push v :: ops =>
    match LLQueue_push th fuel q v with
    | none => none
    | some q1 => LLQueue_run cfg fuel th q1 ops
  | th, q, .pop :: ops =>
    match LLQueue_pop cfg th fuel q with
    | none => none
    | some (v, q1, th1) =>
      match LLQueue_run cfg fuel th1 q1 ops with
      | none => none
      | some (vs, q2, th2) => some (v :: vs, q2, th2)

/-- Node-local invariant of an `LLQueue` node: its item is not `EMPTY_VALUE`; the
node at the head is the sentinel and contributes nothing, every other node
contributes its item. -/
def LLNode.ok (cfg : Config) (i _n : Nat) (node : LLNode) (seg : List Nat) : Prop :=
  node.item ≠ cfg.EMPTY_VALUE ∧ (i = 0 → seg = []) ∧ (i ≠ 0 → seg = [node.item])

/-- Representation invariant of an `LLQueue` holding the values `pending`, used by
the single thread `th`. -/
def LLQueue.Inv (cfg : Config) (th : Thread) (q : LLQueue) (pending : List Nat) : Prop :=
  ∃ segs, Chain LLNode.next (LLNode.ok cfg) q.heap.cells q.head segs ∧
    segs ≠ [] ∧ q.tail + 1 = q.head + segs.length ∧ pending = segs.flatten ∧
    HPInv cfg th q.hp q.heap.cells q.head

/-! ## BLQueue.c -/

/-- The node `struct BLNode`. -/
structure BLNode where
  next : Nat
  buffer : List Nat
  push_idx : Nat
  pop_idx : Nat
deriving DecidableEq

/-- Source function `BLNode_new`: every slot is `EMPTY_VALUE`. -/
def BLNode_new (cfg : Config) : BLNode :=
  { next := 0, buffer := List.replicate cfg.BUFFER_SIZE cfg.EMPTY_VALUE, push_idx := 0,
    pop_idx := 0 }

/-- The `struct BLQueue` together with the heap its nodes live in. -/
structure BLQueue where
  heap : Heap BLNode
  head : Nat
  tail : Nat
  hp : HazardPointer
deriving DecidableEq

/-- Source function `BLQueue_new`. -/
def BLQueue_new (cfg : Config) : BLQueue :=
  let r := Heap.empty.malloc (BLNode_new cfg)
  { heap := r.1, head := r.2, tail := r.2, hp := HazardPointer_initialize cfg }

/-- Source function `BLQueue_push`; `fuel` bounds the iterations of the
`while (1)` loop. -/
def BLQueue_push (cfg : Config) (th : Thread) : Nat → BLQueue → Nat → Option BLQueue
  | 0, _, _ => none
  | fuel + 1, queue, item =>
    match HazardPointer_protect th queue.hp queue.tail with
    | none => none
    | some (hp1, tail) =>
      match queue.heap.deref tail with
      | none => none
      | some t =>
        let push_idx := t.push_idx
        let t1 : BLNode := { t with push_idx := t.push_idx + 1 }
        match queue.heap.store tail t1 with
        | none => none
        | some heap1 =>
          if push_idx < cfg.BUFFER_SIZE then
            match t1.buffer[push_idx]? with
            | none => none
            | some cur =>
              if cur = cfg.EMPTY_VALUE then
                match heap1.store tail { t1 with buffer := t1.buffer.set push_idx item } with
                | none => none
                | some heap2 =>
                  match HazardPointer_clear th hp1 with
                  | none => none
                  | some hp2 => some { queue with heap := heap2, hp := hp2 }
              else BLQueue_push cfg th fuel { queue with heap := heap1, hp := hp1 } item
          else
            if t1.next ≠ 0 then
              BLQueue_push cfg th fuel { queue with heap := heap1, hp := hp1 } item
            else
              let node0 := BLNode_new cfg
              match setAt? node0.buffer 0 item with
              | none => none
              | some buf =>
                let r := heap1.malloc { node0 with buffer := buf, push_idx := 1 }
                let node := r.2
                if queue.tail = tail then
                  match r.1.store tail { t1 with next := node } with
                  | none => none
                  | some heap2 =>
                    match HazardPointer_clear th hp1 with
                    | none => none
                    | some hp2 => some { heap := heap2, head := queue.head, tail := node, hp := hp2 }
                else
                  match r.1.free node with
                  | none => none
                  | some heap2 => BLQueue_push cfg th fuel { queue with heap := heap2, hp := hp1 } item

/-- Source function `BLQueue_pop`; `fuel` bounds the iterations of the
`while (1)` loop. Returns the value, the queue and the thread context (the thread-local `end` changes when
a node is retired). -/
def BLQueue_pop (cfg : Config) : Nat → Thread → BLQueue → Option (Nat × BLQueue × Thread)
  | 0, _, _ => none
  | fuel + 1, th, queue =>
    match HazardPointer_protect th queue.hp queue.head with
    | none => none
    | some (hp1, head) =>
      match queue.heap.deref head with
      | none => none
      | some h =>
        let pop_idx := h.pop_idx
        let h1 : BLNode := { h with pop_idx := h.pop_idx + 1 }
        match queue.heap.store head h1 with
        | none => none
        | some heap1 =>
          if pop_idx < cfg.BUFFER_SIZE then
            match h1.buffer[pop_idx]? with
            | none => none
            | some val =>
              match heap1.store head { h1 with buffer := h1.buffer.set pop_idx cfg.TAKEN_VALUE } with
              | none => none
              | some heap2 =>
                if val ≠ cfg.EMPTY_VALUE then
                  match HazardPointer_clear th hp1 with
                  | none => none
                  | some hp2 => some (val, { queue with heap := heap2, hp := hp2 }, th)
                else BLQueue_pop cfg fuel th { queue with heap := heap2, hp := hp1 }
          else
            let next := h1.next
            if next = 0 then
              match HazardPointer_clear th hp1 with
              | none => none
              | some hp2 => some (cfg.EMPTY_VALUE, { queue with heap := heap1, hp := hp2 }, th)
            else
              if queue.head = head then
                match HazardPointer_retire cfg th hp1 head with
                | none => none
                | some (hp2, th1, freed) =>
                  match heap1.freeAll freed with
                  | none => none
                  | some heap2 =>
                    BLQueue_pop cfg fuel th1
                      { heap := heap2, head := next, tail := queue.tail, hp := hp2 }
              else BLQueue_pop cfg fuel th { queue with heap := heap1, hp := hp1 }

/-- Source function `BLQueue_is_empty` (the hazard slot is left set). -/
def BLQueue_is_empty (th : Thread) (queue : BLQueue) : Option (Bool × BLQueue) :=
  match HazardPointer_protect th queue.hp queue.head with
  | none => none
  | some (hp1, head) =>
    match queue.heap.deref head with
    | none => none
    | some h =>
      some (decide (h.pop_idx ≥ h.push_idx) && decide (h.next = 0), { queue with hp := hp1 })

/-- A sequence of `BLQueue_push` / `BLQueue_pop` calls of one thread, every call
with loop fuel `fuel`; returns the results of the pops, the final queue and the
final thread context. -/
def BLQueue_run (cfg : Config) (fuel : Nat) :
    Thread → BLQueue → List Op → Option (List Nat × BLQueue × Thread)
  | th, q, [] => some ([], q, th)
  | th, q, .push v :: ops =>
    match BLQueue_push cfg th fuel q v with
    | none => none
    | some q1 => BLQueue_run cfg fuel th q1 ops
  | th, q, .pop :: ops =>
    match BLQueue_pop cfg fuel th q with
    | none => none
    | some (v, q1, th1) =>
      match BLQueue_run cfg fuel th1 q1 ops with
      | none => none
      | some (vs, q2, th2) => some (v :: vs, q2, th2)

/-- Node-local invariant of a `BLQueue` node in single-threaded use: the slots
below `pop_idx` hold `TAKEN_VALUE`, the values `seg` still to be popped sit in the
slots from `pop_idx` up to `push_idx`, the slots from both indices on hold
`EMPTY_VALUE`; a node behind the head has not been popped from and holds a value;
a node that is not the tail is closed with `push_idx = BUFFER_SIZE + 1`, the tail
has `push_idx ≤ BUFFER_SIZE`. -/
def BLNode.ok (cfg : Config) (i n : Nat) (node : BLNode) (seg : List Nat) : Prop :=
  node.buffer.length = cfg.BUFFER_SIZE ∧
  seg.length = min node.push_idx cfg.BUFFER_SIZE - min node.pop_idx cfg.BUFFER_SIZE ∧
  (∀ j, j < node.pop_idx → j < cfg.BUFFER_SIZE → node.buffer[j]? = some cfg.TAKEN_VALUE) ∧
  (∀ k v, seg[k]? = some v →
    node.buffer[node.pop_idx + k]? = some v ∧ v ≠ cfg.EMPTY_VALUE ∧ v ≠ cfg.TAKEN_VALUE) ∧
  (∀ j, node.pop_idx ≤ j → node.push_idx ≤ j → j < cfg.BUFFER_SIZE →
    node.buffer[j]? = some cfg.EMPTY_VALUE) ∧
  (i ≠ 0 → node.pop_idx = 0 ∧ 1 ≤ node.push_idx) ∧
  (i + 1 ≠ n → node.push_idx = cfg.BUFFER_SIZE + 1) ∧
  (i + 1 = n → node.push_idx ≤ cfg.BUFFER_SIZE)

/-- Representation invariant of a `BLQueue` holding the values `pending`, used by
the single thread `th`. -/
def BLQueue.Inv (cfg : Config) (th : Thread) (q : BLQueue) (pending : List Nat) : Prop :=
  ∃ segs, Chain BLNode.next (BLNode.ok cfg) q.heap.cells q.head segs ∧
    segs ≠ [] ∧ q.tail + 1 = q.head + segs.length ∧ pending = segs.flatten ∧
    HPInv cfg th q.hp q.heap.cells q.head

/-! ## Sequences of retire calls -/

/-- A sequence of `HazardPointer_retire` calls of thread `th` on one registry. Every
call comes with the contents `hz` of the hazard array at the time of the call (the
slots are written by the other threads between the calls) and the pointer to
retire. -/
def HazardPointer_retire_seq (cfg : Config) :
    Thread → HazardPointer → List (List Nat × Nat) → Option (HazardPointer × Thread)
  | th, hp, [] => some (hp, th)
  | th, hp, (hz, ptr) :: calls =>
    match HazardPointer_retire cfg th { hp with pointer := hz } ptr with
    | none => none
    | some (hp1, th1, _) => HazardPointer_retire_seq cfg th1 hp1 calls

/-- State of the row of thread `me` between two retire calls: the cursor `end` is
inside the row, the entries `S` below the cursor are pairwise distinct and
non-null, the entries from the cursor on are null. -/
def RetiredRow (cfg : Config) (me n : Nat) (th : Thread) (hp : HazardPointer)
    (S : List Nat) : Prop :=
  th._thread_id = me ∧ th._num_threads = n ∧ th.end_ = S.length ∧
  S.length ≤ cfg.RETIRED_THRESHOLD ∧
  hp.retired[me]? = some (S ++ List.replicate (cfg.RETIRED_THRESHOLD + 1 - S.length) 0) ∧
  S.Nodup ∧ ∀ p ∈ S, p ≠ 0

/-! ## The slot state machine of BLQueue -/

/-- A change of the content of one slot of a `BLNode` buffer from `x` to `y` that
the slot state machine allows: no change, `EMPTY → v`, `v → TAKEN` or
`EMPTY → TAKEN`, where `v` is a value distinct from `EMPTY_VALUE` and
`TAKEN_VALUE`. -/
def BLSlot.step (cfg : Config) (x y : Nat) : Prop :=
  y = x ∨ (x = cfg.EMPTY_VALUE ∧ y ≠ cfg.EMPTY_VALUE ∧ y ≠ cfg.TAKEN_VALUE) ∨
    (x ≠ cfg.EMPTY_VALUE ∧ x ≠ cfg.TAKEN_VALUE ∧ y = cfg.TAKEN_VALUE) ∨
    (x = cfg.EMPTY_VALUE ∧ y = cfg.TAKEN_VALUE)

/-- The heap `h1` comes after the heap `h`: no cell of `h` has disappeared or been
allocated anew, and every node of `h` that still exists in `h1` has the same
number of slots, each slot changed along the slot state machine. -/
def BLHeap.evolves (cfg : Config) (h h1 : Heap BLNode) : Prop :=
  h.cells.length ≤ h1.cells.length ∧
  ∀ (p : Nat) (n1 : BLNode), p < h.cells.length → h1.deref p = some n1 →
    ∃ n : BLNode, h.deref p = some n ∧ n1.buffer.length = n.buffer.length ∧
      ∀ (j x y : Nat), n.buffer[j]? = some x → n1.buffer[j]? = some y → BLSlot.step cfg x y

/-! # Theorems -/

theorem can_be_freed_eq (pointer : List Nat) (p : Nat) :
    ∀ (n j : Nat), j + n ≤ pointer.length →
      can_be_freed pointer p n j = some (!decide (p ∈ (pointer.drop j).take n)) := by
  intro n
  induction n with
  | zero => intro j _; simp [can_be_freed]
  | succ n ih =>
    intro j hj
    have hlt : j < pointer.length := by omega
    have hd : pointer.drop j = pointer[j] :: pointer.drop (j + 1) :=
      List.drop_eq_getElem_cons hlt
    simp only [can_be_freed, List.getElem?_eq_getElem hlt]
    by_cases hp : p = pointer[j]
    · rw [if_pos hp, hd, List.take_succ_cons]
      simp [hp]
    · rw [if_neg hp, ih (j + 1) (by omega), hd, List.take_succ_cons]
      simp [hp]

theorem replicate_append_cons {α : Type} (n : Nat) (a : α) (l : List α) :
    List.replicate n a ++ a :: l = a :: (List.replicate n a ++ l) := by
  induction n with
  | zero => rfl
  | succ n ih => simp [List.replicate_succ, ih]

theorem can_be_freed_hazarded (pointer : List Nat) (num_threads : Nat) (p : Nat)
    (h : num_threads ≤ pointer.length) :
    can_be_freed pointer p num_threads 0 = some (!hazarded pointer num_threads p) := by
  rw [can_be_freed_eq pointer p num_threads 0 (by omega)]
  simp [hazarded]

/-- Loop invariant of the scan: with the survivors `S` compacted at the front,
`z` nulled positions behind them and the not yet inspected entries `rest`, the
remaining iterations keep the hazarded entries of `rest` and free the others. -/
theorem scan_spec (pointer : List Nat) (num_threads : Nat)
    (h : num_threads ≤ pointer.length) :
    ∀ (rest S : List Nat) (z : Nat) (freed : List Nat),
      scan pointer num_threads rest.length (S.length + z)
          (S ++ List.replicate z 0 ++ rest) S.length freed
        = some (S ++ rest.filter (hazarded pointer num_threads)
                  ++ List.replicate
                      (z + (rest.filter (fun p => !hazarded pointer num_threads p)).length) 0,
                S.length + (rest.filter (hazarded pointer num_threads)).length,
                freed ++ rest.filter (fun p => !hazarded pointer num_threads p)) := by
  intro rest
  induction rest with
  | nil => intro S z freed; simp [scan]
  | cons p r ih =>
    intro S z freed
    have hget : (S ++ List.replicate z 0 ++ p :: r)[S.length + z]? = some p := by
      rw [List.getElem?_append_right (by simp)]
      simp
    simp only [List.length_cons, scan, hget, can_be_freed_hazarded pointer num_threads p h]
    cases hz : hazarded pointer num_threads p with
    | false =>
      have hset : (S ++ List.replicate z 0 ++ p :: r).set (S.length + z) 0
          = S ++ List.replicate (z + 1) 0 ++ r := by
        rw [List.set_append_right _ _ (by simp)]
        simp [List.replicate_succ']
      simp only [Bool.not_false, hset]
      have := ih S (z + 1) (freed ++ [p])
      rw [show S.length + z + 1 = S.length + (z + 1) by omega, this]
      simp [List.filter_cons, hz]
      omega
    | true =>
      simp only [Bool.not_true]
      by_cases hz0 : z = 0
      · subst hz0
        have := ih (S ++ [p]) 0 freed
        simp only [List.length_append, List.length_singleton, List.replicate_zero,
          List.append_nil, Nat.add_zero, List.append_assoc, List.singleton_append] at this
        simp only [Nat.add_zero, ne_eq, not_true_eq_false, if_false, List.replicate_zero,
          List.append_nil, this]
        simp [List.filter_cons, hz]
        omega
      · obtain ⟨z', rfl⟩ : ∃ z', z = z' + 1 := ⟨z - 1, by omega⟩
        have hne : S.length ≠ S.length + (z' + 1) := by omega
        have hlen : S.length < (S ++ List.replicate (z' + 1) 0 ++ p :: r).length := by
          simp only [List.length_append, List.length_replicate, List.length_cons]; omega
        have hset : ((S ++ List.replicate (z' + 1) 0 ++ p :: r).set S.length p).set
            (S.length + (z' + 1)) 0 = (S ++ [p]) ++ List.replicate (z' + 1) 0 ++ r := by
          rw [List.append_assoc, List.set_append_right _ _ (le_refl _)]
          simp only [Nat.sub_self, List.replicate_succ, List.cons_append, List.set_cons_zero]
          rw [List.set_append_right _ _ (by omega)]
          simp only [Nat.add_sub_cancel_left, List.set_cons_succ]
          have : (List.replicate z' 0 ++ p :: r).set z' 0 = List.replicate z' 0 ++ 0 :: r := by
            rw [List.set_append_right _ _ (by simp)]
            simp
          rw [this, replicate_append_cons]
          simp
        simp only [ne_eq, hne, not_false_eq_true, if_true, setAt?, hlen, hset]
        have := ih (S ++ [p]) (z' + 1) freed
        simp only [List.length_append, List.length_singleton] at this
        rw [show S.length + (z' + 1) + 1 = S.length + 1 + (z' + 1) by omega, this]
        simp [List.filter_cons, hz]
        omega

theorem hazarded_iff (pointer : List Nat) (n : Nat) (p : Nat) :
    hazarded pointer n p = true ↔ ∃ j, j < n ∧ pointer[j]? = some p := by
  simp only [hazarded, decide_eq_true_eq, List.mem_iff_getElem?]
  constructor
  · rintro ⟨j, hj⟩
    have hlt : j < n := by
      by_contra hc
      rw [List.getElem?_take_eq_none (by omega)] at hj
      cases hj
    exact ⟨j, hlt, by rwa [List.getElem?_take_of_lt hlt] at hj⟩
  · rintro ⟨j, hlt, hj⟩
    exact ⟨j, by rwa [List.getElem?_take_of_lt hlt]⟩

/-- Behaviour of `HazardPointer_retire` below the threshold: the pointer is appended, nothing
is freed. -/
theorem retire_no_scan (cfg : Config) (th : Thread) (hp : HazardPointer) (ptr : Nat)
    (row : List Nat) (hrow : hp.retired[th._thread_id]? = some row)
    (hend : th.end_ < row.length) (hne : th.end_ ≠ cfg.RETIRED_THRESHOLD) :
    HazardPointer_retire cfg th hp ptr
      = some ({ hp with retired := hp.retired.set th._thread_id (row.set th.end_ ptr) },
              { th with end_ := th.end_ + 1 }, []) := by
  simp [HazardPointer_retire, hrow, setAt?, hend, hne]

/-- Behaviour of `HazardPointer_retire` at the threshold: the scan keeps the hazarded entries,
compacted in order, and frees the others. -/
theorem retire_scan (cfg : Config) (th : Thread) (hp : HazardPointer) (ptr : Nat)
    (row : List Nat) (hrow : hp.retired[th._thread_id]? = some row)
    (hlen : row.length = cfg.RETIRED_THRESHOLD + 1) (hend : th.end_ = cfg.RETIRED_THRESHOLD)
    (hn : th._num_threads ≤ hp.pointer.length) :
    HazardPointer_retire cfg th hp ptr
      = some (⟨hp.pointer, hp.retired.set th._thread_id
                ((row.set th.end_ ptr).filter (hazarded hp.pointer th._num_threads)
                  ++ List.replicate ((row.set th.end_ ptr).filter
                      (fun p => !hazarded hp.pointer th._num_threads p)).length 0)⟩,
              ⟨th._thread_id, th._num_threads,
                ((row.set th.end_ ptr).filter (hazarded hp.pointer th._num_threads)).length⟩,
              (row.set th.end_ ptr).filter
                (fun p => !hazarded hp.pointer th._num_threads p)) := by
  have hlt : th.end_ < row.length := by omega
  have hs := scan_spec hp.pointer th._num_threads hn (row.set th.end_ ptr) [] 0 []
  simp only [List.length_set, hlen, List.length_nil, Nat.zero_add, List.replicate_zero,
    List.nil_append] at hs
  rw [hend] at hs hlt
  simp only [HazardPointer_retire, hrow, setAt?, hend, if_true, if_pos hlt, hs]

theorem filter_hazarded_length (pointer : List Nat) (n : Nat) (l : List Nat) :
    (l.filter (hazarded pointer n)).length
      + (l.filter (fun p => !hazarded pointer n p)).length = l.length := by
  induction l with
  | nil => rfl
  | cons a l ih =>
    cases h : hazarded pointer n a <;> simp [List.filter_cons, h] <;> omega

/-- C5 (amended). Whenever `HazardPointer_retire` is called on a well-shaped row,
it returns, and every pointer it passes to `free` is an entry of the caller's
row that differs from the content of every inspected hazard slot `pointer[j]`,
`j < _num_threads`, at the scan. -/
theorem C5_scan_frees_only_unhazarded (cfg : Config) (th : Thread) (hp : HazardPointer)
    (ptr : Nat) (row : List Nat) (hrow : hp.retired[th._thread_id]? = some row)
    (hlen : row.length = cfg.RETIRED_THRESHOLD + 1) (hend : th.end_ ≤ cfg.RETIRED_THRESHOLD)
    (hn : th._num_threads ≤ hp.pointer.length) :
    ∃ hp1 th1 freed, HazardPointer_retire cfg th hp ptr = some (hp1, th1, freed) ∧
      ∀ p ∈ freed, p ∈ row.set th.end_ ptr ∧
        ∀ j, j < th._num_threads → hp.pointer[j]? ≠ some p := by
  by_cases he : th.end_ = cfg.RETIRED_THRESHOLD
  · refine ⟨_, _, _, retire_scan cfg th hp ptr row hrow hlen he hn, ?_⟩
    intro p hp'
    rw [List.mem_filter] at hp'
    refine ⟨hp'.1, fun j hj hc => ?_⟩
    have : hazarded hp.pointer th._num_threads p = true :=
      (hazarded_iff _ _ _).2 ⟨j, hj, hc⟩
    simp [this] at hp'
  · refine ⟨_, _, _, retire_no_scan cfg th hp ptr row hrow (by omega) he, ?_⟩
    intro p hp'
    cases hp'

/-- C5, witness: thread `0` of two, cursor at the threshold, retires `7` while
`pointer[1] = 7`. -/
theorem C5_scan_frees_only_unhazarded_witness :
    ∃ hp1 th1 freed,
      HazardPointer_retire cfgEx ⟨0, 2, 1⟩ ⟨[0, 7, 0, 0], [[5, 0], [0, 0], [0, 0], [0, 0]]⟩ 7
        = some (hp1, th1, freed) ∧
      ∀ p ∈ freed, p ∈ [5, 0].set 1 7 ∧
        ∀ j, j < 2 → ([0, 7, 0, 0] : List Nat)[j]? ≠ some p :=
  C5_scan_frees_only_unhazarded cfgEx ⟨0, 2, 1⟩ ⟨[0, 7, 0, 0], [[5, 0], [0, 0], [0, 0], [0, 0]]⟩
    7 [5, 0] (by rfl) (by rfl) (by decide) (by decide)

/-- C5 as stated fails: with `MAX_THREADS = 4` and `_num_threads = 1`, the thread
registered with id `2` protects `7`; the scan run by thread `0` inspects slot `0`
only and frees `7` although `pointer[2]` holds `7`. -/
theorem C5_counterexample :
    (Registry.run cfgEx (Registry.init cfgEx 1)
        [(2, .protect 7), (0, .retire 5), (0, .retire 7)]).map
      (fun w => (w.hp.pointer, w.freed)) = some ([0, 0, 7, 0], [5, 7]) := by
  decide

/-- C6. Postcondition of `HazardPointer_retire(hp, ptr)` for the calling thread
with cursor `end`: `ptr` is written at `retired[me][end]`; below the threshold
nothing else changes and the cursor becomes `end + 1`; at the threshold the scan
(a) frees exactly the row entries equal to no inspected hazard slot, (b) leaves
the survivors at positions `0..k-1` in their original order, (c) sets the cursor
to the number `k` of survivors and (d) leaves every position `k..RETIRED_THRESHOLD`
null. The hazard slots and the other rows are unchanged in both cases. -/
theorem C6_retire_postcondition (cfg : Config) (th : Thread) (hp : HazardPointer)
    (ptr : Nat) (row : List Nat) (hrow : hp.retired[th._thread_id]? = some row)
    (hlen : row.length = cfg.RETIRED_THRESHOLD + 1) (hend : th.end_ ≤ cfg.RETIRED_THRESHOLD)
    (hn : th._num_threads ≤ hp.pointer.length) :
    ∃ row2 k freed,
      HazardPointer_retire cfg th hp ptr
        = some (⟨hp.pointer, hp.retired.set th._thread_id row2⟩,
                ⟨th._thread_id, th._num_threads, k⟩, freed) ∧
      (th.end_ + 1 < cfg.RETIRED_THRESHOLD + 1 →
        row2 = row.set th.end_ ptr ∧ k = th.end_ + 1 ∧ freed = []) ∧
      (th.end_ + 1 = cfg.RETIRED_THRESHOLD + 1 →
        freed = (row.set th.end_ ptr).filter (fun p => !hazarded hp.pointer th._num_threads p) ∧
        row2.take k = (row.set th.end_ ptr).filter (hazarded hp.pointer th._num_threads) ∧
        k = ((row.set th.end_ ptr).filter (hazarded hp.pointer th._num_threads)).length ∧
        row2.length = cfg.RETIRED_THRESHOLD + 1 ∧
        ∀ i, k ≤ i → i ≤ cfg.RETIRED_THRESHOLD → row2[i]? = some 0) := by
  by_cases he : th.end_ = cfg.RETIRED_THRESHOLD
  · refine ⟨_, _, _, retire_scan cfg th hp ptr row hrow hlen he hn, fun h => by omega, fun _ => ?_⟩
    have hl := filter_hazarded_length hp.pointer th._num_threads (row.set th.end_ ptr)
    rw [List.length_set, hlen] at hl
    refine ⟨rfl, by simp, rfl, by simp; omega, fun i h1 h2 => ?_⟩
    rw [List.getElem?_append_right h1, List.getElem?_replicate]
    rw [if_pos (by omega)]
  · refine ⟨_, _, _, retire_no_scan cfg th hp ptr row hrow (by omega) he, fun _ => ⟨rfl, rfl, rfl⟩,
      fun h => by omega⟩

/-- C6, witness (the scenario of the claim): thread `A = 0` retires `7` at the
threshold while `pointer[B = 1] = 7`. -/
theorem C6_retire_postcondition_witness :
    ∃ row2 k freed,
      HazardPointer_retire cfgEx ⟨0, 2, 1⟩ ⟨[0, 7, 0, 0], [[5, 0], [0, 0], [0, 0], [0, 0]]⟩ 7
        = some (⟨[0, 7, 0, 0], [[5, 0], [0, 0], [0, 0], [0, 0]].set 0 row2⟩, ⟨0, 2, k⟩, freed) ∧
      (1 + 1 < 1 + 1 → row2 = [5, 0].set 1 7 ∧ k = 1 + 1 ∧ freed = []) ∧
      (1 + 1 = 1 + 1 →
        freed = ([5, 0].set 1 7).filter (fun p => !hazarded [0, 7, 0, 0] 2 p) ∧
        row2.take k = ([5, 0].set 1 7).filter (hazarded [0, 7, 0, 0] 2) ∧
        k = (([5, 0].set 1 7).filter (hazarded [0, 7, 0, 0] 2)).length ∧
        row2.length = 1 + 1 ∧
        ∀ i, k ≤ i → i ≤ 1 → row2[i]? = some 0) :=
  C6_retire_postcondition cfgEx ⟨0, 2, 1⟩ ⟨[0, 7, 0, 0], [[5, 0], [0, 0], [0, 0], [0, 0]]⟩
    7 [5, 0] (by rfl) (by rfl) (by decide) (by decide)

/-- The scenario of C6 evaluated: thread `0` retires `5`, then `7` while thread `1`
protects `7`: the scan frees `5` and keeps `7`; after thread `1` clears its slot,
the next scan of thread `0` (triggered by retiring `9`) frees `7` and `9`. -/
theorem retire_scenario :
    (Registry.run cfgEx (Registry.init cfgEx 2)
        [(1, .protect 7), (0, .retire 5), (0, .retire 7)]).map
      (fun w => (w.hp.retired[0]?, w.ends[0]?, w.freed)) = some (some [7, 0], some 1, [5]) ∧
    (Registry.run cfgEx (Registry.init cfgEx 2)
        [(1, .protect 7), (0, .retire 5), (0, .retire 7), (1, .clear), (0, .retire 9)]).map
      (fun w => (w.hp.retired[0]?, w.ends[0]?, w.freed)) = some (some [0, 0], some 0, [5, 7, 9]) := by
  decide

theorem finalize_row_eq (row : List Nat) :
    ∀ (n j : Nat) (freed : List Nat), j + n ≤ row.length →
      finalize_row row n j freed = some (freed ++ (row.drop j).take n) := by
  intro n
  induction n with
  | zero => intro j freed _; simp [finalize_row]
  | succ n ih =>
    intro j freed hj
    have hlt : j < row.length := by omega
    have hd : row.drop j = row[j] :: row.drop (j + 1) := List.drop_eq_getElem_cons hlt
    simp only [finalize_row, List.getElem?_eq_getElem hlt]
    rw [ih (j + 1) _ (by omega), hd, List.take_succ_cons]
    simp

theorem finalize_loop_spec (cfg : Config) :
    ∀ (n i : Nat) (hp : HazardPointer) (th : Thread) (freed : List Nat),
      i + n ≤ hp.pointer.length → i + n ≤ hp.retired.length →
      (∀ row ∈ hp.retired, cfg.RETIRED_THRESHOLD ≤ row.length) →
      ∃ ps th1 fr, finalize_loop cfg n i hp th freed = some (⟨ps, hp.retired⟩, th1, fr) ∧
        ps.length = hp.pointer.length ∧
        (∀ k, i ≤ k → k < i + n → ps[k]? = some 0) ∧
        (∀ k, (k < i ∨ i + n ≤ k) → ps[k]? = hp.pointer[k]?) ∧
        (∀ p ∈ freed, p ∈ fr) ∧
        (∀ r row j p, i ≤ r → r < i + n → hp.retired[r]? = some row →
          j < cfg.RETIRED_THRESHOLD → row[j]? = some p → p ∈ fr) := by
  intro n
  induction n with
  | zero =>
    intro i hp th freed _ _ _
    exact ⟨hp.pointer, th, freed, rfl, rfl, fun k h1 h2 => by omega, fun _ _ => rfl,
      fun _ h => h, fun r _ _ _ h1 h2 => by omega⟩
  | succ n ih =>
    intro i hp th freed h1 h2 h3
    have hi1 : i < hp.pointer.length := by omega
    have hi2 : i < hp.retired.length := by omega
    have hrl : cfg.RETIRED_THRESHOLD ≤ (hp.retired[i]).length :=
      h3 _ (List.getElem_mem hi2)
    obtain ⟨ps, th1, fr, he, hl, hz, hk, hf, hr⟩ :=
      ih (i + 1) ⟨hp.pointer.set i 0, hp.retired⟩ ⟨th._thread_id, th._num_threads, 0⟩
        (freed ++ (hp.retired[i]).take cfg.RETIRED_THRESHOLD)
        (by simp only [List.length_set]; omega) (by show i + 1 + n ≤ hp.retired.length; omega) h3
    refine ⟨ps, th1, fr, ?_, ?_, ?_, ?_, ?_, ?_⟩
    · simp only [finalize_loop, setAt?, hi1, if_true, List.getElem?_eq_getElem hi2,
        finalize_row_eq (hp.retired[i]) cfg.RETIRED_THRESHOLD 0 freed (by omega), List.drop_zero]
      exact he
    · simpa using hl
    · intro k hk1 hk2
      by_cases hki : k = i
      · subst hki
        rw [hk k (Or.inl (by omega))]
        simp [hi1]
      · exact hz k (by omega) (by omega)
    · intro k hk1
      rw [hk k (by omega)]
      simp only
      rw [List.getElem?_set_ne (by omega)]
    · intro p hp'
      exact hf p (List.mem_append_left _ hp')
    · intro r row j p hr1 hr2 hrow hj hp'
      by_cases hri : r = i
      · subst hri
        apply hf
        apply List.mem_append_right
        rw [List.getElem?_eq_getElem hi2] at hrow
        cases hrow
        rw [List.mem_iff_getElem?]
        exact ⟨j, by rw [List.getElem?_take_of_lt hj]; exact hp'⟩
      · exact hr r row j p (by omega) (by omega) hrow hj hp'

theorem initialize_wellShaped (cfg : Config) : ( HazardPointer_initialize cfg).WellShaped cfg := by
  refine ⟨by simp [ HazardPointer_initialize], by simp [ HazardPointer_initialize], ?_⟩
  intro row hrow
  simp only [ HazardPointer_initialize] at hrow
  rw [List.eq_of_mem_replicate hrow]
  simp

theorem wellShaped_set_row (cfg : Config) (hp : HazardPointer) (i : Nat) (row : List Nat)
    (h : hp.WellShaped cfg) (hrow : row.length = cfg.RETIRED_THRESHOLD + 1) :
    (HazardPointer.mk hp.pointer (hp.retired.set i row)).WellShaped cfg := by
  refine ⟨h.1, by simpa using h.2.1, ?_⟩
  intro r hr
  rcases List.mem_or_eq_of_mem_set hr with h1 | h1
  · exact h.2.2 r h1
  · rw [h1]; exact hrow

theorem wellShaped_retire (cfg : Config) (th : Thread) (hp : HazardPointer) (ptr : Nat)
    (h : hp.WellShaped cfg) (hn : th._num_threads ≤ cfg.MAX_THREADS)
    {hp1 : HazardPointer} {th1 : Thread} {fr : List Nat}
    (hr : HazardPointer_retire cfg th hp ptr = some (hp1, th1, fr)) :
    hp1.WellShaped cfg := by
  cases hrow : hp.retired[th._thread_id]? with
  | none => simp [HazardPointer_retire, hrow] at hr
  | some row =>
    have hlen : row.length = cfg.RETIRED_THRESHOLD + 1 :=
      h.2.2 row (List.getElem?_mem hrow)
    by_cases hend : th.end_ ≤ cfg.RETIRED_THRESHOLD
    · by_cases he : th.end_ = cfg.RETIRED_THRESHOLD
      · rw [retire_scan cfg th hp ptr row hrow hlen he (by rw [h.1]; exact hn)] at hr
        injection hr with hr
        injection hr with hr1 _
        rw [← hr1]
        apply wellShaped_set_row cfg hp _ _ h
        have hl := filter_hazarded_length hp.pointer th._num_threads (row.set th.end_ ptr)
        rw [List.length_set, hlen] at hl
        simpa using hl
      · rw [retire_no_scan cfg th hp ptr row hrow (by omega) he] at hr
        injection hr with hr
        injection hr with hr1 _
        rw [← hr1]
        exact wellShaped_set_row cfg hp _ _ h (by simpa using hlen)
    · have hno : setAt? row th.end_ ptr = none := by
        simp only [setAt?, hlen, ite_eq_right_iff]
        intro hc
        omega
      simp [HazardPointer_retire, hrow, hno] at hr

theorem shaped_call (cfg : Config) (n : Nat) (hn : n ≤ cfg.MAX_THREADS) (w w1 : Registry)
    (t : Nat) (c : HPCall) (h : w.Shaped cfg n) (hc : w.call cfg t c = some w1) :
    w1.Shaped cfg n := by
  obtain ⟨hs, hnum, hends⟩ := h
  unfold Registry.call at hc
  cases he : w.ends[t]? with
  | none => simp [he] at hc
  | some e =>
    simp only [he] at hc
    cases c with
    | protect atom =>
      by_cases hlt : t < w.hp.pointer.length
      · simp only [HazardPointer_protect, setAt?, hlt, if_true] at hc
        cases hc
        exact ⟨⟨by simpa using hs.1, hs.2.1, hs.2.2⟩, hnum, hends⟩
      · simp [HazardPointer_protect, setAt?, hlt] at hc
    | clear =>
      by_cases hlt : t < w.hp.pointer.length
      · simp only [HazardPointer_clear, setAt?, hlt, if_true] at hc
        cases hc
        exact ⟨⟨by simpa using hs.1, hs.2.1, hs.2.2⟩, hnum, hends⟩
      · simp [HazardPointer_clear, setAt?, hlt] at hc
    | retire ptr =>
      simp only at hc
      split at hc
      · cases hc
      · rename_i hp1 th1 fr heq
        cases hc
        exact ⟨wellShaped_retire cfg _ w.hp ptr hs (by simpa [hnum] using hn) heq, hnum,
          by simpa using hends⟩

theorem shaped_run (cfg : Config) (n : Nat) (hn : n ≤ cfg.MAX_THREADS) :
    ∀ (calls : List (Nat × HPCall)) (w w1 : Registry), w.Shaped cfg n →
      Registry.run cfg w calls = some w1 → w1.Shaped cfg n := by
  intro calls
  induction calls with
  | nil => intro w w1 h hr; simp only [Registry.run] at hr; cases hr; exact h
  | cons tc cs ih =>
    intro w w1 h hr
    obtain ⟨t, c⟩ := tc
    simp only [Registry.run] at hr
    cases hc : w.call cfg t c with
    | none => simp [hc] at hr
    | some w2 =>
      simp only [hc] at hr
      exact ih w2 w1 (shaped_call cfg n hn w w2 t c h hc) hr

theorem shaped_init (cfg : Config) (n : Nat) : (Registry.init cfg n).Shaped cfg n :=
  ⟨initialize_wellShaped cfg, rfl, by simp [Registry.init]⟩

/-- C7 (amended). In every registry state reached from `HazardPointer_initialize`
by `protect` / `clear` / `retire` calls of threads registered with
`num_threads ≤ MAX_THREADS`, `HazardPointer_finalize` (run by a thread with id below
`MAX_THREADS`) returns; afterwards every entry at a position below
`RETIRED_THRESHOLD` of a row below `num_threads` has been passed to `free`, the slot
`pointer[i]` is null for every `i < num_threads`, and the slots `i ≥ num_threads`
are unchanged. -/
theorem C7_finalize_releases_below_num_threads (cfg : Config) (n : Nat)
    (hn : n ≤ cfg.MAX_THREADS) (calls : List (Nat × HPCall)) (w : Registry) (t : Nat)
    (ht : t < cfg.MAX_THREADS)
    (hrun : Registry.run cfg (Registry.init cfg n) calls = some w) :
    ∃ w1, w.finalize cfg t = some w1 ∧
      (∀ i row j p, i < n → w.hp.retired[i]? = some row → j < cfg.RETIRED_THRESHOLD →
        row[j]? = some p → p ∈ w1.freed) ∧
      (∀ i, i < n → w1.hp.pointer[i]? = some 0) ∧
      (∀ i, n ≤ i → w1.hp.pointer[i]? = w.hp.pointer[i]?) := by
  obtain ⟨hs, hnum, hends⟩ := shaped_run cfg n hn calls _ w (shaped_init cfg n) hrun
  have hte : t < w.ends.length := by omega
  obtain ⟨ps, th1, fr, he, -, hz, hk, -, hr⟩ :=
    finalize_loop_spec cfg n 0 w.hp ⟨t, n, w.ends[t]⟩ []
      (by rw [hs.1]; omega) (by rw [hs.2.1]; omega)
      (fun row hrow => by rw [hs.2.2 row hrow]; omega)
  have hfin : w.finalize cfg t
      = some ⟨⟨ps, w.hp.retired⟩, w.num_threads, w.ends.set t th1.end_, w.freed ++ fr⟩ := by
    simp only [Registry.finalize, List.getElem?_eq_getElem hte, HazardPointer_finalize, hnum, he]
  refine ⟨_, hfin, ?_, ?_, ?_⟩
  · intro i row j p hi hrow hj hp'
    exact List.mem_append_right _ (hr i row j p (by omega) (by omega) hrow hj hp')
  · intro i hi
    exact hz i (by omega) (by omega)
  · intro i hi
    exact hk i (Or.inr (by omega))

/-- C7, witness: two threads, thread `1` protects `7`, thread `0` retires `5`, then
thread `0` finalizes. -/
theorem C7_finalize_releases_below_num_threads_witness :
    ∃ w1, (Registry.mk ⟨[0, 7, 0, 0], [[5, 0], [0, 0], [0, 0], [0, 0]]⟩ 2 [1, 0, 0, 0] []).finalize
        cfgEx 0 = some w1 ∧
      (∀ i row j p, i < 2 →
        ([[5, 0], [0, 0], [0, 0], [0, 0]] : List (List Nat))[i]? = some row → j < 1 →
        row[j]? = some p → p ∈ w1.freed) ∧
      (∀ i, i < 2 → w1.hp.pointer[i]? = some 0) ∧
      (∀ i, 2 ≤ i → w1.hp.pointer[i]? = ([0, 7, 0, 0] : List Nat)[i]?) :=
  C7_finalize_releases_below_num_threads cfgEx 2 (by decide) [(1, .protect 7), (0, .retire 5)]
    ⟨⟨[0, 7, 0, 0], [[5, 0], [0, 0], [0, 0], [0, 0]]⟩, 2, [1, 0, 0, 0], []⟩ 0 (by decide)
    (by decide)

/-- C7 as stated fails. (1) With `_num_threads = 1` the thread registered with id
`2` protects `7` and retires `5`; `HazardPointer_finalize` visits slot `0` and row
`0` only: afterwards `pointer[2]` still holds `7` and `5` has not been passed to
`free`. (2) With `_num_threads = 2 > RETIRED_THRESHOLD = 1`, thread `1` protects `5`,
thread `0` protects `7` and retires `5` and `7`: the scan keeps both, `7` stays at
position `RETIRED_THRESHOLD` of row `0` and `HazardPointer_finalize`, whose inner
loop stops below `RETIRED_THRESHOLD`, never passes it to `free`. -/
theorem C7_counterexample :
    ((Registry.run cfgEx (Registry.init cfgEx 1) [(2, .protect 7), (2, .retire 5)]).bind
        (fun w => w.finalize cfgEx 0)).map
      (fun w => (w.hp.pointer, w.hp.retired[2]?, w.freed))
      = some ([0, 0, 7, 0], some [5, 0], [0]) ∧
    ((Registry.run cfgEx (Registry.init cfgEx 2)
          [(1, .protect 5), (0, .protect 7), (0, .retire 5), (0, .retire 7)]).bind
        (fun w => w.finalize cfgEx 0)).map (fun w => (w.hp.retired[0]?, w.freed))
      = some (some [5, 7], [5, 0]) := by
  decide

/-! ### Heap -/

theorem Heap.deref_of_cell {α : Type} (h : Heap α) (p : Nat) (x : α)
    (hc : h.cells[p]? = some (some x)) : h.deref p = some x := by
  simp only [Heap.deref, hc]
  rfl

theorem Heap.deref_eq_some {α : Type} (h : Heap α) (p : Nat) (x : α) :
    h.deref p = some x ↔ h.cells[p]? = some (some x) := by
  constructor
  · intro hd
    simp only [Heap.deref] at hd
    cases hc : h.cells[p]? with
    | none => rw [hc] at hd; cases hd
    | some o =>
      rw [hc] at hd
      cases o with
      | none => cases hd
      | some y =>
        have : y = x := by simpa [Option.join] using hd
        rw [this]
  · exact Heap.deref_of_cell h p x

theorem Heap.store_of_cell {α : Type} (h : Heap α) (p : Nat) (x y : α)
    (hc : h.cells[p]? = some (some y)) : h.store p x = some ⟨h.cells.set p (some x)⟩ := by
  simp only [Heap.store, Heap.deref_of_cell h p y hc]

theorem Heap.free_of_cell {α : Type} (h : Heap α) (p : Nat) (y : α) (hp : p ≠ 0)
    (hc : h.cells[p]? = some (some y)) : h.free p = some ⟨h.cells.set p none⟩ := by
  simp only [Heap.free, Heap.deref_of_cell h p y hc, if_neg hp]

theorem Heap.freeAll_spec {α : Type} :
    ∀ (ps : List Nat) (cells : List (Option α)), ps.Nodup →
      (∀ p ∈ ps, p ≠ 0 ∧ ∃ x, cells[p]? = some (some x)) →
      ∃ cells1, Heap.freeAll ⟨cells⟩ ps = some ⟨cells1⟩ ∧ cells1.length = cells.length ∧
        ∀ p, p ∉ ps → cells1[p]? = cells[p]? := by
  intro ps
  induction ps with
  | nil => intro cells _ _; exact ⟨cells, rfl, rfl, fun _ _ => rfl⟩
  | cons a ps ih =>
    intro cells hnd hlive
    obtain ⟨ha, hps⟩ := List.nodup_cons.1 hnd
    obtain ⟨ha0, x, hx⟩ := hlive a (List.mem_cons_self _ _)
    obtain ⟨cells1, hf, hl, hsame⟩ := ih (cells.set a none) hps (by
      intro p hp
      obtain ⟨hp0, y, hy⟩ := hlive p (List.mem_cons_of_mem _ hp)
      refine ⟨hp0, y, ?_⟩
      rw [List.getElem?_set_ne (by rintro rfl; exact ha hp)]
      exact hy)
    refine ⟨cells1, ?_, by simpa using hl, ?_⟩
    · simp only [Heap.freeAll, Heap.free_of_cell ⟨cells⟩ a x ha0 hx]
      exact hf
    · intro p hp
      rw [hsame p (fun h => hp (List.mem_cons_of_mem _ h)),
        List.getElem?_set_ne (by rintro rfl; exact hp (List.mem_cons_self _ _))]

/-! ### The registry of a queue used by one thread -/

theorem take_set_self_succ {α : Type} (row : List α) (e : Nat) (x : α) (h : e < row.length) :
    (row.set e x).take (e + 1) = row.take e ++ [x] := by
  have h1 : (row.set e x).take e = row.take e := by
    apply List.ext_getElem?
    intro i
    rw [List.getElem?_take, List.getElem?_take]
    split
    · rw [List.getElem?_set_ne (by omega)]
    · rfl
  rw [List.take_succ, List.getElem?_set_self h, h1]
  rfl

theorem length_le_one_of_nodup_of_eq {l : List Nat} (h : Nat) (hnd : l.Nodup)
    (heq : ∀ p ∈ l, p = h) : l.length ≤ 1 := by
  match l, hnd, heq with
  | [], _, _ => simp
  | [_], _, _ => simp
  | a :: b :: l, hnd, heq =>
    have ha := heq a (by simp)
    have hb := heq b (by simp)
    have := (List.nodup_cons.1 hnd).1
    rw [ha, hb] at this
    simp at this

section HPInvLemmas

variable {α : Type} {cfg : Config} {th : Thread} {hp : HazardPointer}
  {cells : List (Option α)} {bound : Nat}

theorem HPInv.protect (h : HPInv cfg th hp cells bound) (atom : Nat) :
    HazardPointer_protect th hp atom
        = some (⟨hp.pointer.set th._thread_id atom, hp.retired⟩, atom) ∧
      HPInv cfg th ⟨hp.pointer.set th._thread_id atom, hp.retired⟩ cells bound := by
  obtain ⟨hw, hme, hn, hend, hoth, hrow⟩ := h
  have hlt : th._thread_id < hp.pointer.length := by rw [hw.1]; exact hme
  refine ⟨by simp only [HazardPointer_protect, setAt?, hlt, if_true], ?_⟩
  refine ⟨⟨by simpa using hw.1, hw.2.1, hw.2.2⟩, hme, hn, hend, ?_, hrow⟩
  intro j hj hjm
  rw [List.getElem?_set_ne (Ne.symm hj)]
  exact hoth j hj hjm

theorem HPInv.clear (h : HPInv cfg th hp cells bound) :
    HazardPointer_clear th hp = some ⟨hp.pointer.set th._thread_id 0, hp.retired⟩ ∧
      HPInv cfg th ⟨hp.pointer.set th._thread_id 0, hp.retired⟩ cells bound := by
  obtain ⟨hw, hme, hn, hend, hoth, hrow⟩ := h
  have hlt : th._thread_id < hp.pointer.length := by rw [hw.1]; exact hme
  refine ⟨by simp only [HazardPointer_clear, setAt?, hlt, if_true], ?_⟩
  refine ⟨⟨by simpa using hw.1, hw.2.1, hw.2.2⟩, hme, hn, hend, ?_, hrow⟩
  intro j hj hjm
  rw [List.getElem?_set_ne (Ne.symm hj)]
  exact hoth j hj hjm

theorem HPInv.weaken (h : HPInv cfg th hp cells bound) (cells1 : List (Option α))
    (bound1 : Nat) (hb : bound ≤ bound1)
    (hf : ∀ p x, p < bound → cells[p]? = some (some x) → ∃ y, cells1[p]? = some (some y)) :
    HPInv cfg th hp cells1 bound1 := by
  obtain ⟨hw, hme, hn, hend, hoth, row, hrow, hnd, hent⟩ := h
  refine ⟨hw, hme, hn, hend, hoth, row, hrow, hnd, ?_⟩
  intro p hp
  obtain ⟨h1, h2, x, hx⟩ := hent p hp
  exact ⟨h1, by omega, hf p x h2 hx⟩

theorem HPInv.pointer_me (h : HPInv cfg th hp cells bound) (x : Nat) :
    (hp.pointer.set th._thread_id x)[th._thread_id]? = some x := by
  have hlt : th._thread_id < hp.pointer.length := by rw [h.1.1]; exact h.2.1
  exact List.getElem?_set_self hlt

theorem HPInv.hazarded_eq (h : HPInv cfg th hp cells bound) (p : Nat) (hp0 : p ≠ 0)
    (hz : hazarded hp.pointer th._num_threads p = true) :
    hp.pointer[th._thread_id]? = some p := by
  obtain ⟨j, hj, hjp⟩ := (hazarded_iff _ _ _).1 hz
  by_cases hjm : j = th._thread_id
  · rw [← hjm]; exact hjp
  · have := h.2.2.2.2.1 j hjm (by have := h.2.2.1; omega)
    rw [this] at hjp
    cases hjp
    exact absurd rfl hp0

/-- Behaviour of `HazardPointer_retire` of the old head `ptr` by the single thread using the
queue: the call returns, the nodes it frees are allocated retired nodes (so the
`free` calls are legal), cells from `bound1` on are untouched, and the invariant
is re-established. -/
theorem HPInv.retire (h : HPInv cfg th hp cells bound) (ptr : Nat) (x : α) (bound1 : Nat)
    (hT : 1 ≤ cfg.RETIRED_THRESHOLD ∨ hp.pointer[th._thread_id]? = some 0)
    (hb : bound ≤ ptr) (hb1 : ptr < bound1) (hp1 : 1 ≤ ptr)
    (hlive : cells[ptr]? = some (some x)) :
    ∃ hp1 th1 freed cells1, HazardPointer_retire cfg th hp ptr = some (hp1, th1, freed) ∧
      Heap.freeAll ⟨cells⟩ freed = some ⟨cells1⟩ ∧ cells1.length = cells.length ∧
      (∀ p, bound1 ≤ p → cells1[p]? = cells[p]?) ∧
      HPInv cfg th1 hp1 cells1 bound1 ∧ hp1.pointer = hp.pointer ∧
      th1._thread_id = th._thread_id ∧ th1._num_threads = th._num_threads := by
  have hinv := h
  obtain ⟨hw, hme, hn, hend, hoth, row, hrow, hnd, hent⟩ := h
  have hlen : row.length = cfg.RETIRED_THRESHOLD + 1 := hw.2.2 row (List.getElem?_mem hrow)
  have hmr : th._thread_id < hp.retired.length := by rw [hw.2.1]; exact hme
  have hfresh : ptr ∉ row.take th.end_ := by
    intro hc
    have := (hent ptr hc).2.1
    omega
  have htake : (row.set th.end_ ptr).take (th.end_ + 1) = row.take th.end_ ++ [ptr] :=
    take_set_self_succ row th.end_ ptr (by omega)
  have hnd1 : (row.take th.end_ ++ [ptr]).Nodup := by
    rw [List.nodup_append]
    refine ⟨hnd, by simp, ?_⟩
    intro a ha hb'
    simp only [List.mem_singleton] at hb'
    subst hb'
    exact hfresh ha
  have hent1 : ∀ p ∈ row.take th.end_ ++ [ptr],
      1 ≤ p ∧ p < bound1 ∧ ∃ y, cells[p]? = some (some y) := by
    intro p hp
    rcases List.mem_append.1 hp with hp | hp
    · obtain ⟨h1, h2, h3⟩ := hent p hp
      exact ⟨h1, by omega, h3⟩
    · simp only [List.mem_singleton] at hp
      subst hp
      exact ⟨hp1, hb1, x, hlive⟩
  by_cases he : th.end_ = cfg.RETIRED_THRESHOLD
  · -- the scan runs
    have hfull : row.set th.end_ ptr = row.take th.end_ ++ [ptr] := by
      rw [← htake, List.take_of_length_le (by simp; omega)]
    have hr := retire_scan cfg th hp ptr row hrow hlen he (by rw [hw.1]; exact hn)
    rw [hfull] at hr
    have hsubF : List.Sublist ((row.take th.end_ ++ [ptr]).filter
        (fun p => !hazarded hp.pointer th._num_threads p)) (row.take th.end_ ++ [ptr]) :=
      List.filter_sublist _
    have hsubS : List.Sublist ((row.take th.end_ ++ [ptr]).filter
        (hazarded hp.pointer th._num_threads)) (row.take th.end_ ++ [ptr]) :=
      List.filter_sublist _
    obtain ⟨cells1, hfree, hl1, hsame⟩ := Heap.freeAll_spec _ cells (hnd1.sublist hsubF) (by
      intro p hp
      obtain ⟨h1, _, h3⟩ := hent1 p (hsubF.subset hp)
      exact ⟨by omega, h3⟩)
    have hSlen : ((row.take th.end_ ++ [ptr]).filter
        (hazarded hp.pointer th._num_threads)).length ≤ cfg.RETIRED_THRESHOLD := by
      rcases hT with hT | hT
      · cases hpm : hp.pointer[th._thread_id]? with
        | none =>
          have : th._thread_id < hp.pointer.length := by rw [hw.1]; exact hme
          rw [List.getElem?_eq_getElem this] at hpm
          cases hpm
        | some hz =>
          have := length_le_one_of_nodup_of_eq hz (hnd1.sublist hsubS) (by
            intro p hp
            rw [List.mem_filter] at hp
            have h1 := (hent1 p hp.1).1
            have := hinv.hazarded_eq p (by omega) hp.2
            rw [hpm] at this
            cases this
            rfl)
          omega
      · have : (row.take th.end_ ++ [ptr]).filter (hazarded hp.pointer th._num_threads)
            = [] := by
          rw [List.filter_eq_nil_iff]
          intro p hp hz
          have h1 := (hent1 p hp).1
          have := hinv.hazarded_eq p (by omega) hz
          rw [hT] at this
          cases this
          omega
        rw [this]
        simp
    refine ⟨_, _, _, cells1, hr, hfree, hl1, ?_, ?_, rfl, rfl, rfl⟩
    · intro p hp
      apply hsame
      intro hc
      have := (hent1 p (hsubF.subset hc)).2.1
      omega
    · refine ⟨?_, hme, hn, hSlen, hoth, _, List.getElem?_set_self hmr, ?_, ?_⟩
      · apply wellShaped_set_row cfg hp _ _ hw
        have hl := filter_hazarded_length hp.pointer th._num_threads (row.take th.end_ ++ [ptr])
        rw [← hfull, List.length_set, hlen] at hl
        rw [← hfull]
        simpa using hl
      · simp only [List.take_left']
        exact hnd1.sublist hsubS
      · simp only [List.take_left']
        intro p hp
        obtain ⟨h1, h2, y, hy⟩ := hent1 p (hsubS.subset hp)
        refine ⟨h1, h2, y, ?_⟩
        rw [hsame p ?_]
        · exact hy
        · intro hc
          rw [List.mem_filter] at hp hc
          simp [hp.2] at hc
  · -- below the threshold
    have hr := retire_no_scan cfg th hp ptr row hrow (by omega) he
    refine ⟨_, _, _, cells, hr, rfl, rfl, fun _ _ => rfl, ?_, rfl, rfl, rfl⟩
    refine ⟨wellShaped_set_row cfg hp _ _ hw (by simpa using hlen), hme, hn,
      by simp only; omega, hoth, _, List.getElem?_set_self hmr, ?_, ?_⟩
    · rw [htake]; exact hnd1
    · rw [htake]; exact hent1

end HPInvLemmas

/-! ### SimpleQueue -/

theorem SimpleQueue.sq_inv_new (cfg : Config) : (SimpleQueue_new cfg).Inv [] := by
  refine ⟨Nat.le_refl 1, rfl, rfl, cfg.EMPTY_VALUE, ?_⟩
  intro i v h
  match i, h with
  | 0, h =>
    simp only [List.getElem?_cons_zero, Option.some.injEq] at h
    subst h
    rfl

theorem SimpleQueue.sq_push_spec (q : SimpleQueue) (pending : List Nat) (item : Nat)
    (h : q.Inv pending) :
    ∃ q1, SimpleQueue_push q item = some q1 ∧ q1.Inv (pending ++ [item]) := by
  obtain ⟨h1, h2, h3, s, h4⟩ := h
  obtain ⟨t, ht⟩ : ∃ t, (s :: pending)[pending.length]? = some t :=
    ⟨_, List.getElem?_eq_getElem (by simp)⟩
  have htail := h4 _ _ ht
  rw [← h2] at htail
  simp only [lt_self_iff_false, if_false] at htail
  have hlt : q.tail < q.heap.cells.length := by omega
  have hc : (q.heap.malloc (SimpleQueueNode_new item)).1.cells[q.tail]?
      = some (some ⟨0, t⟩) := by
    simp only [Heap.malloc, List.getElem?_append_left hlt, htail]
  refine ⟨⟨⟨(q.heap.cells ++ [some (SimpleQueueNode_new item)]).set q.tail
      (some ⟨q.heap.cells.length, t⟩)⟩, q.head, q.heap.cells.length⟩, ?_, ?_⟩
  · simp only [SimpleQueue_push, Heap.deref_of_cell _ _ _ hc, Heap.store_of_cell _ _ _ _ hc]
    rfl
  · refine ⟨h1, ?_, ?_, s, ?_⟩
    · simp only [List.length_append, List.length_singleton]; omega
    · simp only [List.length_set, List.length_append, List.length_singleton]
    · intro i v hv
      simp only [List.length_append, List.length_singleton]
      by_cases hi : i < pending.length
      · have hv' : (s :: pending)[i]? = some v := by
          rw [← List.cons_append, List.getElem?_append_left (by simp; omega)] at hv
          exact hv
        rw [List.getElem?_set_ne (by omega), List.getElem?_append_left (by omega), h4 i v hv']
        simp only [hi, if_true]
        rw [if_pos (by omega)]
      · by_cases hi2 : i = pending.length
        · subst hi2
          have hv' : (s :: pending)[pending.length]? = some v := by
            rw [← List.cons_append, List.getElem?_append_left (by simp)] at hv
            exact hv
          rw [ht] at hv'
          cases hv'
          rw [← h2, List.getElem?_set_self (by simp; omega)]
          simp only [Nat.lt_add_one, if_true, h3, h2]
        · have hi3 : i = pending.length + 1 := by
            obtain ⟨hl, _⟩ := List.getElem?_eq_some.1 hv
            simp only [List.length_cons, List.length_append, List.length_nil] at hl
            omega
          subst hi3
          rw [← List.cons_append, List.getElem?_append_right (by simp)] at hv
          simp only [List.length_cons, Nat.sub_self, List.getElem?_cons_zero,
            Option.some.injEq] at hv
          subst hv
          rw [List.getElem?_set_ne (by omega), List.getElem?_append_right (by omega)]
          have : q.head + (pending.length + 1) - q.heap.cells.length = 0 := by omega
          simp only [this, List.getElem?_cons_zero, SimpleQueueNode_new, lt_self_iff_false,
            if_false]

theorem SimpleQueue.head_cell (q : SimpleQueue) (pending : List Nat) (h : q.Inv pending) :
    ∃ s, q.heap.cells[q.head]?
      = some (some ⟨if 0 < pending.length then q.head + 1 else 0, s⟩) := by
  obtain ⟨_, _, _, s, h4⟩ := h
  exact ⟨s, h4 0 s (List.getElem?_cons_zero ..)⟩

theorem SimpleQueue.sq_pop_spec_nil (cfg : Config) (q : SimpleQueue) (h : q.Inv []) :
    SimpleQueue_pop cfg q = some (cfg.EMPTY_VALUE, q) := by
  obtain ⟨s, hs⟩ := SimpleQueue.head_cell q [] h
  simp only [List.length_nil, lt_self_iff_false, if_false] at hs
  simp only [SimpleQueue_pop, Heap.deref_of_cell _ _ _ hs, if_true]

theorem SimpleQueue.sq_pop_spec_cons (cfg : Config) (q : SimpleQueue) (v : Nat) (r : List Nat)
    (h : q.Inv (v :: r)) :
    ∃ q1, SimpleQueue_pop cfg q = some (v, q1) ∧ q1.Inv r := by
  obtain ⟨s, hs⟩ := SimpleQueue.head_cell q (v :: r) h
  obtain ⟨h1, h2, h3, s', h4⟩ := h
  simp only [List.length_cons, Nat.zero_lt_succ, if_true] at hs
  have hb := h4 1 v (by simp)
  have hne : q.head + 1 ≠ 0 := by omega
  refine ⟨⟨⟨q.heap.cells.set q.head none⟩, q.head + 1, q.tail⟩, ?_, ?_⟩
  · simp only [SimpleQueue_pop, Heap.deref_of_cell _ _ _ hs, if_neg hne,
      Heap.deref_of_cell _ _ _ hb, Heap.free_of_cell _ _ _ (by omega : q.head ≠ 0) hs]
  · refine ⟨by simp only; omega, by simp only [List.length_cons] at h2 ⊢; omega,
      by simpa using h3, v, ?_⟩
    intro i w hw
    have := h4 (i + 1) w (by simpa using hw)
    simp only [List.length_cons, Nat.add_lt_add_iff_right] at this
    show (q.heap.cells.set q.head none)[q.head + 1 + i]? = _
    rw [List.getElem?_set_ne (by omega), show q.head + 1 + i = q.head + (i + 1) by omega, this]

theorem SimpleQueue.sq_run_spec (cfg : Config) :
    ∀ (ops : List Op) (q : SimpleQueue) (pending : List Nat), q.Inv pending →
      ∃ q1, SimpleQueue_run cfg q ops = some (fifo cfg.EMPTY_VALUE pending ops, q1) ∧
        q1.Inv (pendingAfter pending ops) := by
  intro ops
  induction ops with
  | nil => intro q pending h; exact ⟨q, rfl, h⟩
  | cons op ops ih =>
    intro q pending h
    cases op with
    | push v =>
      obtain ⟨q1, hp, hi⟩ := SimpleQueue.sq_push_spec q pending v h
      obtain ⟨q2, hr, hi2⟩ := ih q1 _ hi
      exact ⟨q2, by simp only [SimpleQueue_run, hp, hr, fifo], hi2⟩
    | pop =>
      cases pending with
      | nil =>
        obtain ⟨q2, hr, hi2⟩ := ih q [] h
        exact ⟨q2, by simp only [SimpleQueue_run, SimpleQueue.sq_pop_spec_nil cfg q h, hr, fifo,
          List.headD_nil, List.tail_nil], hi2⟩
      | cons v r =>
        obtain ⟨q1, hp, hi⟩ := SimpleQueue.sq_pop_spec_cons cfg q v r h
        obtain ⟨q2, hr, hi2⟩ := ih q1 _ hi
        exact ⟨q2, by simp only [SimpleQueue_run, hp, hr, fifo, List.headD_cons,
          List.tail_cons], hi2⟩

/-- C4. Single-threaded FIFO for SimpleQueue: every sequence of `SimpleQueue_push`
and `SimpleQueue_pop` calls on a fresh queue returns, and the pops yield what the
reference FIFO yields. In the state reached, `head->next` is null exactly when no
value is pending; then `SimpleQueue_pop` returns `EMPTY_VALUE` and leaves the queue
(head and tail included) unchanged; otherwise it returns the oldest pending value. -/
theorem C4_SimpleQueue_fifo (cfg : Config) (ops : List Op) :
    ∃ q, SimpleQueue_run cfg (SimpleQueue_new cfg) ops
        = some (fifo cfg.EMPTY_VALUE [] ops, q) ∧
      (∃ hd, q.heap.deref q.head = some hd ∧ (hd.next = 0 ↔ pendingAfter [] ops = [])) ∧
      (pendingAfter [] ops = [] → SimpleQueue_pop cfg q = some (cfg.EMPTY_VALUE, q)) ∧
      (∀ v r, pendingAfter [] ops = v :: r → ∃ q1, SimpleQueue_pop cfg q = some (v, q1)) := by
  obtain ⟨q, hr, hi⟩ := SimpleQueue.sq_run_spec cfg ops _ [] (SimpleQueue.sq_inv_new cfg)
  refine ⟨q, hr, ?_, ?_, ?_⟩
  · obtain ⟨s, hs⟩ := SimpleQueue.head_cell q _ hi
    refine ⟨_, Heap.deref_of_cell _ _ _ hs, ?_⟩
    have h1 := hi.1
    cases hp : pendingAfter [] ops with
    | nil => simp
    | cons v r => simp
  · intro he
    rw [he] at hi
    exact SimpleQueue.sq_pop_spec_nil cfg q hi
  · intro v r he
    rw [he] at hi
    obtain ⟨q1, hp, _⟩ := SimpleQueue.sq_pop_spec_cons cfg q v r hi
    exact ⟨q1, hp⟩

/-! ### Linked lists of nodes -/

section ChainLemmas

variable {α : Type} {next : α → Nat} {ok : Nat → Nat → α → List Nat → Prop}
  {cells : List (Option α)} {head : Nat} {segs : List (List Nat)}

theorem Chain.set_node (hc : Chain next ok cells head segs) (i : Nat) (node : α)
    (seg : List Nat) (hi : i < segs.length)
    (hn : next node = (if i + 1 < segs.length then head + i + 1 else 0))
    (hok : ok i segs.length node seg) :
    Chain next ok (cells.set (head + i) (some node)) head (segs.set i seg) := by
  obtain ⟨h1, h2, h3⟩ := hc
  refine ⟨h1, by simpa using h2, ?_⟩
  intro j sj hj
  simp only [List.length_set]
  by_cases hji : j = i
  · subst hji
    rw [List.getElem?_set_self hi] at hj
    cases hj
    exact ⟨node, List.getElem?_set_self (by omega), hn, hok⟩
  · rw [List.getElem?_set_ne (by omega)] at hj
    rw [List.getElem?_set_ne (by omega)]
    exact h3 j sj hj

theorem Chain.update_node (hc : Chain next ok cells head segs) (i : Nat) (node : α)
    (seg : List Nat) (hs : segs[i]? = some seg)
    (hn : next node = (if i + 1 < segs.length then head + i + 1 else 0))
    (hok : ok i segs.length node seg) :
    Chain next ok (cells.set (head + i) (some node)) head segs := by
  have hi : i < segs.length := (List.getElem?_eq_some.1 hs).1
  have := hc.set_node i node seg hi hn hok
  have he : segs.set i seg = segs := by
    apply List.ext_getElem?
    intro j
    by_cases hji : j = i
    · subst hji
      rw [List.getElem?_set_self hi, hs]
    · rw [List.getElem?_set_ne (Ne.symm hji)]
  rwa [he] at this

theorem Chain.frame (hc : Chain next ok cells head segs) (cells1 : List (Option α))
    (hl : cells1.length = cells.length)
    (hf : ∀ p, head ≤ p → cells1[p]? = cells[p]?) :
    Chain next ok cells1 head segs := by
  obtain ⟨h1, h2, h3⟩ := hc
  refine ⟨h1, by omega, ?_⟩
  intro j sj hj
  rw [hf _ (by omega)]
  exact h3 j sj hj

theorem Chain.append (hc : Chain next ok cells head segs) (last sn : List Nat) (t1 new : α)
    (cells1 : List (Option α))
    (hlast : segs[segs.length - 1]? = some last)
    (hmono : ∀ i node seg, i + 1 < segs.length → ok i segs.length node seg →
      ok i (segs.length + 1) node seg)
    (hl : cells1.length = cells.length + 1)
    (hf : ∀ p, p + 1 < cells.length → cells1[p]? = cells[p]?)
    (ht : cells1[cells.length - 1]? = some (some t1))
    (hnew : cells1[cells.length]? = some (some new))
    (ht1 : next t1 = cells.length) (hokt : ok (segs.length - 1) (segs.length + 1) t1 last)
    (hn1 : next new = 0) (hokn : ok segs.length (segs.length + 1) new sn) :
    Chain next ok cells1 head (segs ++ [sn]) := by
  obtain ⟨h1, h2, h3⟩ := hc
  have hpos : 0 < segs.length := by
    by_contra hc'
    have : segs.length - 1 < segs.length := (List.getElem?_eq_some.1 hlast).1
    omega
  refine ⟨h1, by simp only [List.length_append, List.length_singleton]; omega, ?_⟩
  intro j sj hj
  simp only [List.length_append, List.length_singleton]
  by_cases hj1 : j + 1 < segs.length
  · rw [List.getElem?_append_left (by omega)] at hj
    obtain ⟨node, hn, hnx, hok⟩ := h3 j sj hj
    refine ⟨node, by rw [hf _ (by omega)]; exact hn, ?_, hmono j node sj hj1 hok⟩
    rw [hnx, if_pos hj1, if_pos (by omega)]
  · by_cases hj2 : j + 1 = segs.length
    · rw [List.getElem?_append_left (by omega)] at hj
      have hjl : j = segs.length - 1 := by omega
      rw [hjl, hlast] at hj
      cases hj
      refine ⟨t1, ?_, ?_, ?_⟩
      · rw [show head + j = cells.length - 1 by omega]; exact ht
      · rw [ht1, if_pos (by omega)]; omega
      · rw [hjl]; exact hokt
    · have hlt := (List.getElem?_eq_some.1 hj).1
      simp only [List.length_append, List.length_singleton] at hlt
      have hjl : j = segs.length := by omega
      subst hjl
      rw [List.getElem?_append_right (le_refl _)] at hj
      simp only [Nat.sub_self, List.getElem?_cons_zero, Option.some.injEq] at hj
      subst hj
      refine ⟨new, ?_, ?_, hokn⟩
      · rw [show head + segs.length = cells.length by omega]; exact hnew
      · rw [hn1, if_neg (by omega)]

theorem Chain.advance {s0 s1 : List Nat} {more : List (List Nat)}
    (hc : Chain next ok cells head (s0 :: s1 :: more)) (s1' : List Nat)
    (hshift : ∀ i n node seg, ok (i + 2) (n + 1) node seg → ok (i + 1) n node seg)
    (hhead : ∀ node, ok 1 (more.length + 2) node s1 → ok 0 (more.length + 1) node s1') :
    Chain next ok cells (head + 1) (s1' :: more) := by
  obtain ⟨h1, h2, h3⟩ := hc
  refine ⟨by omega, by simp only [List.length_cons] at h2 ⊢; omega, ?_⟩
  intro j sj hj
  simp only [List.length_cons]
  match j, hj with
  | 0, hj =>
    simp only [List.getElem?_cons_zero, Option.some.injEq] at hj
    subst hj
    obtain ⟨node, hn, hnx, hok⟩ := h3 1 s1 (by simp)
    simp only [List.length_cons] at hnx hok
    refine ⟨node, hn, ?_, hhead node hok⟩
    rw [hnx]
    by_cases hm : 0 + 1 < more.length + 1
    · rw [if_pos hm, if_pos (by omega)]
    · rw [if_neg hm, if_neg (by omega)]
  | j + 1, hj =>
    simp only [List.getElem?_cons_succ] at hj
    obtain ⟨node, hn, hnx, hok⟩ := h3 (j + 2) sj (by simpa using hj)
    simp only [List.length_cons] at hnx hok
    refine ⟨node, by rw [show head + 1 + (j + 1) = head + (j + 2) by omega]; exact hn, ?_,
      hshift j _ node sj hok⟩
    rw [hnx]
    by_cases hm : j + 2 + 1 < more.length + 1 + 1
    · rw [if_pos hm, if_pos (by omega)]; omega
    · rw [if_neg hm, if_neg (by omega)]

end ChainLemmas

theorem flatten_set_last (segs : List (List Nat)) (last : List Nat) (x : Nat)
    (hlast : segs[segs.length - 1]? = some last) :
    (segs.set (segs.length - 1) (last ++ [x])).flatten = segs.flatten ++ [x] := by
  induction segs with
  | nil => simp at hlast
  | cons s segs ih =>
    cases segs with
    | nil =>
      simp only [List.length_singleton, Nat.sub_self, List.getElem?_cons_zero,
        Option.some.injEq] at hlast
      subst hlast
      simp
    | cons s2 segs =>
      simp only [List.length_cons, Nat.add_sub_cancel, List.getElem?_cons_succ] at hlast ih ⊢
      rw [List.set_cons_succ, List.flatten_cons, ih hlast]
      simp

theorem segs_eq_singleton_nil (segs : List (List Nat)) (hne : segs ≠ [])
    (hfl : segs.flatten = []) (hnz : ∀ i s, i ≠ 0 → segs[i]? = some s → s ≠ []) :
    segs = [[]] := by
  match segs, hne, hfl, hnz with
  | [s0], _, hfl, _ =>
    simp only [List.flatten_cons, List.flatten_nil, List.append_nil] at hfl
    rw [hfl]
  | s0 :: s1 :: more, _, hfl, hnz =>
    have h1 := hnz 1 s1 (by omega) (by simp)
    simp only [List.flatten_cons, List.append_eq_nil] at hfl
    exact absurd hfl.2.1 h1

/-! ### RingsQueue -/

theorem add_mod_ne_of_lt (a k l R : Nat) (hk : k < l) (hl : l < R) :
    (a + k) % R ≠ (a + l) % R := by
  intro h
  have h0 := Nat.sub_mod_eq_zero_of_mod_eq h.symm
  rw [show a + l - (a + k) = l - k by omega, Nat.mod_eq_of_lt (by omega)] at h0
  omega

theorem RingsQueue.rq_inv_new (cfg : Config) : (RingsQueue_new cfg).Inv cfg [] := by
  refine ⟨[[]], ⟨Nat.le_refl 1, rfl, ?_⟩, by simp, rfl, rfl⟩
  intro i seg h
  match i, h with
  | 0, h =>
    simp only [List.getElem?_cons_zero, Option.some.injEq] at h
    subst h
    refine ⟨RingsQueueNode_new cfg, rfl, rfl, ?_⟩
    refine ⟨by simp [RingsQueueNode_new], rfl, by simp, ?_, fun h => absurd rfl h,
      fun h => absurd rfl h⟩
    intro k v hk
    simp at hk

theorem RingsQueue.rq_push_spec (cfg : Config) (hR : 1 ≤ cfg.RING_SIZE) (q : RingsQueue)
    (pending : List Nat) (item : Nat) (h : q.Inv cfg pending) :
    ∃ q1, RingsQueue_push cfg q item = some q1 ∧ q1.Inv cfg (pending ++ [item]) := by
  obtain ⟨segs, hc, hne, htl, hp⟩ := h
  have hL : 0 < segs.length := List.length_pos.2 hne
  obtain ⟨last, hlast⟩ : ∃ last, segs[segs.length - 1]? = some last :=
    ⟨_, List.getElem?_eq_getElem (by omega)⟩
  obtain ⟨t, htc, htn, hb, hidx, hlen, hslots, hnf, _⟩ := hc.2.2 _ _ hlast
  have htail : q.head + (segs.length - 1) = q.tail := by omega
  rw [htail] at htc
  rw [if_neg (by omega)] at htn
  by_cases hfull : last.length < cfg.RING_SIZE
  · have hcond : (t.push_idx : Int) - (t.pop_idx : Int) < (cfg.RING_SIZE : Int) := by
      rw [hidx]; push_cast; omega
    have hslot : t.push_idx % cfg.RING_SIZE < t.buffer.length := by
      rw [hb]; exact Nat.mod_lt _ (by omega)
    refine ⟨⟨⟨q.heap.cells.set q.tail (some { t with
        buffer := t.buffer.set (t.push_idx % cfg.RING_SIZE) (some item),
        push_idx := t.push_idx + 1 })⟩, q.head, q.tail⟩, ?_, ?_⟩
    · simp only [RingsQueue_push, Heap.deref_of_cell _ _ _ htc, hcond, if_true, setAt?, hslot,
        Heap.store_of_cell _ _ _ _ htc]
    · refine ⟨segs.set (segs.length - 1) (last ++ [item]), ?_, ?_, by simpa using htl, ?_⟩
      · have := hc.set_node (segs.length - 1) { t with
            buffer := t.buffer.set (t.push_idx % cfg.RING_SIZE) (some item),
            push_idx := t.push_idx + 1 } (last ++ [item]) (by omega)
          (by rw [if_neg (by omega)]; exact htn) ?_
        · rw [htail] at this; exact this
        · refine ⟨by simpa using hb, by simp [hidx]; omega, by simp; omega, ?_, ?_,
            fun hi => absurd (by omega) hi⟩
          · intro k v hk
            simp only
            by_cases hkl : k < last.length
            · rw [List.getElem?_append_left hkl] at hk
              rw [hidx, List.getElem?_set_ne
                (Ne.symm (add_mod_ne_of_lt _ _ _ _ hkl hfull))]
              exact hslots k v hk
            · have hlt := (List.getElem?_eq_some.1 hk).1
              simp only [List.length_append, List.length_singleton] at hlt
              have hkl2 : k = last.length := by omega
              subst hkl2
              rw [List.getElem?_append_right (le_refl _)] at hk
              simp only [Nat.sub_self, List.getElem?_cons_zero, Option.some.injEq] at hk
              subst hk
              rw [← hidx, List.getElem?_set_self hslot]
          · intro hi
            exact ⟨(hnf hi).1, by simp⟩
      · rw [Ne, List.set_eq_nil_iff]; exact hne
      · rw [flatten_set_last segs last item hlast, hp]
  · have hcond : ¬ ((t.push_idx : Int) - (t.pop_idx : Int) < (cfg.RING_SIZE : Int)) := by
      rw [hidx]; push_cast; omega
    have hcl : q.heap.cells.length = q.tail + 1 := by rw [hc.2.1]; omega
    have hset : setAt? (List.replicate cfg.RING_SIZE (none : Option Nat)) 0 (some item)
        = some ((List.replicate cfg.RING_SIZE none).set 0 (some item)) := by
      simp only [setAt?, List.length_replicate]
      rw [if_pos (by omega)]
    have htc1 : (q.heap.cells ++ [some (⟨0, (List.replicate cfg.RING_SIZE none).set 0 (some item),
        1, 0⟩ : RingsQueueNode)])[q.tail]? = some (some t) := by
      rw [List.getElem?_append_left (by omega)]; exact htc
    refine ⟨⟨⟨(q.heap.cells ++ [some (⟨0, (List.replicate cfg.RING_SIZE none).set 0 (some item),
        1, 0⟩ : RingsQueueNode)]).set q.tail (some { t with next := q.heap.cells.length })⟩,
        q.head, q.heap.cells.length⟩, ?_, ?_⟩
    · simp only [RingsQueue_push, Heap.deref_of_cell _ _ _ htc, hcond, if_false,
        RingsQueueNode_new, hset, Nat.zero_add, Heap.malloc, Heap.store_of_cell _ _ _ _ htc1]
    · refine ⟨segs ++ [[item]], ?_, by simp,
        by simp only [List.length_append, List.length_singleton]; rw [hc.2.1]; omega,
        by simp [hp]⟩
      refine hc.append last [item] { t with next := q.heap.cells.length }
        ⟨0, (List.replicate cfg.RING_SIZE none).set 0 (some item), 1, 0⟩ _ hlast
        (fun i node seg hi h => ⟨h.1, h.2.1, h.2.2.1, h.2.2.2.1, h.2.2.2.2.1,
          fun _ => h.2.2.2.2.2 (by omega)⟩) (by simp) ?_ ?_ ?_ rfl
        ⟨hb, hidx, hlen, hslots, hnf, fun _ => by rw [hidx]; omega⟩ rfl ?_
      · intro p hp'
        rw [List.getElem?_set_ne (by omega), List.getElem?_append_left (by omega)]
      · rw [show q.heap.cells.length - 1 = q.tail by omega]
        exact List.getElem?_set_self (by simp; omega)
      · rw [List.getElem?_set_ne (by omega), List.getElem?_append_right (le_refl _)]
        simp
      · refine ⟨by simp, rfl, by simpa using hR, ?_, fun _ => ⟨rfl, by simp⟩,
          fun hi => absurd rfl hi⟩
        intro k v hk
        match k, hk with
        | 0, hk =>
          simp only [List.getElem?_cons_zero, Option.some.injEq] at hk
          subst hk
          simp only [Nat.add_zero, Nat.zero_mod]
          exact List.getElem?_set_self (by simp; omega)

theorem RingsQueue.pop_take (cfg : Config) (q q1 : RingsQueue) (v : Nat) (r0 : List Nat)
    (more : List (List Nat)) (h : RingsQueueNode)
    (hadv : RingsQueue_pop_advance q = some (q1, h.pop_idx))
    (hc : Chain RingsQueueNode.next (RingsQueueNode.ok cfg) q1.heap.cells q1.head
      ((v :: r0) :: more))
    (hh : q1.heap.cells[q1.head]? = some (some h))
    (htl : q1.tail + 1 = q1.head + (more.length + 1)) :
    ∃ q2, RingsQueue_pop cfg q = some (v, q2) ∧ q2.Inv cfg (r0 ++ more.flatten) := by
  obtain ⟨h', hh', hnx, hb, hidx, hlen, hslots, hnf, hcl⟩ := hc.2.2 0 (v :: r0) (by simp)
  rw [Nat.add_zero, hh] at hh'
  cases hh'
  have hne : h.pop_idx ≠ h.push_idx := by rw [hidx]; simp
  have hv := hslots 0 v (by simp)
  rw [Nat.add_zero] at hv
  refine ⟨⟨⟨q1.heap.cells.set q1.head (some { h with pop_idx := h.pop_idx + 1 })⟩, q1.head,
    q1.tail⟩, ?_, ?_⟩
  · simp only [RingsQueue_pop, hadv, Heap.deref_of_cell _ _ _ hh, if_neg hne, hv,
      Heap.store_of_cell _ _ _ _ hh]
  · refine ⟨r0 :: more, ?_, by simp, by simpa using htl, by simp⟩
    have := hc.set_node 0 { h with pop_idx := h.pop_idx + 1 } r0 (by simp) hnx ?_
    · simpa using this
    · refine ⟨hb, by simp only [List.length_cons] at hidx ⊢; omega,
        by simp only [List.length_cons] at hlen; omega, ?_, fun hi => absurd rfl hi, hcl⟩
      intro k w hk
      have := hslots (k + 1) w (by simpa using hk)
      rw [show h.pop_idx + 1 + k = h.pop_idx + (k + 1) by omega]
      exact this

theorem RingsQueue.rq_pop_spec_nil (cfg : Config) (q : RingsQueue) (h : q.Inv cfg []) :
    RingsQueue_pop cfg q = some (cfg.EMPTY_VALUE, q) := by
  obtain ⟨segs, hc, hne, htl, hp⟩ := h
  have hsegs : segs = [[]] := segs_eq_singleton_nil segs hne hp.symm (by
    intro i s hi hs
    obtain ⟨n, _, _, _, _, _, _, hnf1, _⟩ := hc.2.2 i s hs
    exact (hnf1 hi).2)
  subst hsegs
  obtain ⟨hd, hh, hnx, hb, hidx, hlen, hslots, hnf, _⟩ := hc.2.2 0 [] (by simp)
  rw [Nat.add_zero] at hh
  simp only [List.length_singleton] at hnx
  rw [if_neg (by omega)] at hnx
  have hadv : RingsQueue_pop_advance q = some (q, hd.pop_idx) := by
    simp only [RingsQueue_pop_advance, Heap.deref_of_cell _ _ _ hh, hnx, ne_eq,
      not_true_eq_false, false_and, if_false]
  simp only [RingsQueue_pop, hadv, Heap.deref_of_cell _ _ _ hh]
  rw [if_pos (by simpa using hidx.symm)]

theorem RingsQueue.rq_pop_spec_cons (cfg : Config) (q : RingsQueue) (v : Nat) (r : List Nat)
    (h : q.Inv cfg (v :: r)) :
    ∃ q1, RingsQueue_pop cfg q = some (v, q1) ∧ q1.Inv cfg r := by
  obtain ⟨segs, hc, hne, htl, hp⟩ := h
  match segs, hc, hne, htl, hp with
  | (w :: r0) :: more, hc, _, htl, hp =>
    simp only [List.flatten_cons, List.cons_append, List.cons.injEq] at hp
    obtain ⟨rfl, rfl⟩ := hp
    obtain ⟨hd, hh, hnx, hb, hidx, hlen, hslots, hnf, _⟩ := hc.2.2 0 (v :: r0) (by simp)
    rw [Nat.add_zero] at hh
    have hne : hd.pop_idx ≠ hd.push_idx := by rw [hidx]; simp
    have hadv : RingsQueue_pop_advance q = some (q, hd.pop_idx) := by
      simp only [RingsQueue_pop_advance, Heap.deref_of_cell _ _ _ hh, hne, and_false, if_false]
    exact RingsQueue.pop_take cfg q q v r0 more hd hadv hc hh (by simpa using htl)
  | [] :: s1 :: more, hc, _, htl, hp =>
    obtain ⟨hd, hh, hnx, hb, hidx, hlen, hslots, hnf, _⟩ := hc.2.2 0 [] (by simp)
    obtain ⟨n, hn, hnnx, hnb, hnidx, hnlen, hnslots, hnnf, _⟩ := hc.2.2 1 s1 (by simp)
    rw [Nat.add_zero] at hh
    simp only [List.length_cons] at hnx
    rw [if_pos (by omega), Nat.add_zero] at hnx
    obtain ⟨hn0, hs1⟩ := hnnf (by omega)
    match s1, hs1, hp with
    | w :: r1, _, hp =>
      simp only [List.flatten_cons, List.nil_append, List.cons_append, List.cons.injEq] at hp
      obtain ⟨rfl, rfl⟩ := hp
      have hadv : RingsQueue_pop_advance q
          = some (⟨⟨q.heap.cells.set q.head none⟩, q.head + 1, q.tail⟩, n.pop_idx) := by
        have hcond : hd.next ≠ 0 ∧ hd.pop_idx = hd.push_idx := by
          refine ⟨by omega, by simpa using hidx.symm⟩
        simp only [RingsQueue_pop_advance, Heap.deref_of_cell _ _ _ hh]
        rw [if_pos hcond, hnx, Heap.deref_of_cell _ _ _ hn]
        simp only [Heap.free_of_cell _ _ _ (by have := hc.1; omega : q.head ≠ 0) hh]
      have hc1 : Chain RingsQueueNode.next (RingsQueueNode.ok cfg)
          (q.heap.cells.set q.head none) (q.head + 1) ((v :: r1) :: more) := by
        refine (hc.advance (v :: r1) ?_ (fun node h => ?_)).frame _ (by simp) ?_
        · intro i m node seg h
          exact ⟨h.1, h.2.1, h.2.2.1, h.2.2.2.1, fun _ => h.2.2.2.2.1 (by omega),
            fun hi => h.2.2.2.2.2 (by omega)⟩
        · exact ⟨h.1, h.2.1, h.2.2.1, h.2.2.2.1, fun hi => absurd rfl hi,
            fun hi => h.2.2.2.2.2 (by omega)⟩
        · intro p hp'
          rw [List.getElem?_set_ne (by omega)]
      have hn1 : (q.heap.cells.set q.head none)[q.head + 1]? = some (some n) := by
        rw [List.getElem?_set_ne (by omega)]; exact hn
      exact RingsQueue.pop_take cfg q ⟨⟨q.heap.cells.set q.head none⟩, q.head + 1, q.tail⟩
        v r1 more n hadv hc1 hn1 (by simp only [List.length_cons] at htl ⊢; omega)

theorem RingsQueue.rq_run_spec (cfg : Config) (hR : 1 ≤ cfg.RING_SIZE) :
    ∀ (ops : List Op) (q : RingsQueue) (pending : List Nat), q.Inv cfg pending →
      ∃ q1, RingsQueue_run cfg q ops = some (fifo cfg.EMPTY_VALUE pending ops, q1) ∧
        q1.Inv cfg (pendingAfter pending ops) := by
  intro ops
  induction ops with
  | nil => intro q pending h; exact ⟨q, rfl, h⟩
  | cons op ops ih =>
    intro q pending h
    cases op with
    | push v =>
      obtain ⟨q1, hp, hi⟩ := RingsQueue.rq_push_spec cfg hR q pending v h
      obtain ⟨q2, hr, hi2⟩ := ih q1 _ hi
      exact ⟨q2, by simp only [RingsQueue_run, hp, hr, fifo], hi2⟩
    | pop =>
      cases pending with
      | nil =>
        obtain ⟨q2, hr, hi2⟩ := ih q [] h
        exact ⟨q2, by simp only [RingsQueue_run, RingsQueue.rq_pop_spec_nil cfg q h, hr, fifo,
          List.headD_nil, List.tail_nil], hi2⟩
      | cons v r =>
        obtain ⟨q1, hp, hi⟩ := RingsQueue.rq_pop_spec_cons cfg q v r h
        obtain ⟨q2, hr, hi2⟩ := ih q1 _ hi
        exact ⟨q2, by simp only [RingsQueue_run, hp, hr, fifo, List.headD_cons,
          List.tail_cons], hi2⟩

theorem RingsQueue.rq_is_empty_spec (cfg : Config) (q : RingsQueue) (pending : List Nat)
    (h : q.Inv cfg pending) :
    RingsQueue_is_empty q = some (decide (pending = [])) ∧
    ∀ hd, q.heap.deref q.head = some hd → hd.next ≠ 0 →
      ∃ n, q.heap.deref hd.next = some n ∧ n.pop_idx < n.push_idx := by
  obtain ⟨segs, hc, hne, htl, hp⟩ := h
  match segs, hc, hne, htl, hp with
  | s0 :: more, hc, _, htl, hp =>
    obtain ⟨hd, hh, hnx, hb, hidx, hlen, hslots, hnf, _⟩ := hc.2.2 0 s0 (by simp)
    rw [Nat.add_zero] at hh
    simp only [List.length_cons] at hnx
    have hsucc : ∀ hd', q.heap.deref q.head = some hd' → hd'.next ≠ 0 →
        ∃ n, q.heap.deref hd'.next = some n ∧ n.pop_idx < n.push_idx := by
      intro hd' hh' hn'
      rw [Heap.deref_of_cell _ _ _ hh] at hh'
      cases hh'
      match more, hc, hnx with
      | [], _, hnx => simp at hnx; exact absurd hnx hn'
      | s1 :: more', hc, hnx =>
        obtain ⟨n, hn, _, _, hnidx, _, _, hnnf, _⟩ := hc.2.2 1 s1 (by simp)
        simp only [List.length_cons] at hnx
        rw [if_pos (by omega), Nat.add_zero] at hnx
        refine ⟨n, by rw [hnx]; exact Heap.deref_of_cell _ _ _ hn, ?_⟩
        have := List.length_pos.2 (hnnf (by omega)).2
        omega
    refine ⟨?_, hsucc⟩
    simp only [RingsQueue_is_empty, Heap.deref_of_cell _ _ _ hh, Option.some.injEq]
    rw [hp, List.flatten_cons]
    cases s0 with
    | cons v r0 =>
      have : hd.pop_idx ≠ hd.push_idx := by rw [hidx]; simp
      simp [this]
    | nil =>
      have : hd.pop_idx = hd.push_idx := by rw [hidx]; simp
      cases more with
      | nil => simp [this, hnx]
      | cons s1 more' =>
        obtain ⟨n, hn, _, _, hnidx, _, _, hnnf, _⟩ := hc.2.2 1 s1 (by simp)
        simp only [List.length_cons] at hnx
        rw [if_pos (by omega), Nat.add_zero] at hnx
        have hs1 := (hnnf (by omega)).2
        simp [this, hnx, hs1]

/-- C3. Single-threaded FIFO for RingsQueue: for `RING_SIZE ≥ 1`, every sequence of
`RingsQueue_push` and `RingsQueue_pop` calls on a fresh queue returns (no
uninitialised slot is read, no dead node is touched) and the pops yield what the
reference FIFO yields: the oldest value pushed and not yet popped, or
`EMPTY_VALUE` when there is none. -/
theorem C3_RingsQueue_fifo (cfg : Config) (hR : 1 ≤ cfg.RING_SIZE) (ops : List Op) :
    ∃ q, RingsQueue_run cfg (RingsQueue_new cfg) ops
      = some (fifo cfg.EMPTY_VALUE [] ops, q) := by
  obtain ⟨q, hr, _⟩ := RingsQueue.rq_run_spec cfg hR ops _ [] (RingsQueue.rq_inv_new cfg)
  exact ⟨q, hr⟩

/-- C3, witness: the wrap-around scenario of the claim with `RING_SIZE = 4`. -/
theorem C3_RingsQueue_fifo_witness :
    1 ≤ cfgEx.RING_SIZE ∧
    ∃ q, RingsQueue_run cfgEx (RingsQueue_new cfgEx)
        [.push 1, .push 2, .push 3, .push 4, .pop, .pop, .push 5, .push 6, .push 7,
         .pop, .pop, .pop, .pop, .pop, .pop]
      = some (fifo cfgEx.EMPTY_VALUE []
          [.push 1, .push 2, .push 3, .push 4, .pop, .pop, .push 5, .push 6, .push 7,
           .pop, .pop, .pop, .pop, .pop, .pop], q) :=
  ⟨by decide, C3_RingsQueue_fifo cfgEx (by decide) _⟩

/-- C10. `RingsQueue_is_empty` is exact in single-threaded use: in every state
reached from `RingsQueue_new` by push and pop calls (`RING_SIZE ≥ 1`) it returns
true exactly when no pushed value is still unpopped; and whenever `head->next` is
non-null, the successor ring holds at least one unpopped value
(`pop_idx < push_idx`). -/
theorem C10_RingsQueue_is_empty_exact (cfg : Config) (hR : 1 ≤ cfg.RING_SIZE)
    (ops : List Op) :
    ∃ outs q, RingsQueue_run cfg (RingsQueue_new cfg) ops = some (outs, q) ∧
      RingsQueue_is_empty q = some (decide (pendingAfter [] ops = [])) ∧
      ∀ hd, q.heap.deref q.head = some hd → hd.next ≠ 0 →
        ∃ n, q.heap.deref hd.next = some n ∧ n.pop_idx < n.push_idx := by
  obtain ⟨q, hr, hi⟩ := RingsQueue.rq_run_spec cfg hR ops _ [] (RingsQueue.rq_inv_new cfg)
  exact ⟨_, q, hr, RingsQueue.rq_is_empty_spec cfg q _ hi⟩

/-- C10, witness: `RING_SIZE = 4`; after five pushes and four pops the head ring
is exhausted but has a successor holding `5`. -/
theorem C10_RingsQueue_is_empty_exact_witness :
    1 ≤ cfgEx.RING_SIZE ∧
    ∃ outs q, RingsQueue_run cfgEx (RingsQueue_new cfgEx)
        [.push 1, .push 2, .push 3, .push 4, .push 5, .pop, .pop, .pop, .pop]
        = some (outs, q) ∧
      RingsQueue_is_empty q = some (decide (pendingAfter []
        [.push 1, .push 2, .push 3, .push 4, .push 5, .pop, .pop, .pop, .pop] = [])) ∧
      ∀ hd, q.heap.deref q.head = some hd → hd.next ≠ 0 →
        ∃ n, q.heap.deref hd.next = some n ∧ n.pop_idx < n.push_idx :=
  ⟨by decide, C10_RingsQueue_is_empty_exact cfgEx (by decide) _⟩

/-! ### LLQueue -/

theorem HPInv.init {α : Type} (cfg : Config) (me n : Nat) (hme : me < cfg.MAX_THREADS)
    (hn : n ≤ cfg.MAX_THREADS) (cells : List (Option α)) (bound : Nat) :
    HPInv cfg (Thread.registered me n) ( HazardPointer_initialize cfg) cells bound := by
  refine ⟨initialize_wellShaped cfg, hme, hn, Nat.zero_le _, ?_, ?_⟩
  · intro j _ hj
    simp only [ HazardPointer_initialize]
    rw [List.getElem?_replicate, if_pos hj]
  · refine ⟨List.replicate (cfg.RETIRED_THRESHOLD + 1) 0, ?_, ?_, ?_⟩
    · simp only [ HazardPointer_initialize, Thread.registered, HazardPointer_register]
      rw [List.getElem?_replicate, if_pos hme]
    · simp [Thread.registered, HazardPointer_register]
    · intro p hp
      simp [Thread.registered, HazardPointer_register] at hp

theorem LLQueue.ll_inv_new (cfg : Config) (h1984 : cfg.EMPTY_VALUE ≠ 1984) (me n : Nat)
    (hme : me < cfg.MAX_THREADS) (hn : n ≤ cfg.MAX_THREADS) :
    (LLQueue_new cfg).Inv cfg (Thread.registered me n) [] := by
  refine ⟨[[]], ⟨Nat.le_refl 1, rfl, ?_⟩, by simp, rfl, rfl, HPInv.init cfg me n hme hn _ _⟩
  intro i seg h
  match i, h with
  | 0, h =>
    simp only [List.getElem?_cons_zero, Option.some.injEq] at h
    subst h
    exact ⟨LLNode_new 1984, rfl, rfl, fun hc => h1984 hc.symm, fun _ => rfl,
      fun hc => absurd rfl hc⟩

theorem LLQueue.ll_push_spec (cfg : Config) (th : Thread) (q : LLQueue) (pending : List Nat)
    (item : Nat) (fuel : Nat) (hv : item ≠ cfg.EMPTY_VALUE) (h : q.Inv cfg th pending) :
    ∃ q1, LLQueue_push th (fuel + 1) q item = some q1 ∧ q1.Inv cfg th (pending ++ [item]) := by
  obtain ⟨segs, hc, hne, htl, hp, hhp⟩ := h
  have hL : 0 < segs.length := List.length_pos.2 hne
  obtain ⟨last, hlast⟩ : ∃ last, segs[segs.length - 1]? = some last :=
    ⟨_, List.getElem?_eq_getElem (by omega)⟩
  obtain ⟨t, htc, htn, hok⟩ := hc.2.2 _ _ hlast
  have htail : q.head + (segs.length - 1) = q.tail := by omega
  rw [htail] at htc
  rw [if_neg (by omega)] at htn
  have hcl : q.heap.cells.length = q.tail + 1 := by rw [hc.2.1]; omega
  have htc1 : (q.heap.cells ++ [some (LLNode_new item)])[q.tail]? = some (some t) := by
    rw [List.getElem?_append_left (by omega)]; exact htc
  obtain ⟨hpr, hhp1⟩ := hhp.protect q.tail
  obtain ⟨hcr, hhp2⟩ := hhp1.clear
  dsimp only at hcr hhp2
  refine ⟨⟨⟨(q.heap.cells ++ [some (LLNode_new item)]).set q.tail
      (some { t with next := q.heap.cells.length })⟩, q.head, q.heap.cells.length,
      ⟨(q.hp.pointer.set th._thread_id q.tail).set th._thread_id 0, q.hp.retired⟩⟩, ?_, ?_⟩
  · simp only [LLQueue_push, LLQueue_push_loop, Heap.malloc, hpr,
      Heap.deref_of_cell _ _ _ htc1, htn, if_true, Heap.store_of_cell _ _ _ _ htc1, hcr]
  · refine ⟨segs ++ [[item]], ?_, by simp,
      by simp only [List.length_append, List.length_singleton]; rw [hc.2.1]; omega,
      by simp [hp], ?_⟩
    · refine hc.append last [item] { t with next := q.heap.cells.length } (LLNode_new item) _
        hlast (fun i node seg _ h => h) (by simp) ?_ ?_ ?_ rfl hok rfl ?_
      · intro p hp'
        rw [List.getElem?_set_ne (by omega), List.getElem?_append_left (by omega)]
      · rw [show q.heap.cells.length - 1 = q.tail by omega]
        exact List.getElem?_set_self (by simp; omega)
      · rw [List.getElem?_set_ne (by omega), List.getElem?_append_right (le_refl _)]
        simp
      · exact ⟨hv, fun hc => by omega, fun _ => rfl⟩
    · refine hhp2.weaken _ _ (le_refl _) ?_
      intro p x hp' hx
      refine ⟨x, ?_⟩
      rw [List.getElem?_set_ne (by have := hc.1; omega),
        List.getElem?_append_left (by omega)]
      exact hx

theorem LLQueue.ll_pop_spec_nil (cfg : Config) (th : Thread) (q : LLQueue) (fuel : Nat)
    (h : q.Inv cfg th []) :
    ∃ q1, LLQueue_pop cfg th (fuel + 1) q = some (cfg.EMPTY_VALUE, q1, th) ∧
      q1.Inv cfg th [] := by
  obtain ⟨segs, hc, hne, htl, hp, hhp⟩ := h
  have hsegs : segs = [[]] := segs_eq_singleton_nil segs hne hp.symm (by
    intro i s hi hs
    obtain ⟨n, _, _, hok⟩ := hc.2.2 i s hs
    rw [hok.2.2 hi]
    simp)
  obtain ⟨hd, hh, hnx, hok⟩ := hc.2.2 0 [] (by rw [hsegs]; simp)
  rw [Nat.add_zero] at hh
  rw [hsegs] at hnx
  simp only [List.length_singleton] at hnx
  rw [if_neg (by omega)] at hnx
  obtain ⟨hpr, hhp1⟩ := hhp.protect q.head
  obtain ⟨hcr, hhp2⟩ := hhp1.clear
  dsimp only at hcr hhp2
  refine ⟨{ q with hp := ⟨(q.hp.pointer.set th._thread_id q.head).set th._thread_id 0,
    q.hp.retired⟩ }, ?_, segs, hc, hne, htl, hp, hhp2⟩
  simp only [LLQueue_pop, hpr, Heap.deref_of_cell _ _ _ hh, hnx, if_true, hcr]

theorem LLQueue.ll_pop_spec_cons (cfg : Config) (th : Thread) (q : LLQueue) (fuel : Nat)
    (v : Nat) (r : List Nat) (h : q.Inv cfg th (v :: r)) :
    ∃ q1 th1, LLQueue_pop cfg th (fuel + 1) q = some (v, q1, th1) ∧ q1.Inv cfg th1 r ∧
      th1._thread_id = th._thread_id ∧ th1._num_threads = th._num_threads := by
  obtain ⟨segs, hc, hne, htl, hp, hhp⟩ := h
  match segs, hc, hne, htl, hp with
  | [s0], hc, _, _, hp =>
    obtain ⟨hd, hh, hnx, hok⟩ := hc.2.2 0 s0 (by simp)
    rw [hok.2.1 rfl] at hp
    simp at hp
  | s0 :: s1 :: more, hc, _, htl, hp =>
    obtain ⟨hd, hh, hnx, hok⟩ := hc.2.2 0 s0 (by simp)
    obtain ⟨n, hn, hnnx, hnok⟩ := hc.2.2 1 s1 (by simp)
    rw [Nat.add_zero] at hh
    simp only [List.length_cons] at hnx
    rw [if_pos (by omega), Nat.add_zero] at hnx
    have hs0 := hok.2.1 rfl
    have hs1 := hnok.2.2 (by omega)
    subst hs0
    subst hs1
    simp only [List.flatten_cons, List.nil_append, List.singleton_append,
      List.cons.injEq] at hp
    obtain ⟨hv, hr⟩ := hp
    have hhead1 : 1 ≤ q.head := hc.1
    obtain ⟨hpr, hhp1⟩ := hhp.protect q.head
    obtain ⟨hcr, hhp2⟩ := hhp1.clear
    dsimp only at hcr hhp2
    have hhp3 : HPInv cfg th
        ⟨(q.hp.pointer.set th._thread_id q.head).set th._thread_id 0, q.hp.retired⟩
        (q.heap.cells.set q.head (some { hd with item := cfg.EMPTY_VALUE })) q.head := by
      refine hhp2.weaken _ _ (le_refl _) ?_
      intro p x hp' hx
      exact ⟨x, by rw [List.getElem?_set_ne (by omega)]; exact hx⟩
    have hlt : q.head < q.heap.cells.length := (List.getElem?_eq_some.1 hh).1
    obtain ⟨hp3, th1, freed, cells1, hret, hfree, hl1, hsame, hhp4, -, hid, hnum⟩ :=
      hhp3.retire q.head { hd with item := cfg.EMPTY_VALUE } (q.head + 1)
        (Or.inr (hhp1.pointer_me 0)) (le_refl _) (by omega) hhead1
        (List.getElem?_set_self hlt)
    have hn1 : (q.heap.cells.set q.head (some { hd with item := cfg.EMPTY_VALUE }))[q.head + 1]?
        = some (some n) := by
      rw [List.getElem?_set_ne (by omega)]; exact hn
    refine ⟨⟨⟨cells1⟩, q.head + 1, q.tail, hp3⟩, th1, ?_, ?_, hid, hnum⟩
    · have hne1 : ¬ (q.head + 1 = 0) := by omega
      simp only [hnx] at hn1 hfree
      simp only [LLQueue_pop, hpr, Heap.deref_of_cell _ _ _ hh, hnx, hne1, if_false,
        Heap.store_of_cell _ _ _ _ hh, ne_eq, hok.1, not_false_eq_true, if_true,
        Heap.deref_of_cell _ _ _ hn1, hcr, hret, hfree, hv]
    · refine ⟨[] :: more, ?_, by simp, by simp only [List.length_cons] at htl ⊢; omega,
        by simp [hr], hhp4⟩
      refine (hc.advance [] ?_ (fun node h => ?_)).frame _ (by simpa using hl1) ?_
      · intro i m node seg h
        exact ⟨h.1, fun hc => by omega, fun _ => h.2.2 (by omega)⟩
      · exact ⟨h.1, fun _ => rfl, fun hc => absurd rfl hc⟩
      · intro p hp'
        rw [hsame p hp', List.getElem?_set_ne (by omega)]

theorem LLQueue.ll_run_spec (cfg : Config) (fuel : Nat) :
    ∀ (ops : List Op) (th : Thread) (q : LLQueue) (pending : List Nat),
      cfg.EMPTY_VALUE ∉ pushed ops → q.Inv cfg th pending →
      ∃ q1 th1, LLQueue_run cfg (fuel + 1) th q ops
          = some (fifo cfg.EMPTY_VALUE pending ops, q1, th1) ∧
        q1.Inv cfg th1 (pendingAfter pending ops) := by
  intro ops
  induction ops with
  | nil => intro th q pending _ h; exact ⟨q, th, rfl, h⟩
  | cons op ops ih =>
    intro th q pending hval h
    cases op with
    | push v =>
      simp only [pushed, List.mem_cons, not_or] at hval
      obtain ⟨q1, hp, hi⟩ :=
        LLQueue.ll_push_spec cfg th q pending v fuel (Ne.symm hval.1) h
      obtain ⟨q2, th2, hr, hi2⟩ := ih th q1 _ hval.2 hi
      exact ⟨q2, th2, by simp only [LLQueue_run, hp, hr, fifo], hi2⟩
    | pop =>
      have hval1 : cfg.EMPTY_VALUE ∉ pushed ops := hval
      cases pending with
      | nil =>
        obtain ⟨q1, hp, hi⟩ := LLQueue.ll_pop_spec_nil cfg th q fuel h
        obtain ⟨q2, th2, hr, hi2⟩ := ih th q1 [] hval1 hi
        exact ⟨q2, th2, by simp only [LLQueue_run, hp, hr, fifo, List.headD_nil,
          List.tail_nil], hi2⟩
      | cons v r =>
        obtain ⟨q1, th1, hp, hi, _, _⟩ := LLQueue.ll_pop_spec_cons cfg th q fuel v r h
        obtain ⟨q2, th2, hr, hi2⟩ := ih th1 q1 _ hval1 hi
        exact ⟨q2, th2, by simp only [LLQueue_run, hp, hr, fifo, List.headD_cons,
          List.tail_cons], hi2⟩

/-- C2. Single-threaded FIFO for LLQueue: assuming `EMPTY_VALUE ≠ 1984`, for a
thread registered with `thread_id < MAX_THREADS` and `num_threads ≤ MAX_THREADS`,
every sequence of `LLQueue_push(v)` (`v ≠ EMPTY_VALUE`) and `LLQueue_pop` calls on a
fresh queue returns (every loop ends within one iteration, every node touched
is allocated, every `free` is legal) and the pops yield what the reference FIFO
yields: the oldest value pushed and not yet popped, or `EMPTY_VALUE` when there
is none. -/
theorem C2_LLQueue_fifo (cfg : Config) (h1984 : cfg.EMPTY_VALUE ≠ 1984) (me n : Nat)
    (hme : me < cfg.MAX_THREADS) (hn : n ≤ cfg.MAX_THREADS) (ops : List Op)
    (hval : cfg.EMPTY_VALUE ∉ pushed ops) (fuel : Nat) :
    ∃ q th1, LLQueue_run cfg (fuel + 1) (Thread.registered me n) (LLQueue_new cfg) ops
      = some (fifo cfg.EMPTY_VALUE [] ops, q, th1) := by
  obtain ⟨q, th1, hr, _⟩ := LLQueue.ll_run_spec cfg fuel ops _ _ [] hval
    (LLQueue.ll_inv_new cfg h1984 me n hme hn)
  exact ⟨q, th1, hr⟩

/-- C2, witness: `push(7)` then `pop` on a fresh queue (thread `0` of `1`), with
`fifo 0 [] [push 7, pop] = [7]`. -/
theorem C2_LLQueue_fifo_witness :
    (cfgEx.EMPTY_VALUE ≠ 1984 ∧ 0 < cfgEx.MAX_THREADS ∧ 1 ≤ cfgEx.MAX_THREADS ∧
      cfgEx.EMPTY_VALUE ∉ pushed [Op.push 7, Op.pop]) ∧
    ∃ q th1, LLQueue_run cfgEx (0 + 1) (Thread.registered 0 1) (LLQueue_new cfgEx)
        [Op.push 7, Op.pop]
      = some (fifo cfgEx.EMPTY_VALUE [] [Op.push 7, Op.pop], q, th1) :=
  ⟨⟨by decide, by decide, by decide, by decide⟩,
    C2_LLQueue_fifo cfgEx (by decide) 0 1 (by decide) (by decide) [Op.push 7, Op.pop]
      (by decide) 0⟩

/-- Scenario 1 of the specification on an LLQueue (`RETIRED_THRESHOLD = 1`, so the
second pop triggers a scan). -/
theorem LLQueue_basic_scenario :
    (LLQueue_run cfgEx 1 (Thread.registered 0 1) (LLQueue_new cfgEx)
        [.push 1, .push 2, .push 3, .pop, .pop, .pop, .pop]).map (fun r => r.1)
      = some [1, 2, 3, 0] := by
  decide

/-! ### BLQueue -/

section BLNodeLemmas

variable {cfg : Config} {i n : Nat} {node : BLNode} {seg : List Nat}

theorem BLNode.ok_push_hit (h : BLNode.ok cfg i n node seg) (item : Nat)
    (hlt : node.push_idx < cfg.BUFFER_SIZE) (hle : node.pop_idx ≤ node.push_idx)
    (hv : item ≠ cfg.EMPTY_VALUE ∧ item ≠ cfg.TAKEN_VALUE) :
    node.buffer[node.push_idx]? = some cfg.EMPTY_VALUE ∧
    BLNode.ok cfg i n { node with push_idx := node.push_idx + 1,
                                  buffer := node.buffer.set node.push_idx item }
      (seg ++ [item]) := by
  obtain ⟨hb, hlen, htk, hsg, hem, hnf, hnt, hta⟩ := h
  have hlast : i + 1 = n := by
    by_contra hc
    have := hnt hc
    omega
  have hsl : seg.length = node.push_idx - node.pop_idx := by
    rw [hlen, Nat.min_eq_left (by omega), Nat.min_eq_left (by omega)]
  refine ⟨hem _ hle (le_refl _) hlt, by simpa using hb, ?_, ?_, ?_, ?_, ?_, ?_, ?_⟩
  · simp only [List.length_append, List.length_singleton, hsl]
    rw [Nat.min_eq_left (by omega), Nat.min_eq_left (by omega)]
    omega
  · intro j hj1 hj2
    simp only at hj1 ⊢
    rw [List.getElem?_set_ne (by omega)]
    exact htk j hj1 hj2
  · intro k v hk
    simp only
    by_cases hkl : k < seg.length
    · rw [List.getElem?_append_left hkl] at hk
      rw [List.getElem?_set_ne (by omega)]
      exact hsg k v hk
    · have hlt2 := (List.getElem?_eq_some.1 hk).1
      simp only [List.length_append, List.length_singleton] at hlt2
      have hkl2 : k = seg.length := by omega
      subst hkl2
      rw [List.getElem?_append_right (le_refl _)] at hk
      simp only [Nat.sub_self, List.getElem?_cons_zero, Option.some.injEq] at hk
      subst hk
      rw [show node.pop_idx + seg.length = node.push_idx by omega]
      exact ⟨List.getElem?_set_self (by omega), hv⟩
  · intro j hj1 hj2 hj3
    simp only at hj1 hj2 ⊢
    rw [List.getElem?_set_ne (by omega)]
    exact hem j hj1 (by omega) hj3
  · intro hi
    exact ⟨(hnf hi).1, by simp only; omega⟩
  · intro hc; exact absurd hlast hc
  · intro _; simp only; omega

theorem BLNode.ok_push_miss (hET : cfg.EMPTY_VALUE ≠ cfg.TAKEN_VALUE)
    (h : BLNode.ok cfg i n node seg)
    (hlt : node.push_idx < cfg.BUFFER_SIZE) (hgt : node.push_idx < node.pop_idx) :
    (∃ cur, node.buffer[node.push_idx]? = some cur ∧ cur ≠ cfg.EMPTY_VALUE) ∧
    BLNode.ok cfg i n { node with push_idx := node.push_idx + 1 } seg := by
  obtain ⟨hb, hlen, htk, hsg, hem, hnf, hnt, hta⟩ := h
  have hlast : i + 1 = n := by
    by_contra hc
    have := hnt hc
    omega
  refine ⟨⟨_, htk _ hgt hlt, Ne.symm hET⟩, hb, ?_, htk, hsg, ?_, ?_, ?_, ?_⟩
  · simp only
    rw [hlen]
    omega
  · intro j hj1 hj2 hj3
    exact hem j hj1 (by simp only at hj2; omega) hj3
  · intro hi
    exact ⟨(hnf hi).1, by simp only; omega⟩
  · intro hc; exact absurd hlast hc
  · intro _; simp only; omega

theorem BLNode.ok_push_close (h : BLNode.ok cfg i n node seg) (hi : i + 1 = n)
    (hge : cfg.BUFFER_SIZE ≤ node.push_idx) (x : Nat) :
    BLNode.ok cfg i (n + 1) { node with push_idx := node.push_idx + 1, next := x } seg := by
  obtain ⟨hb, hlen, htk, hsg, hem, hnf, hnt, hta⟩ := h
  have := hta hi
  refine ⟨hb, ?_, htk, hsg, ?_, ?_, ?_, ?_⟩
  · simp only
    rw [hlen]
    omega
  · intro j hj1 hj2 hj3
    simp only at hj2
    omega
  · intro hi0
    exact ⟨(hnf hi0).1, by simp only; omega⟩
  · intro _; simp only; omega
  · intro hc; omega

theorem BLNode.ok_new (hB : 1 ≤ cfg.BUFFER_SIZE) (item : Nat)
    (hv : item ≠ cfg.EMPTY_VALUE ∧ item ≠ cfg.TAKEN_VALUE) :
    BLNode.ok cfg n (n + 1)
      ⟨0, (List.replicate cfg.BUFFER_SIZE cfg.EMPTY_VALUE).set 0 item, 1, 0⟩ [item] := by
  refine ⟨by simp, ?_, ?_, ?_, ?_, ?_, ?_, ?_⟩
  · simp only [List.length_singleton]
    omega
  · intro j hj; simp only at hj; omega
  · intro k v hk
    match k, hk with
    | 0, hk =>
      simp only [List.getElem?_cons_zero, Option.some.injEq] at hk
      subst hk
      exact ⟨List.getElem?_set_self (by simp; omega), hv⟩
  · intro j _ hj2 hj3
    simp only at hj2 ⊢
    rw [List.getElem?_set_ne (by omega), List.getElem?_replicate, if_pos hj3]
  · intro _; exact ⟨rfl, le_refl _⟩
  · intro hc; exact absurd rfl hc
  · intro _; exact hB

theorem BLNode.ok_pop_hit (h : BLNode.ok cfg 0 n node seg) (v : Nat) (r : List Nat)
    (hs : seg = v :: r) :
    node.pop_idx < cfg.BUFFER_SIZE ∧ node.buffer[node.pop_idx]? = some v ∧
    v ≠ cfg.EMPTY_VALUE ∧
    BLNode.ok cfg 0 n { node with pop_idx := node.pop_idx + 1,
                                  buffer := node.buffer.set node.pop_idx cfg.TAKEN_VALUE } r := by
  subst hs
  obtain ⟨hb, hlen, htk, hsg, hem, hnf, hnt, hta⟩ := h
  simp only [List.length_cons] at hlen
  have hpB : node.pop_idx < cfg.BUFFER_SIZE := by omega
  have hpp : node.pop_idx < node.push_idx := by omega
  obtain ⟨h0, h1, _⟩ := hsg 0 v (by simp)
  rw [Nat.add_zero] at h0
  refine ⟨hpB, h0, h1, by simpa using hb, ?_, ?_, ?_, ?_, fun hc => absurd rfl hc, hnt, hta⟩
  · simp only
    omega
  · intro j hj1 hj2
    simp only at hj1 ⊢
    by_cases hjp : j = node.pop_idx
    · subst hjp
      exact List.getElem?_set_self (by omega)
    · rw [List.getElem?_set_ne (by omega)]
      exact htk j (by omega) hj2
  · intro k w hk
    simp only
    have := hsg (k + 1) w (by simpa using hk)
    rw [List.getElem?_set_ne (by omega), show node.pop_idx + 1 + k = node.pop_idx + (k + 1) by omega]
    exact this
  · intro j hj1 hj2 hj3
    simp only at hj1 hj2 ⊢
    rw [List.getElem?_set_ne (by omega)]
    exact hem j (by omega) hj2 hj3

theorem BLNode.ok_pop_miss (h : BLNode.ok cfg 0 n node [])
    (hlt : node.pop_idx < cfg.BUFFER_SIZE) :
    node.buffer[node.pop_idx]? = some cfg.EMPTY_VALUE ∧
    BLNode.ok cfg 0 n { node with pop_idx := node.pop_idx + 1,
                                  buffer := node.buffer.set node.pop_idx cfg.TAKEN_VALUE } [] := by
  obtain ⟨hb, hlen, htk, hsg, hem, hnf, hnt, hta⟩ := h
  simp only [List.length_nil] at hlen
  have hpp : node.push_idx ≤ node.pop_idx := by omega
  refine ⟨hem _ (le_refl _) hpp hlt, by simpa using hb, ?_, ?_, ?_, ?_,
    fun hc => absurd rfl hc, hnt, hta⟩
  · simp only [List.length_nil]
    omega
  · intro j hj1 hj2
    simp only at hj1 ⊢
    by_cases hjp : j = node.pop_idx
    · subst hjp
      exact List.getElem?_set_self (by omega)
    · rw [List.getElem?_set_ne (by omega)]
      exact htk j (by omega) hj2
  · intro k w hk
    simp at hk
  · intro j hj1 hj2 hj3
    simp only at hj1 hj2 ⊢
    rw [List.getElem?_set_ne (by omega)]
    exact hem j (by omega) hj2 hj3

theorem BLNode.ok_pop_closed (h : BLNode.ok cfg 0 n node seg)
    (hge : cfg.BUFFER_SIZE ≤ node.pop_idx) :
    seg = [] ∧ BLNode.ok cfg 0 n { node with pop_idx := node.pop_idx + 1 } [] := by
  obtain ⟨hb, hlen, htk, hsg, hem, hnf, hnt, hta⟩ := h
  have hs : seg = [] := by
    apply List.eq_nil_of_length_eq_zero
    omega
  subst hs
  refine ⟨rfl, hb, ?_, ?_, ?_, ?_, fun hc => absurd rfl hc, hnt, hta⟩
  · simp only [List.length_nil]
    omega
  · intro j hj1 hj2
    exact htk j (by omega) hj2
  · intro k w hk
    simp at hk
  · intro j hj1 hj2 hj3
    simp only at hj1
    omega

end BLNodeLemmas

theorem BLQueue.bl_inv_new (cfg : Config) (me n : Nat)
    (hme : me < cfg.MAX_THREADS) (hn : n ≤ cfg.MAX_THREADS) :
    (BLQueue_new cfg).Inv cfg (Thread.registered me n) [] := by
  refine ⟨[[]], ⟨Nat.le_refl 1, rfl, ?_⟩, by simp, rfl, rfl, HPInv.init cfg me n hme hn _ _⟩
  intro i seg h
  match i, h with
  | 0, h =>
    simp only [List.getElem?_cons_zero, Option.some.injEq] at h
    subst h
    refine ⟨BLNode_new cfg, rfl, rfl, by simp [BLNode_new], by simp [BLNode_new], ?_, ?_, ?_,
      fun hc => absurd rfl hc, fun hc => absurd rfl hc, fun _ => Nat.zero_le _⟩
    · intro j hj; simp [BLNode_new] at hj
    · intro k v hk; simp at hk
    · intro j _ _ hj
      simp only [BLNode_new]
      rw [List.getElem?_replicate, if_pos hj]

/-- The tail node of a queue satisfying the invariant. -/
theorem BLQueue.tail_node (cfg : Config) (th : Thread) (q : BLQueue) (pending : List Nat)
    (h : q.Inv cfg th pending) :
    ∃ segs last tbuf tpush tpop,
      Chain BLNode.next (BLNode.ok cfg) q.heap.cells q.head segs ∧ segs ≠ [] ∧
      q.tail + 1 = q.head + segs.length ∧ pending = segs.flatten ∧
      HPInv cfg th q.hp q.heap.cells q.head ∧
      segs[segs.length - 1]? = some last ∧
      q.heap.cells[q.tail]? = some (some ⟨0, tbuf, tpush, tpop⟩) ∧
      BLNode.ok cfg (segs.length - 1) segs.length ⟨0, tbuf, tpush, tpop⟩ last := by
  obtain ⟨segs, hc, hne, htl, hp, hhp⟩ := h
  have hL : 0 < segs.length := List.length_pos.2 hne
  obtain ⟨last, hlast⟩ : ∃ last, segs[segs.length - 1]? = some last :=
    ⟨_, List.getElem?_eq_getElem (by omega)⟩
  obtain ⟨t, htc, htn, hok⟩ := hc.2.2 _ _ hlast
  have htail : q.head + (segs.length - 1) = q.tail := by omega
  rw [htail] at htc
  rw [if_neg (by omega)] at htn
  obtain ⟨tnext, tbuf, tpush, tpop⟩ := t
  simp only at htn
  subst htn
  exact ⟨segs, last, tbuf, tpush, tpop, hc, hne, htl, hp, hhp, hlast, htc, hok⟩

theorem BLQueue.push_full (cfg : Config) (hB : 1 ≤ cfg.BUFFER_SIZE) (th : Thread) (item : Nat)
    (hv : item ≠ cfg.EMPTY_VALUE ∧ item ≠ cfg.TAKEN_VALUE) (pending : List Nat) (f : Nat)
    (q : BLQueue) (hinv : q.Inv cfg th pending)
    (hm : ∀ t, q.heap.cells[q.tail]? = some (some t) → cfg.BUFFER_SIZE ≤ t.push_idx) :
    ∃ q1, BLQueue_push cfg th (f + 1) q item = some q1 ∧
      q1.Inv cfg th (pending ++ [item]) := by
  obtain ⟨segs, last, tbuf, tpush, tpop, hc, hne, htl, hp, hhp, hlast, htc, hok⟩ :=
    BLQueue.tail_node cfg th q pending hinv
  have hL : 0 < segs.length := List.length_pos.2 hne
  have hge := hm _ htc
  simp only at hge
  have hcl : q.heap.cells.length = q.tail + 1 := by rw [hc.2.1]; omega
  obtain ⟨hpr, hhp1⟩ := hhp.protect q.tail
  obtain ⟨hcr, hhp2⟩ := hhp1.clear
  dsimp only at hcr hhp2
  have hlt : q.tail < q.heap.cells.length := by omega
  have hnlt : ¬ tpush < cfg.BUFFER_SIZE := by omega
  have hset : setAt? (List.replicate cfg.BUFFER_SIZE cfg.EMPTY_VALUE) 0 item
      = some ((List.replicate cfg.BUFFER_SIZE cfg.EMPTY_VALUE).set 0 item) := by
    simp only [setAt?, List.length_replicate]
    rw [if_pos (by omega)]
  have hc1 : (q.heap.cells.set q.tail (some (⟨0, tbuf, tpush + 1, tpop⟩ : BLNode))
      ++ [some (⟨0, (List.replicate cfg.BUFFER_SIZE cfg.EMPTY_VALUE).set 0 item, 1, 0⟩
        : BLNode)])[q.tail]? = some (some ⟨0, tbuf, tpush + 1, tpop⟩) := by
    rw [List.getElem?_append_left (by simp; omega)]
    exact List.getElem?_set_self hlt
  refine ⟨⟨⟨(q.heap.cells.set q.tail (some (⟨0, tbuf, tpush + 1, tpop⟩ : BLNode))
      ++ [some (⟨0, (List.replicate cfg.BUFFER_SIZE cfg.EMPTY_VALUE).set 0 item, 1, 0⟩
        : BLNode)]).set q.tail (some ⟨q.heap.cells.length, tbuf, tpush + 1, tpop⟩)⟩,
      q.head, q.heap.cells.length,
      ⟨(q.hp.pointer.set th._thread_id q.tail).set th._thread_id 0, q.hp.retired⟩⟩, ?_, ?_⟩
  · simp only [BLQueue_push, hpr, Heap.deref_of_cell _ _ _ htc,
      Heap.store_of_cell _ _ _ _ htc, hnlt, if_false, ne_eq, not_true_eq_false,
      BLNode_new, hset, Heap.malloc, List.length_set, if_true,
      Heap.store_of_cell _ _ _ _ hc1, hcr]
  · refine ⟨segs ++ [[item]], ?_, by simp,
      by simp only [List.length_append, List.length_singleton]; rw [hc.2.1]; omega,
      by simp [hp], ?_⟩
    · refine hc.append last [item] ⟨q.heap.cells.length, tbuf, tpush + 1, tpop⟩
        ⟨0, (List.replicate cfg.BUFFER_SIZE cfg.EMPTY_VALUE).set 0 item, 1, 0⟩ _ hlast
        ?_ (by simp) ?_ ?_ ?_ rfl
        (BLNode.ok_push_close hok (by omega) hge _) rfl (BLNode.ok_new hB item hv)
      · intro i node seg hi h
        exact ⟨h.1, h.2.1, h.2.2.1, h.2.2.2.1, h.2.2.2.2.1, h.2.2.2.2.2.1,
          fun _ => h.2.2.2.2.2.2.1 (by omega), fun hc => by omega⟩
      · intro p hp'
        rw [List.getElem?_set_ne (by omega), List.getElem?_append_left (by simp; omega),
          List.getElem?_set_ne (by omega)]
      · rw [show q.heap.cells.length - 1 = q.tail by omega]
        exact List.getElem?_set_self (by simp; omega)
      · rw [List.getElem?_set_ne (by omega), List.getElem?_append_right (by simp)]
        simp
    · refine hhp2.weaken _ _ (le_refl _) ?_
      intro p x hp' hx
      refine ⟨x, ?_⟩
      rw [List.getElem?_set_ne (by have := hc.1; omega),
        List.getElem?_append_left (by simp; omega),
        List.getElem?_set_ne (by have := hc.1; omega)]
      exact hx

theorem BLQueue.push_aux (cfg : Config) (hB : 1 ≤ cfg.BUFFER_SIZE)
    (hET : cfg.EMPTY_VALUE ≠ cfg.TAKEN_VALUE) (th : Thread) (item : Nat)
    (hv : item ≠ cfg.EMPTY_VALUE ∧ item ≠ cfg.TAKEN_VALUE) (pending : List Nat) :
    ∀ (m fuel : Nat) (q : BLQueue), q.Inv cfg th pending →
      (∀ t, q.heap.cells[q.tail]? = some (some t) → cfg.BUFFER_SIZE ≤ t.push_idx + m) →
      m + 1 ≤ fuel →
      ∃ q1, BLQueue_push cfg th fuel q item = some q1 ∧ q1.Inv cfg th (pending ++ [item]) := by
  intro m
  induction m with
  | zero =>
    intro fuel q hinv hm hfuel
    obtain ⟨f, rfl⟩ : ∃ f, fuel = f + 1 := ⟨fuel - 1, by omega⟩
    exact BLQueue.push_full cfg hB th item hv pending f q hinv hm
  | succ m ih =>
    intro fuel q hinv hm hfuel
    obtain ⟨f, rfl⟩ : ∃ f, fuel = f + 1 := ⟨fuel - 1, by omega⟩
    obtain ⟨segs, last, tbuf, tpush, tpop, hc, hne, htl, hp, hhp, hlast, htc, hok⟩ :=
      BLQueue.tail_node cfg th q pending hinv
    have hL : 0 < segs.length := List.length_pos.2 hne
    have htail : q.head + (segs.length - 1) = q.tail := by omega
    have htn : (0 : Nat)
        = if segs.length - 1 + 1 < segs.length then q.head + (segs.length - 1) + 1 else 0 := by
      rw [if_neg (by omega)]
    obtain ⟨hpr, hhp1⟩ := hhp.protect q.tail
    obtain ⟨hcr, hhp2⟩ := hhp1.clear
    dsimp only at hcr hhp2
    have hlt : q.tail < q.heap.cells.length := by rw [hc.2.1]; omega
    have hc1 : (q.heap.cells.set q.tail (some (⟨0, tbuf, tpush + 1, tpop⟩ : BLNode)))[q.tail]?
        = some (some ⟨0, tbuf, tpush + 1, tpop⟩) := List.getElem?_set_self hlt
    by_cases hfull : tpush < cfg.BUFFER_SIZE
    · by_cases hpp : tpop ≤ tpush
      · -- the slot is free: the value is stored
        obtain ⟨hcur, hok1⟩ := BLNode.ok_push_hit hok item hfull hpp hv
        simp only at hcur hok1
        refine ⟨⟨⟨q.heap.cells.set q.tail (some ⟨0, tbuf.set tpush item, tpush + 1, tpop⟩)⟩,
            q.head, q.tail,
            ⟨(q.hp.pointer.set th._thread_id q.tail).set th._thread_id 0, q.hp.retired⟩⟩,
            ?_, ?_⟩
        · simp only [BLQueue_push, hpr, Heap.deref_of_cell _ _ _ htc,
            Heap.store_of_cell _ _ _ _ htc, hfull, if_true, hcur,
            Heap.store_of_cell _ _ _ _ hc1, List.set_set, hcr]
        · refine ⟨segs.set (segs.length - 1) (last ++ [item]), ?_,
            by rw [Ne, List.set_eq_nil_iff]; exact hne, by simpa using htl,
            by rw [flatten_set_last segs last item hlast, hp], ?_⟩
          · have := hc.set_node (segs.length - 1) ⟨0, tbuf.set tpush item, tpush + 1, tpop⟩
              (last ++ [item]) (by omega) htn hok1
            rwa [htail] at this
          · refine hhp2.weaken _ _ (le_refl _) ?_
            intro p x hp' hx
            exact ⟨x, by rw [List.getElem?_set_ne (by have := hc.1; omega)]; exact hx⟩
      · -- the slot was stamped by a consumer: next iteration
        obtain ⟨⟨cur, hcur, hcne⟩, hok1⟩ := BLNode.ok_push_miss hET hok hfull (show tpush < tpop by omega)
        simp only at hcur hok1
        have hinv1 : BLQueue.Inv cfg th
            ⟨⟨q.heap.cells.set q.tail (some ⟨0, tbuf, tpush + 1, tpop⟩)⟩, q.head, q.tail,
              ⟨q.hp.pointer.set th._thread_id q.tail, q.hp.retired⟩⟩ pending := by
          refine ⟨segs, ?_, hne, htl, hp, ?_⟩
          · have := hc.update_node (segs.length - 1) ⟨0, tbuf, tpush + 1, tpop⟩ last hlast
              htn hok1
            rwa [htail] at this
          · refine hhp1.weaken _ _ (le_refl _) ?_
            intro p x hp' hx
            exact ⟨x, by rw [List.getElem?_set_ne (by have := hc.1; omega)]; exact hx⟩
        obtain ⟨q1, hq1, hi1⟩ := ih f _ hinv1 (by
          intro t' ht'
          rw [hc1] at ht'
          cases ht'
          have := hm _ htc
          simp only at this ⊢
          omega) (by omega)
        refine ⟨q1, ?_, hi1⟩
        simp only [BLQueue_push, hpr, Heap.deref_of_cell _ _ _ htc,
          Heap.store_of_cell _ _ _ _ htc, hfull, if_true, hcur, hcne, if_false]
        exact hq1
    · exact BLQueue.push_full cfg hB th item hv pending f q hinv (by
        intro t ht
        rw [htc] at ht
        cases ht
        simp only
        omega)

theorem BLQueue.bl_push_spec (cfg : Config) (hB : 1 ≤ cfg.BUFFER_SIZE)
    (hET : cfg.EMPTY_VALUE ≠ cfg.TAKEN_VALUE) (th : Thread) (item : Nat)
    (hv : item ≠ cfg.EMPTY_VALUE ∧ item ≠ cfg.TAKEN_VALUE) (pending : List Nat)
    (fuel : Nat) (hfuel : cfg.BUFFER_SIZE + 1 ≤ fuel) (q : BLQueue)
    (hinv : q.Inv cfg th pending) :
    ∃ q1, BLQueue_push cfg th fuel q item = some q1 ∧ q1.Inv cfg th (pending ++ [item]) :=
  BLQueue.push_aux cfg hB hET th item hv pending cfg.BUFFER_SIZE fuel q hinv
    (fun _ _ => Nat.le_add_left _ _) hfuel

theorem BLNode.ok_shift (cfg : Config) (i n : Nat) (node : BLNode) (seg : List Nat)
    (h : BLNode.ok cfg (i + 2) (n + 1) node seg) : BLNode.ok cfg (i + 1) n node seg :=
  ⟨h.1, h.2.1, h.2.2.1, h.2.2.2.1, h.2.2.2.2.1, fun _ => h.2.2.2.2.2.1 (by omega),
    fun hc => h.2.2.2.2.2.2.1 (by omega), fun hc => h.2.2.2.2.2.2.2 (by omega)⟩

theorem BLNode.ok_head (cfg : Config) (n : Nat) (node : BLNode) (seg : List Nat)
    (h : BLNode.ok cfg 1 (n + 2) node seg) : BLNode.ok cfg 0 (n + 1) node seg :=
  ⟨h.1, h.2.1, h.2.2.1, h.2.2.2.1, h.2.2.2.2.1, fun hc => absurd rfl hc,
    fun hc => h.2.2.2.2.2.2.1 (by omega), fun hc => h.2.2.2.2.2.2.2 (by omega)⟩

theorem BLQueue.pop_hit (cfg : Config) (th : Thread) (q : BLQueue) (v : Nat) (r0 : List Nat)
    (more : List (List Nat)) (f : Nat)
    (hc : Chain BLNode.next (BLNode.ok cfg) q.heap.cells q.head ((v :: r0) :: more))
    (htl : q.tail + 1 = q.head + (more.length + 1))
    (hhp : HPInv cfg th q.hp q.heap.cells q.head) :
    ∃ q1, BLQueue_pop cfg (f + 1) th q = some (v, q1, th) ∧
      q1.Inv cfg th (r0 ++ more.flatten) := by
  obtain ⟨h, hh, hnx, hok⟩ := hc.2.2 0 (v :: r0) (by simp)
  rw [Nat.add_zero] at hh
  obtain ⟨hnext, hbuf, hpush, hpop⟩ := h
  obtain ⟨hlt, hval, hne, hok1⟩ := BLNode.ok_pop_hit hok v r0 rfl
  simp only at hlt hval hok1 hnx
  obtain ⟨hpr, hhp1⟩ := hhp.protect q.head
  obtain ⟨hcr, hhp2⟩ := hhp1.clear
  dsimp only at hcr hhp2
  have hcl : q.head < q.heap.cells.length := (List.getElem?_eq_some.1 hh).1
  have hc1 : (q.heap.cells.set q.head (some (⟨hnext, hbuf, hpush, hpop + 1⟩ : BLNode)))[q.head]?
      = some (some ⟨hnext, hbuf, hpush, hpop + 1⟩) := List.getElem?_set_self hcl
  refine ⟨⟨⟨q.heap.cells.set q.head
      (some ⟨hnext, hbuf.set hpop cfg.TAKEN_VALUE, hpush, hpop + 1⟩)⟩, q.head, q.tail,
      ⟨(q.hp.pointer.set th._thread_id q.head).set th._thread_id 0, q.hp.retired⟩⟩, ?_, ?_⟩
  · simp only [BLQueue_pop, hpr, Heap.deref_of_cell _ _ _ hh, Heap.store_of_cell _ _ _ _ hh,
      hlt, if_true, hval, Heap.store_of_cell _ _ _ _ hc1, List.set_set, ne_eq, hne,
      not_false_eq_true, hcr]
  · refine ⟨r0 :: more, ?_, by simp, by simpa using htl, by simp, ?_⟩
    · have := hc.set_node 0 ⟨hnext, hbuf.set hpop cfg.TAKEN_VALUE, hpush, hpop + 1⟩ r0
        (by simp) hnx hok1
      simpa using this
    · refine hhp2.weaken _ _ (le_refl _) ?_
      intro p x hp' hx
      exact ⟨x, by rw [List.getElem?_set_ne (by omega)]; exact hx⟩

theorem BLQueue.pop_advance (cfg : Config) (hT : 1 ≤ cfg.RETIRED_THRESHOLD) (th : Thread)
    (q : BLQueue) (v : Nat) (r1 : List Nat) (more : List (List Nat)) (f : Nat)
    (hc : Chain BLNode.next (BLNode.ok cfg) q.heap.cells q.head ([] :: (v :: r1) :: more))
    (htl : q.tail + 1 = q.head + (more.length + 2))
    (hhp : HPInv cfg th q.hp q.heap.cells q.head) :
    ∃ q1 th1, BLQueue_pop cfg (f + 2) th q = some (v, q1, th1) ∧
      q1.Inv cfg th1 (r1 ++ more.flatten) ∧
      th1._thread_id = th._thread_id ∧ th1._num_threads = th._num_threads := by
  obtain ⟨h, hh, hnx, hok⟩ := hc.2.2 0 [] (by simp)
  rw [Nat.add_zero] at hh
  obtain ⟨hnext, hbuf, hpush, hpop⟩ := h
  simp only [List.length_cons] at hnx hok
  rw [if_pos (by omega), Nat.add_zero] at hnx
  subst hnx
  have hpushB : hpush = cfg.BUFFER_SIZE + 1 := hok.2.2.2.2.2.2.1 (by omega)
  have hpopB : cfg.BUFFER_SIZE ≤ hpop := by
    have := hok.2.1
    simp only [List.length_nil] at this
    omega
  obtain ⟨_, hok1⟩ := BLNode.ok_pop_closed hok hpopB
  simp only at hok1
  have hhead1 : 1 ≤ q.head := hc.1
  obtain ⟨hpr, hhp1⟩ := hhp.protect q.head
  have hcl : q.head < q.heap.cells.length := (List.getElem?_eq_some.1 hh).1
  have hhp1' : HPInv cfg th ⟨q.hp.pointer.set th._thread_id q.head, q.hp.retired⟩
      (q.heap.cells.set q.head (some ⟨q.head + 1, hbuf, hpush, hpop + 1⟩)) q.head := by
    refine hhp1.weaken _ _ (le_refl _) ?_
    intro p x hp' hx
    exact ⟨x, by rw [List.getElem?_set_ne (by omega)]; exact hx⟩
  obtain ⟨hp2, th1, freed, cells1, hret, hfree, hl1, hsame, hhp4, -, hid, hnum⟩ :=
    hhp1'.retire q.head ⟨q.head + 1, hbuf, hpush, hpop + 1⟩ (q.head + 1)
      (Or.inl hT) (le_refl _) (by omega) hhead1 (List.getElem?_set_self hcl)
  have hc1 : Chain BLNode.next (BLNode.ok cfg) cells1 (q.head + 1) ((v :: r1) :: more) := by
    have h1 := hc.update_node 0 ⟨q.head + 1, hbuf, hpush, hpop + 1⟩ [] (by simp)
      (by simp) (by simpa using hok1)
    rw [Nat.add_zero] at h1
    exact (h1.advance (v :: r1) (BLNode.ok_shift cfg)
      (fun node h => BLNode.ok_head cfg _ node _ h)).frame _ (by simpa using hl1) hsame
  obtain ⟨q1, hq1, hi1⟩ := BLQueue.pop_hit cfg th1 ⟨⟨cells1⟩, q.head + 1, q.tail, hp2⟩ v r1 more f
    hc1 (by simp only; omega) hhp4
  refine ⟨q1, th1, ?_, hi1, hid, hnum⟩
  have hnlt : ¬ hpop < cfg.BUFFER_SIZE := by omega
  have hne1 : ¬ (q.head + 1 = 0) := by omega
  rw [show f + 2 = (f + 1) + 1 from rfl]
  simp only [BLQueue_pop, hpr, Heap.deref_of_cell _ _ _ hh, Heap.store_of_cell _ _ _ _ hh,
    hnlt, if_false, hne1, if_true, hret, hfree]
  exact hq1

theorem BLQueue.pop_empty_closed (cfg : Config) (th : Thread) (f : Nat) (q : BLQueue)
    (hc : Chain BLNode.next (BLNode.ok cfg) q.heap.cells q.head [[]])
    (htl : q.tail + 1 = q.head + 1) (hhp : HPInv cfg th q.hp q.heap.cells q.head)
    (hm : ∀ h, q.heap.cells[q.head]? = some (some h) → cfg.BUFFER_SIZE ≤ h.pop_idx) :
    ∃ q1, BLQueue_pop cfg (f + 1) th q = some (cfg.EMPTY_VALUE, q1, th) ∧
      q1.Inv cfg th [] := by
  obtain ⟨h, hh, hnx, hok⟩ := hc.2.2 0 [] (by simp)
  rw [Nat.add_zero] at hh
  have hge := hm h hh
  obtain ⟨hnext, hbuf, hpush, hpop⟩ := h
  simp only [List.length_singleton] at hnx hok
  rw [if_neg (by omega)] at hnx
  simp only at hge
  subst hnx
  obtain ⟨_, hok1⟩ := BLNode.ok_pop_closed hok (by simpa using hge)
  simp only at hok1
  obtain ⟨hpr, hhp1⟩ := hhp.protect q.head
  obtain ⟨hcr, hhp2⟩ := hhp1.clear
  dsimp only at hcr hhp2
  have hnlt : ¬ hpop < cfg.BUFFER_SIZE := by omega
  refine ⟨⟨⟨q.heap.cells.set q.head (some ⟨0, hbuf, hpush, hpop + 1⟩)⟩, q.head, q.tail,
    ⟨(q.hp.pointer.set th._thread_id q.head).set th._thread_id 0, q.hp.retired⟩⟩, ?_, ?_⟩
  · simp only [BLQueue_pop, hpr, Heap.deref_of_cell _ _ _ hh,
      Heap.store_of_cell _ _ _ _ hh, hnlt, if_false, if_true, hcr]
  · refine ⟨[[]], ?_, by simp, by simpa using htl, by simp, ?_⟩
    · have h1 := hc.update_node 0 ⟨0, hbuf, hpush, hpop + 1⟩ [] (by simp)
        (by simp) (by simpa using hok1)
      rw [Nat.add_zero] at h1
      exact h1
    · refine hhp2.weaken _ _ (le_refl _) ?_
      intro p x hp' hx
      exact ⟨x, by rw [List.getElem?_set_ne (by have := hc.1; omega)]; exact hx⟩

theorem BLQueue.pop_empty_aux (cfg : Config) (th : Thread) :
    ∀ (m f : Nat) (q : BLQueue),
      Chain BLNode.next (BLNode.ok cfg) q.heap.cells q.head [[]] →
      q.tail + 1 = q.head + 1 → HPInv cfg th q.hp q.heap.cells q.head →
      (∀ h, q.heap.cells[q.head]? = some (some h) → cfg.BUFFER_SIZE ≤ h.pop_idx + m) →
      m + 1 ≤ f →
      ∃ q1, BLQueue_pop cfg f th q = some (cfg.EMPTY_VALUE, q1, th) ∧ q1.Inv cfg th [] := by
  intro m
  induction m with
  | zero =>
    intro f q hc htl hhp hm hf
    obtain ⟨f, rfl⟩ : ∃ f', f = f' + 1 := ⟨f - 1, by omega⟩
    exact BLQueue.pop_empty_closed cfg th f q hc htl hhp hm
  | succ m ih =>
    intro f q hc htl hhp hm hf
    obtain ⟨f, rfl⟩ : ∃ f', f = f' + 1 := ⟨f - 1, by omega⟩
    obtain ⟨h, hh, hnx, hok⟩ := hc.2.2 0 [] (by simp)
    rw [Nat.add_zero] at hh
    by_cases hlt : h.pop_idx < cfg.BUFFER_SIZE
    · have hge := hm h hh
      obtain ⟨hnext, hbuf, hpush, hpop⟩ := h
      simp only at hlt hge
      obtain ⟨hval, hok1⟩ := BLNode.ok_pop_miss hok hlt
      simp only at hval hok1 hnx
      obtain ⟨hpr, hhp1⟩ := hhp.protect q.head
      have hcl : q.head < q.heap.cells.length := (List.getElem?_eq_some.1 hh).1
      have hc1 : (q.heap.cells.set q.head
          (some (⟨hnext, hbuf, hpush, hpop + 1⟩ : BLNode)))[q.head]?
          = some (some ⟨hnext, hbuf, hpush, hpop + 1⟩) := List.getElem?_set_self hcl
      have hc2 : (q.heap.cells.set q.head
          (some (⟨hnext, hbuf.set hpop cfg.TAKEN_VALUE, hpush, hpop + 1⟩ : BLNode)))[q.head]?
          = some (some ⟨hnext, hbuf.set hpop cfg.TAKEN_VALUE, hpush, hpop + 1⟩) :=
        List.getElem?_set_self hcl
      obtain ⟨q1, hq1, hi1⟩ := ih f
        ⟨⟨q.heap.cells.set q.head (some ⟨hnext, hbuf.set hpop cfg.TAKEN_VALUE, hpush, hpop + 1⟩)⟩,
          q.head, q.tail, ⟨q.hp.pointer.set th._thread_id q.head, q.hp.retired⟩⟩
        (by
          have h1 := hc.update_node 0 ⟨hnext, hbuf.set hpop cfg.TAKEN_VALUE, hpush, hpop + 1⟩ []
            (by simp) hnx hok1
          rw [Nat.add_zero] at h1
          exact h1)
        htl
        (by
          refine hhp1.weaken _ _ (le_refl _) ?_
          intro p x hp' hx
          exact ⟨x, by rw [List.getElem?_set_ne (by omega)]; exact hx⟩)
        (by
          intro h' hh'
          rw [hc2] at hh'
          cases hh'
          simp only
          omega)
        (by omega)
      refine ⟨q1, ?_, hi1⟩
      simp only [BLQueue_pop, hpr, Heap.deref_of_cell _ _ _ hh, Heap.store_of_cell _ _ _ _ hh,
        hlt, if_true, hval, Heap.store_of_cell _ _ _ _ hc1, List.set_set, ne_eq,
        not_true_eq_false, if_false]
      exact hq1
    · exact BLQueue.pop_empty_closed cfg th f q hc htl hhp (by
        intro h' hh'
        rw [hh] at hh'
        cases hh'
        omega)

theorem BLQueue.second_seg_ne_nil (cfg : Config) (hB : 1 ≤ cfg.BUFFER_SIZE)
    {cells : List (Option BLNode)} {head : Nat} {s0 s1 : List Nat} {more : List (List Nat)}
    (hc : Chain BLNode.next (BLNode.ok cfg) cells head (s0 :: s1 :: more)) : s1 ≠ [] := by
  obtain ⟨n, _, _, hok⟩ := hc.2.2 1 s1 (by simp)
  have h1 := hok.2.1
  have h2 := hok.2.2.2.2.2.1 (by omega)
  intro hs
  rw [hs, h2.1] at h1
  simp only [List.length_nil] at h1
  omega

theorem BLQueue.pending_valid (cfg : Config) (th : Thread) (q : BLQueue) (pending : List Nat)
    (h : q.Inv cfg th pending) :
    ∀ v ∈ pending, v ≠ cfg.EMPTY_VALUE ∧ v ≠ cfg.TAKEN_VALUE := by
  obtain ⟨segs, hc, _, _, hp, _⟩ := h
  intro v hv
  rw [hp, List.mem_flatten] at hv
  obtain ⟨seg, hseg, hvs⟩ := hv
  obtain ⟨i, hi⟩ := List.mem_iff_getElem?.1 hseg
  obtain ⟨k, hk⟩ := List.mem_iff_getElem?.1 hvs
  obtain ⟨node, _, _, hok⟩ := hc.2.2 i seg hi
  exact (hok.2.2.2.1 k v hk).2

theorem BLQueue.pop_spec (cfg : Config) (hB : 1 ≤ cfg.BUFFER_SIZE)
    (hT : 1 ≤ cfg.RETIRED_THRESHOLD) (th : Thread) (q : BLQueue) (pending : List Nat)
    (fuel : Nat) (hfuel : cfg.BUFFER_SIZE + 1 ≤ fuel) (h : q.Inv cfg th pending) :
    ∃ q1 th1, BLQueue_pop cfg fuel th q = some (pending.headD cfg.EMPTY_VALUE, q1, th1) ∧
      q1.Inv cfg th1 pending.tail ∧
      th1._thread_id = th._thread_id ∧ th1._num_threads = th._num_threads := by
  obtain ⟨segs, hc, hne, htl, hp, hhp⟩ := h
  match segs, hc, hne, htl, hp with
  | (v :: r0) :: more, hc, _, htl, hp =>
    obtain ⟨f, rfl⟩ : ∃ f, fuel = f + 1 := ⟨fuel - 1, by omega⟩
    obtain ⟨q1, hq1, hi1⟩ := BLQueue.pop_hit cfg th q v r0 more f hc (by simpa using htl) hhp
    subst hp
    exact ⟨q1, th, by simpa using hq1, by simpa using hi1, rfl, rfl⟩
  | [[]], hc, _, htl, hp =>
    obtain ⟨q1, hq1, hi1⟩ := BLQueue.pop_empty_aux cfg th cfg.BUFFER_SIZE fuel q hc
      (by simpa using htl) hhp (fun _ _ => Nat.le_add_left _ _) hfuel
    subst hp
    exact ⟨q1, th, by simpa using hq1, by simpa using hi1, rfl, rfl⟩
  | [] :: s1 :: more, hc, _, htl, hp =>
    have hs1 := BLQueue.second_seg_ne_nil cfg hB hc
    match s1, hs1, hc, htl, hp with
    | v :: r1, _, hc, htl, hp =>
      obtain ⟨f, rfl⟩ : ∃ f, fuel = f + 2 := ⟨fuel - 2, by omega⟩
      obtain ⟨q1, th1, hq1, hi1, hid, hnum⟩ :=
        BLQueue.pop_advance cfg hT th q v r1 more f hc (by simpa using htl) hhp
      subst hp
      exact ⟨q1, th1, by simpa using hq1, by simpa using hi1, hid, hnum⟩

theorem BLQueue.bl_is_empty_spec (cfg : Config) (hB : 1 ≤ cfg.BUFFER_SIZE) (th : Thread)
    (q : BLQueue) (pending : List Nat) (h : q.Inv cfg th pending) :
    ∃ q1, BLQueue_is_empty th q = some (decide (pending = []), q1) ∧
      q1.Inv cfg th pending := by
  obtain ⟨segs, hc, hne, htl, hp, hhp⟩ := h
  obtain ⟨hpr, hhp1⟩ := hhp.protect q.head
  match segs, hc, hne, htl, hp with
  | [s0], hc, hne, htl, hp =>
    obtain ⟨h, hh, hnx, hok⟩ := hc.2.2 0 s0 (by simp)
    rw [Nat.add_zero] at hh
    simp only [List.length_singleton] at hnx hok
    rw [if_neg (by omega)] at hnx
    refine ⟨{ q with hp := ⟨q.hp.pointer.set th._thread_id q.head, q.hp.retired⟩ }, ?_,
      [s0], hc, hne, htl, hp, hhp1⟩
    have hlen := hok.2.1
    have hta := hok.2.2.2.2.2.2.2 rfl
    simp only [BLQueue_is_empty, hpr, Heap.deref_of_cell _ _ _ hh, hnx, decide_True,
      Bool.and_true, Option.some.injEq, Prod.mk.injEq, and_true]
    rw [hp]
    simp only [List.flatten_cons, List.flatten_nil, List.append_nil]
    by_cases hpp : h.pop_idx ≥ h.push_idx
    · have : s0 = [] := List.eq_nil_of_length_eq_zero (by omega)
      simp [hpp, this]
    · have : s0 ≠ [] := by
        intro hs
        rw [hs] at hlen
        simp only [List.length_nil] at hlen
        omega
      simp [hpp, this]
  | s0 :: s1 :: more, hc, hne, htl, hp =>
    obtain ⟨h, hh, hnx, hok⟩ := hc.2.2 0 s0 (by simp)
    rw [Nat.add_zero] at hh
    simp only [List.length_cons] at hnx
    rw [if_pos (by omega)] at hnx
    have hs1 := BLQueue.second_seg_ne_nil cfg hB hc
    refine ⟨{ q with hp := ⟨q.hp.pointer.set th._thread_id q.head, q.hp.retired⟩ }, ?_,
      s0 :: s1 :: more, hc, hne, htl, hp, hhp1⟩
    have hne0 : ¬ (q.head + 0 + 1 = 0) := by omega
    simp only [BLQueue_is_empty, hpr, Heap.deref_of_cell _ _ _ hh, hnx, hne0, decide_False,
      Bool.and_false, Option.some.injEq, Prod.mk.injEq, and_true]
    rw [hp]
    simp [hs1]

theorem BLQueue.bl_run_spec (cfg : Config) (hB : 1 ≤ cfg.BUFFER_SIZE)
    (hET : cfg.EMPTY_VALUE ≠ cfg.TAKEN_VALUE) (hT : 1 ≤ cfg.RETIRED_THRESHOLD)
    (fuel : Nat) (hfuel : cfg.BUFFER_SIZE + 1 ≤ fuel) :
    ∀ (ops : List Op) (th : Thread) (q : BLQueue) (pending : List Nat),
      cfg.EMPTY_VALUE ∉ pushed ops → cfg.TAKEN_VALUE ∉ pushed ops → q.Inv cfg th pending →
      ∃ q1 th1, BLQueue_run cfg fuel th q ops
          = some (fifo cfg.EMPTY_VALUE pending ops, q1, th1) ∧
        q1.Inv cfg th1 (pendingAfter pending ops) := by
  intro ops
  induction ops with
  | nil => intro th q pending _ _ h; exact ⟨q, th, rfl, h⟩
  | cons op ops ih =>
    intro th q pending hvE hvT h
    cases op with
    | push v =>
      simp only [pushed, List.mem_cons, not_or] at hvE hvT
      obtain ⟨q1, hp, hi⟩ := BLQueue.bl_push_spec cfg hB hET th v
        ⟨Ne.symm hvE.1, Ne.symm hvT.1⟩ pending fuel hfuel q h
      obtain ⟨q2, th2, hr, hi2⟩ := ih th q1 _ hvE.2 hvT.2 hi
      exact ⟨q2, th2, by simp only [BLQueue_run, hp, hr, fifo], hi2⟩
    | pop =>
      have hvE1 : cfg.EMPTY_VALUE ∉ pushed ops := hvE
      have hvT1 : cfg.TAKEN_VALUE ∉ pushed ops := hvT
      obtain ⟨q1, th1, hp, hi, _, _⟩ := BLQueue.pop_spec cfg hB hT th q pending fuel hfuel h
      obtain ⟨q2, th2, hr, hi2⟩ := ih th1 q1 _ hvE1 hvT1 hi
      exact ⟨q2, th2, by simp only [BLQueue_run, hp, hr, fifo], hi2⟩

/-- C1. Single-threaded FIFO for BLQueue. Assumptions on the header constants:
`BUFFER_SIZE ≥ 1`, `EMPTY_VALUE ≠ TAKEN_VALUE`, `RETIRED_THRESHOLD ≥ 1`. For a thread
registered with `thread_id < MAX_THREADS` and `num_threads ≤ MAX_THREADS`, every
sequence of `BLQueue_push(v)` (`v` neither `EMPTY_VALUE` nor `TAKEN_VALUE`) and
`BLQueue_pop` calls on a fresh queue returns (every loop ends within
`BUFFER_SIZE + 1` iterations, every node touched is allocated, the retired row is
never overrun, every `free` is legal) and the pops yield what the reference FIFO
yields: the oldest value pushed and not yet popped, or `EMPTY_VALUE` when there
is none. -/
theorem C1_BLQueue_fifo (cfg : Config) (hB : 1 ≤ cfg.BUFFER_SIZE)
    (hET : cfg.EMPTY_VALUE ≠ cfg.TAKEN_VALUE) (hT : 1 ≤ cfg.RETIRED_THRESHOLD)
    (me n : Nat) (hme : me < cfg.MAX_THREADS) (hn : n ≤ cfg.MAX_THREADS) (ops : List Op)
    (hvE : cfg.EMPTY_VALUE ∉ pushed ops) (hvT : cfg.TAKEN_VALUE ∉ pushed ops)
    (fuel : Nat) (hfuel : cfg.BUFFER_SIZE + 1 ≤ fuel) :
    ∃ q th1, BLQueue_run cfg fuel (Thread.registered me n) (BLQueue_new cfg) ops
      = some (fifo cfg.EMPTY_VALUE [] ops, q, th1) := by
  obtain ⟨q, th1, hr, _⟩ := BLQueue.bl_run_spec cfg hB hET hT fuel hfuel ops _ _ [] hvE hvT
    (BLQueue.bl_inv_new cfg me n hme hn)
  exact ⟨q, th1, hr⟩

/-- C1, witness: scenario 3 of the specification (`BUFFER_SIZE = 4`, push 1..5, six
pops) followed by a push after the pop on the empty queue. -/
theorem C1_BLQueue_fifo_witness :
    (1 ≤ cfgEx.BUFFER_SIZE ∧ cfgEx.EMPTY_VALUE ≠ cfgEx.TAKEN_VALUE ∧
      1 ≤ cfgEx.RETIRED_THRESHOLD ∧ 0 < cfgEx.MAX_THREADS ∧ 1 ≤ cfgEx.MAX_THREADS ∧
      cfgEx.EMPTY_VALUE ∉ pushed [.push 1, .push 2, .push 3, .push 4, .push 5,
        .pop, .pop, .pop, .pop, .pop, .pop, .push 6, .pop] ∧
      cfgEx.TAKEN_VALUE ∉ pushed [.push 1, .push 2, .push 3, .push 4, .push 5,
        .pop, .pop, .pop, .pop, .pop, .pop, .push 6, .pop] ∧
      cfgEx.BUFFER_SIZE + 1 ≤ 5) ∧
    ∃ q th1, BLQueue_run cfgEx 5 (Thread.registered 0 1) (BLQueue_new cfgEx)
        [.push 1, .push 2, .push 3, .push 4, .push 5, .pop, .pop, .pop, .pop, .pop, .pop,
         .push 6, .pop]
      = some (fifo cfgEx.EMPTY_VALUE []
          [.push 1, .push 2, .push 3, .push 4, .push 5, .pop, .pop, .pop, .pop, .pop, .pop,
           .push 6, .pop], q, th1) :=
  ⟨⟨by decide, by decide, by decide, by decide, by decide, by decide, by decide, by decide⟩,
    C1_BLQueue_fifo cfgEx (by decide) (by decide) (by decide) 0 1 (by decide) (by decide) _
      (by decide) (by decide) 5 (by decide)⟩

/-- C9. `BLQueue_is_empty` is exact in single-threaded use. Assuming
`BUFFER_SIZE ≥ 1`, `EMPTY_VALUE ≠ TAKEN_VALUE` and `RETIRED_THRESHOLD ≥ 1`, in every state reached from `BLQueue_new` by push (valid values) and pop
calls of one registered thread, `BLQueue_is_empty` returns true exactly when no
pushed value is still unpopped, and exactly when a pop issued in that state
returns `EMPTY_VALUE`. -/
theorem C9_BLQueue_is_empty_exact (cfg : Config) (hB : 1 ≤ cfg.BUFFER_SIZE)
    (hET : cfg.EMPTY_VALUE ≠ cfg.TAKEN_VALUE) (hT : 1 ≤ cfg.RETIRED_THRESHOLD)
    (me n : Nat) (hme : me < cfg.MAX_THREADS) (hn : n ≤ cfg.MAX_THREADS) (ops : List Op)
    (hvE : cfg.EMPTY_VALUE ∉ pushed ops) (hvT : cfg.TAKEN_VALUE ∉ pushed ops)
    (fuel : Nat) (hfuel : cfg.BUFFER_SIZE + 1 ≤ fuel) :
    ∃ outs q th1, BLQueue_run cfg fuel (Thread.registered me n) (BLQueue_new cfg) ops
        = some (outs, q, th1) ∧
      (∃ q1, BLQueue_is_empty th1 q = some (decide (pendingAfter [] ops = []), q1)) ∧
      (∃ v q1 th2, BLQueue_pop cfg fuel th1 q = some (v, q1, th2) ∧
        (v = cfg.EMPTY_VALUE ↔ pendingAfter [] ops = [])) := by
  obtain ⟨q, th1, hr, hi⟩ := BLQueue.bl_run_spec cfg hB hET hT fuel hfuel ops _ _ [] hvE hvT
    (BLQueue.bl_inv_new cfg me n hme hn)
  obtain ⟨q1, he, _⟩ := BLQueue.bl_is_empty_spec cfg hB th1 q _ hi
  obtain ⟨q2, th2, hp, _, _, _⟩ := BLQueue.pop_spec cfg hB hT th1 q _ fuel hfuel hi
  refine ⟨_, q, th1, hr, ⟨q1, he⟩, _, q2, th2, hp, ?_⟩
  have hval := BLQueue.pending_valid cfg th1 q _ hi
  cases hpe : pendingAfter [] ops with
  | nil => simp
  | cons v r =>
    rw [hpe] at hval
    have := (hval v (List.mem_cons_self _ _)).1
    simp [this]

/-- C9, witness (`BUFFER_SIZE = 4`): a pop on the fresh queue drives `pop_idx` above
`push_idx`; then one push and one pop. -/
theorem C9_BLQueue_is_empty_exact_witness :
    (1 ≤ cfgEx.BUFFER_SIZE ∧ cfgEx.EMPTY_VALUE ≠ cfgEx.TAKEN_VALUE ∧
      1 ≤ cfgEx.RETIRED_THRESHOLD ∧ 0 < cfgEx.MAX_THREADS ∧ 1 ≤ cfgEx.MAX_THREADS ∧
      cfgEx.EMPTY_VALUE ∉ pushed [.pop, .push 6, .pop] ∧
      cfgEx.TAKEN_VALUE ∉ pushed [.pop, .push 6, .pop] ∧ cfgEx.BUFFER_SIZE + 1 ≤ 5) ∧
    ∃ outs q th1, BLQueue_run cfgEx 5 (Thread.registered 0 1) (BLQueue_new cfgEx)
        [.pop, .push 6, .pop] = some (outs, q, th1) ∧
      (∃ q1, BLQueue_is_empty th1 q
        = some (decide (pendingAfter [] [.pop, .push 6, .pop] = []), q1)) ∧
      (∃ v q1 th2, BLQueue_pop cfgEx 5 th1 q = some (v, q1, th2) ∧
        (v = cfgEx.EMPTY_VALUE ↔ pendingAfter [] [.pop, .push 6, .pop] = [])) :=
  ⟨⟨by decide, by decide, by decide, by decide, by decide, by decide, by decide, by decide⟩,
    C9_BLQueue_is_empty_exact cfgEx (by decide) (by decide) (by decide) 0 1 (by decide)
      (by decide) _ (by decide) (by decide) 5 (by decide)⟩

/-- Scenario 3 of the specification (`BUFFER_SIZE = 4`): push 1..5, then six pops;
and a pop on the fresh queue followed by `push(9)` and two pops. -/
theorem BLQueue_scenarios :
    (BLQueue_run cfgEx 5 (Thread.registered 0 1) (BLQueue_new cfgEx)
        [.push 1, .push 2, .push 3, .push 4, .push 5, .pop, .pop, .pop, .pop, .pop, .pop]).map
      (fun r => r.1) = some [1, 2, 3, 4, 5, 0] ∧
    (BLQueue_run cfgEx 5 (Thread.registered 0 1) (BLQueue_new cfgEx)
        [.pop, .push 9, .pop, .pop]).map (fun r => r.1) = some [0, 9, 0] := by
  decide

/-- Scenario 6 of the specification (`RING_SIZE = 4`): push 1,2,3,4; pop, pop;
push 5,6,7; six pops. -/
theorem RingsQueue_wraparound_scenario :
    (RingsQueue_run cfgEx (RingsQueue_new cfgEx)
        [.push 1, .push 2, .push 3, .push 4, .pop, .pop, .push 5, .push 6, .push 7,
         .pop, .pop, .pop, .pop, .pop, .pop]).map (fun r => r.1)
      = some [1, 2, 3, 4, 5, 6, 7, 0] := by
  decide

theorem set_length_append {α : Type} (pre : List α) (x y : α) (rest : List α) :
    (pre ++ x :: rest).set pre.length y = pre ++ y :: rest := by
  induction pre with
  | nil => rfl
  | cons a pre ih => simp [ih]

theorem getElem?_length_append {α : Type} (pre : List α) (x : α) (rest : List α) :
    (pre ++ x :: rest)[pre.length]? = some x := by
  induction pre with
  | nil => simp
  | cons a pre ih => simpa using ih

/-- Behaviour of `BLQueue_run` on a concatenation of call sequences. -/
theorem BLQueue_run_append (cfg : Config) (fuel : Nat) :
    ∀ (ops1 ops2 : List Op) (th : Thread) (q : BLQueue),
      BLQueue_run cfg fuel th q (ops1 ++ ops2)
        = match BLQueue_run cfg fuel th q ops1 with
          | none => none
          | some (o1, q1, th1) =>
            match BLQueue_run cfg fuel th1 q1 ops2 with
            | none => none
            | some (o2, q2, th2) => some (o1 ++ o2, q2, th2) := by
  intro ops1
  induction ops1 with
  | nil =>
    intro ops2 th q
    simp only [List.nil_append, BLQueue_run]
    cases BLQueue_run cfg fuel th q ops2 with
    | none => rfl
    | some r => rfl
  | cons op ops1 ih =>
    intro ops2 th q
    cases op with
    | push v =>
      simp only [List.cons_append, BLQueue_run]
      cases BLQueue_push cfg th fuel q v with
      | none => rfl
      | some q1 => exact ih ops2 th q1
    | pop =>
      simp only [List.cons_append, BLQueue_run]
      cases BLQueue_pop cfg fuel th q with
      | none => rfl
      | some r =>
        obtain ⟨v, q1, th1⟩ := r
        simp only [List.append_eq, ih ops2 th1 q1]
        cases BLQueue_run cfg fuel th1 q1 ops1 with
        | none => rfl
        | some r1 =>
          obtain ⟨o1, q2, th2⟩ := r1
          simp only
          cases BLQueue_run cfg fuel th2 q2 ops2 with
          | none => rfl
          | some r2 => rfl

/-- A push into the only node of a queue whose slot `push_idx` is still
`EMPTY_VALUE` stores the value there and allocates nothing. -/
theorem BLQueue.push_fill (cfg : Config) (th : Thread) (item f : Nat) (q : BLQueue)
    (pre : List Nat) (r : Nat)
    (hcells : q.heap.cells = [none, some ⟨0, pre ++ List.replicate (r + 1) cfg.EMPTY_VALUE,
      pre.length, 0⟩])
    (htail : q.tail = 1) (hB : cfg.BUFFER_SIZE = pre.length + r + 1)
    (hme : th._thread_id < q.hp.pointer.length) :
    BLQueue_push cfg th (f + 1) q item
      = some ⟨⟨[none, some ⟨0, (pre ++ [item]) ++ List.replicate r cfg.EMPTY_VALUE,
          pre.length + 1, 0⟩]⟩, q.head, 1,
          ⟨(q.hp.pointer.set th._thread_id 1).set th._thread_id 0, q.hp.retired⟩⟩ := by
  obtain ⟨⟨cells⟩, head, tail, ⟨pointer, retired⟩⟩ := q
  simp only at hcells htail hme
  subst hcells htail
  have hlt : pre.length < cfg.BUFFER_SIZE := by omega
  simp only [BLQueue_push, HazardPointer_protect, HazardPointer_clear, setAt?, hme, if_true,
    Heap.deref, Heap.store, List.length_set, hlt, List.replicate_succ,
    getElem?_length_append, set_length_append]
  simp [hlt]
  intro h
  refine absurd ?_ h
  have := getElem?_length_append pre cfg.EMPTY_VALUE (List.replicate r cfg.EMPTY_VALUE)
  rw [List.getElem?_eq_getElem (by simp)] at this
  exact Option.some.inj this

/-- A push into the only node of a queue whose `push_idx` is `BUFFER_SIZE`
allocates the successor node. -/
theorem BLQueue.push_roll (cfg : Config) (hB : 1 ≤ cfg.BUFFER_SIZE) (th : Thread)
    (item f : Nat) (q : BLQueue) (buf : List Nat) (pop : Nat)
    (hcells : q.heap.cells = [none, some ⟨0, buf, cfg.BUFFER_SIZE, pop⟩])
    (htail : q.tail = 1) (hme : th._thread_id < q.hp.pointer.length) :
    BLQueue_push cfg th (f + 1) q item
      = some ⟨⟨[none, some ⟨2, buf, cfg.BUFFER_SIZE + 1, pop⟩,
          some ⟨0, (List.replicate cfg.BUFFER_SIZE cfg.EMPTY_VALUE).set 0 item, 1, 0⟩]⟩,
          q.head, 2,
          ⟨(q.hp.pointer.set th._thread_id 1).set th._thread_id 0, q.hp.retired⟩⟩ := by
  obtain ⟨⟨cells⟩, head, tail, ⟨pointer, retired⟩⟩ := q
  simp only at hcells htail hme
  subst hcells htail
  have hlt : 0 < cfg.BUFFER_SIZE := by omega
  simp only [BLQueue_push, HazardPointer_protect, HazardPointer_clear, setAt?, hme, if_true,
    Heap.deref, Heap.store, Heap.malloc, List.length_set, lt_irrefl, if_false, BLNode_new,
    List.length_replicate, hlt]
  simp


/-- Pushing the values `ws` one after the other into the only node of a queue that
has room for them fills the slots after `pre` in order and allocates nothing. -/
theorem BLQueue.run_fill (cfg : Config) (th : Thread) (f : Nat) :
    ∀ (ws pre : List Nat) (r : Nat) (q : BLQueue),
      q.heap.cells = [none, some ⟨0, pre ++ List.replicate (ws.length + r) cfg.EMPTY_VALUE,
        pre.length, 0⟩] →
      q.tail = 1 → cfg.BUFFER_SIZE = pre.length + ws.length + r →
      th._thread_id < q.hp.pointer.length →
      ∃ hp1, BLQueue_run cfg (f + 1) th q (ws.map Op.push)
        = some ([], ⟨⟨[none, some ⟨0, (pre ++ ws) ++ List.replicate r cfg.EMPTY_VALUE,
            pre.length + ws.length, 0⟩]⟩, q.head, 1, hp1⟩, th) ∧
        hp1.pointer.length = q.hp.pointer.length := by
  intro ws
  induction ws with
  | nil =>
    intro pre r q hcells htail hB hme
    obtain ⟨⟨cells⟩, head, tail, hp⟩ := q
    simp only at hcells htail
    subst hcells htail
    exact ⟨hp, by simp [BLQueue_run], rfl⟩
  | cons w ws ih =>
    intro pre r q hcells htail hB hme
    have h1 := BLQueue.push_fill cfg th w f q pre (ws.length + r)
      (by rw [hcells]; simp only [List.length_cons]; rw [show ws.length + 1 + r = ws.length + r + 1 by omega])
      htail (by simp only [List.length_cons] at hB; omega) hme
    obtain ⟨hp1, h2, h3⟩ := ih (pre ++ [w]) r
      ⟨⟨[none, some ⟨0, (pre ++ [w]) ++ List.replicate (ws.length + r) cfg.EMPTY_VALUE,
          pre.length + 1, 0⟩]⟩, q.head, 1,
          ⟨(q.hp.pointer.set th._thread_id 1).set th._thread_id 0, q.hp.retired⟩⟩
      (by simp) rfl
      (by simp only [List.length_cons] at hB; simp; omega) (by simpa using hme)
    refine ⟨hp1, ?_, by simpa using h3⟩
    simp only [List.map_cons, BLQueue_run, h1]
    rw [h2]
    simp
    omega


/-- C11. On a fresh `BLQueue` (no pop issued, `BUFFER_SIZE ≥ 1`) the first
`BUFFER_SIZE` pushes allocate no node (the heap keeps its two cells) and fill the
slots of the initial node in push order: after `k ≤ BUFFER_SIZE` pushes the buffer is
the first `k` values followed by `EMPTY_VALUE`, after `BUFFER_SIZE` pushes it is
exactly the pushed values. The next push allocates exactly one node (third cell),
stores its value in slot 0 of it with `push_idx = 1`, links it as `next` of the
initial node and makes it the tail. -/
theorem C11_BLQueue_rollover (cfg : Config) (hB : 1 ≤ cfg.BUFFER_SIZE) (me n : Nat)
    (hme : me < cfg.MAX_THREADS) (vs : List Nat) (hlen : vs.length = cfg.BUFFER_SIZE)
    (v f : Nat) :
    (∀ k, k ≤ cfg.BUFFER_SIZE → ∃ hp1,
      BLQueue_run cfg (f + 1) (Thread.registered me n) (BLQueue_new cfg)
          ((vs.take k).map Op.push)
        = some ([], ⟨⟨[none, some ⟨0,
            vs.take k ++ List.replicate (cfg.BUFFER_SIZE - k) cfg.EMPTY_VALUE, k, 0⟩]⟩,
            1, 1, hp1⟩, Thread.registered me n)) ∧
    (∃ hp1, BLQueue_run cfg (f + 1) (Thread.registered me n) (BLQueue_new cfg)
          (vs.map Op.push)
        = some ([], ⟨⟨[none, some ⟨0, vs, cfg.BUFFER_SIZE, 0⟩]⟩, 1, 1, hp1⟩,
            Thread.registered me n)) ∧
    (∃ hp2, BLQueue_run cfg (f + 1) (Thread.registered me n) (BLQueue_new cfg)
          ((vs ++ [v]).map Op.push)
        = some ([], ⟨⟨[none, some ⟨2, vs, cfg.BUFFER_SIZE + 1, 0⟩,
            some ⟨0, (List.replicate cfg.BUFFER_SIZE cfg.EMPTY_VALUE).set 0 v, 1, 0⟩]⟩,
            1, 2, hp2⟩, Thread.registered me n)) := by
  have hfill : ∀ k, k ≤ cfg.BUFFER_SIZE → ∃ hp1,
      BLQueue_run cfg (f + 1) (Thread.registered me n) (BLQueue_new cfg)
          ((vs.take k).map Op.push)
        = some ([], ⟨⟨[none, some ⟨0,
            vs.take k ++ List.replicate (cfg.BUFFER_SIZE - k) cfg.EMPTY_VALUE, k, 0⟩]⟩,
            1, 1, hp1⟩, Thread.registered me n) ∧
        hp1.pointer.length = cfg.MAX_THREADS := by
    intro k hk
    have hkl : (vs.take k).length = k := by rw [List.length_take]; omega
    obtain ⟨hp1, h1, h2⟩ := BLQueue.run_fill cfg (Thread.registered me n) f (vs.take k) []
      (cfg.BUFFER_SIZE - k) (BLQueue_new cfg)
      (by simp [BLQueue_new, Heap.malloc, Heap.empty, BLNode_new, hkl, Nat.add_sub_cancel' hk])
      rfl (by simp only [List.length_nil, hkl]; omega)
      (by simp [BLQueue_new, HazardPointer_initialize, Thread.registered,
        HazardPointer_register, hme])
    refine ⟨hp1, ?_, by rw [h2]; simp [BLQueue_new, HazardPointer_initialize]⟩
    rw [h1]
    simp [hkl, BLQueue_new, Heap.malloc, Heap.empty]
  have hfull : ∃ hp1, BLQueue_run cfg (f + 1) (Thread.registered me n) (BLQueue_new cfg)
          (vs.map Op.push)
        = some ([], ⟨⟨[none, some ⟨0, vs, cfg.BUFFER_SIZE, 0⟩]⟩, 1, 1, hp1⟩,
            Thread.registered me n) ∧ hp1.pointer.length = cfg.MAX_THREADS := by
    obtain ⟨hp1, h1, h2⟩ := hfill cfg.BUFFER_SIZE (le_refl _)
    refine ⟨hp1, ?_, h2⟩
    rw [← hlen, List.take_length] at h1
    rw [h1]
    simp [hlen]
  refine ⟨fun k hk => ?_, ?_, ?_⟩
  · obtain ⟨hp1, h1, _⟩ := hfill k hk
    exact ⟨hp1, h1⟩
  · obtain ⟨hp1, h1, _⟩ := hfull
    exact ⟨hp1, h1⟩
  · obtain ⟨hp1, h1, h2⟩ := hfull
    refine ⟨⟨(hp1.pointer.set (Thread.registered me n)._thread_id 1).set
      (Thread.registered me n)._thread_id 0, hp1.retired⟩, ?_⟩
    rw [List.map_append, BLQueue_run_append, h1]
    simp only [List.map_cons, List.map_nil, BLQueue_run]
    rw [BLQueue.push_roll cfg hB (Thread.registered me n) v f _ vs 0 rfl rfl
      (by rw [h2]; simpa [Thread.registered, HazardPointer_register] using hme)]
    rfl

/-- C11, witness: `BUFFER_SIZE = 4`, thread 0 of 1; the pushes of 1,2,3,4 fill the
initial node and the push of 5 allocates the second node. -/
theorem C11_BLQueue_rollover_witness :
    (1 ≤ cfgEx.BUFFER_SIZE ∧ 0 < cfgEx.MAX_THREADS ∧
      [1, 2, 3, 4].length = cfgEx.BUFFER_SIZE) ∧
    ∃ hp2, BLQueue_run cfgEx (0 + 1) (Thread.registered 0 1) (BLQueue_new cfgEx)
          (([1, 2, 3, 4] ++ [5]).map Op.push)
        = some ([], ⟨⟨[none, some ⟨2, [1, 2, 3, 4], cfgEx.BUFFER_SIZE + 1, 0⟩,
            some ⟨0, (List.replicate cfgEx.BUFFER_SIZE cfgEx.EMPTY_VALUE).set 0 5, 1, 0⟩]⟩,
            1, 2, hp2⟩, Thread.registered 0 1) :=
  ⟨by decide, (C11_BLQueue_rollover cfgEx (by decide) 0 1 (by decide) [1, 2, 3, 4]
    (by decide) 5 0).2.2⟩

/-- Behaviour of `RingsQueue_run` on a concatenation of call sequences. -/
theorem RingsQueue_run_append (cfg : Config) :
    ∀ (ops1 ops2 : List Op) (q : RingsQueue),
      RingsQueue_run cfg q (ops1 ++ ops2)
        = match RingsQueue_run cfg q ops1 with
          | none => none
          | some (o1, q1) =>
            match RingsQueue_run cfg q1 ops2 with
            | none => none
            | some (o2, q2) => some (o1 ++ o2, q2) := by
  intro ops1
  induction ops1 with
  | nil =>
    intro ops2 q
    simp only [List.nil_append, RingsQueue_run]
    cases RingsQueue_run cfg q ops2 with
    | none => rfl
    | some r => rfl
  | cons op ops1 ih =>
    intro ops2 q
    cases op with
    | push v =>
      simp only [List.cons_append, RingsQueue_run]
      cases RingsQueue_push cfg q v with
      | none => rfl
      | some q1 => exact ih ops2 q1
    | pop =>
      simp only [List.cons_append, RingsQueue_run]
      cases RingsQueue_pop cfg q with
      | none => rfl
      | some r =>
        obtain ⟨v, q1⟩ := r
        simp only [List.append_eq, ih ops2 q1]
        cases RingsQueue_run cfg q1 ops1 with
        | none => rfl
        | some r1 =>
          obtain ⟨o1, q2⟩ := r1
          simp only
          cases RingsQueue_run cfg q2 ops2 with
          | none => rfl
          | some r2 => rfl

/-- A push into the only ring of a queue that was never popped from and is not
full writes slot `push_idx` and allocates nothing. -/
theorem RingsQueue.rq_push_fill (cfg : Config) (item : Nat) (q : RingsQueue)
    (pre : List Nat) (r : Nat)
    (hcells : q.heap.cells = [none, some ⟨0, pre.map some ++ List.replicate (r + 1) none,
      pre.length, 0⟩])
    (htail : q.tail = 1) (hR : cfg.RING_SIZE = pre.length + r + 1) :
    RingsQueue_push cfg q item
      = some ⟨⟨[none, some ⟨0, (pre ++ [item]).map some ++ List.replicate r none,
          pre.length + 1, 0⟩]⟩, q.head, 1⟩ := by
  obtain ⟨⟨cells⟩, head, tail⟩ := q
  simp only at hcells htail
  subst hcells htail
  have hlt : pre.length < cfg.RING_SIZE := by omega
  have hlt2 : (pre.length : Int) - ((0 : Nat) : Int) < (cfg.RING_SIZE : Int) := by omega
  have hset := set_length_append (pre.map some) none (some item) (List.replicate r none)
  rw [List.length_map] at hset
  simp only [RingsQueue_push, Heap.deref, Heap.store, setAt?, hlt2, if_true,
    Nat.mod_eq_of_lt hlt, List.replicate_succ, hset]
  simp [hlt, Nat.mod_eq_of_lt hlt, hset]

/-- A push into the only ring of a queue that was never popped from and is full
allocates the successor ring. -/
theorem RingsQueue.rq_push_roll (cfg : Config) (hR : 1 ≤ cfg.RING_SIZE) (item : Nat)
    (q : RingsQueue) (buf : List (Option Nat))
    (hcells : q.heap.cells = [none, some ⟨0, buf, cfg.RING_SIZE, 0⟩])
    (htail : q.tail = 1) :
    RingsQueue_push cfg q item
      = some ⟨⟨[none, some ⟨2, buf, cfg.RING_SIZE, 0⟩,
          some ⟨0, (List.replicate cfg.RING_SIZE none).set 0 (some item), 1, 0⟩]⟩,
          q.head, 2⟩ := by
  obtain ⟨⟨cells⟩, head, tail⟩ := q
  simp only at hcells htail
  subst hcells htail
  have hlt : 0 < cfg.RING_SIZE := by omega
  have hlt2 : ¬ (cfg.RING_SIZE : Int) - ((0 : Nat) : Int) < (cfg.RING_SIZE : Int) := by omega
  simp only [RingsQueue_push, Heap.deref, Heap.store, Heap.malloc, setAt?, hlt2, if_false,
    RingsQueueNode_new, List.length_replicate, hlt, if_true]
  simp

/-- Pushing the values `ws` one after the other into the only ring of a queue that
has room for them fills the slots after `pre` in order and allocates nothing. -/
theorem RingsQueue.rq_run_fill (cfg : Config) :
    ∀ (ws pre : List Nat) (r : Nat) (q : RingsQueue),
      q.heap.cells = [none, some ⟨0, pre.map some ++ List.replicate (ws.length + r) none,
        pre.length, 0⟩] →
      q.tail = 1 → cfg.RING_SIZE = pre.length + ws.length + r →
      RingsQueue_run cfg q (ws.map Op.push)
        = some ([], ⟨⟨[none, some ⟨0, (pre ++ ws).map some ++ List.replicate r none,
            pre.length + ws.length, 0⟩]⟩, q.head, 1⟩) := by
  intro ws
  induction ws with
  | nil =>
    intro pre r q hcells htail hR
    obtain ⟨⟨cells⟩, head, tail⟩ := q
    simp only at hcells htail
    subst hcells htail
    simp [RingsQueue_run]
  | cons w ws ih =>
    intro pre r q hcells htail hR
    have h1 := RingsQueue.rq_push_fill cfg w q pre (ws.length + r)
      (by rw [hcells]; simp only [List.length_cons]; rw [show ws.length + 1 + r = ws.length + r + 1 by omega])
      htail (by simp only [List.length_cons] at hR; omega)
    have h2 := ih (pre ++ [w]) r
      ⟨⟨[none, some ⟨0, (pre ++ [w]).map some ++ List.replicate (ws.length + r) none,
          pre.length + 1, 0⟩]⟩, q.head, 1⟩
      (by simp) rfl
      (by simp only [List.length_cons] at hR; simp; omega)
    simp only [List.map_cons, RingsQueue_run, h1]
    rw [h2]
    simp
    omega

/-- C12. On a fresh `RingsQueue` (no pop issued, `RING_SIZE ≥ 1`) the first
`RING_SIZE` pushes allocate no node (the heap keeps its two cells) and store value
number `i` in slot `i` of the first ring: after `k ≤ RING_SIZE` pushes the buffer is
the first `k` values followed by unwritten slots, after `RING_SIZE` pushes it is
exactly the pushed values. The next push allocates exactly one ring (third cell),
stores its value in slot 0 of it with `push_idx = 1`, links it as `next` of the
first ring and makes it the tail. -/
theorem C12_RingsQueue_rollover (cfg : Config) (hR : 1 ≤ cfg.RING_SIZE) (vs : List Nat)
    (hlen : vs.length = cfg.RING_SIZE) (v : Nat) :
    (∀ k, k ≤ cfg.RING_SIZE →
      RingsQueue_run cfg (RingsQueue_new cfg) ((vs.take k).map Op.push)
        = some ([], ⟨⟨[none, some ⟨0,
            (vs.take k).map some ++ List.replicate (cfg.RING_SIZE - k) none, k, 0⟩]⟩,
            1, 1⟩)) ∧
    RingsQueue_run cfg (RingsQueue_new cfg) (vs.map Op.push)
        = some ([], ⟨⟨[none, some ⟨0, vs.map some, cfg.RING_SIZE, 0⟩]⟩, 1, 1⟩) ∧
    RingsQueue_run cfg (RingsQueue_new cfg) ((vs ++ [v]).map Op.push)
        = some ([], ⟨⟨[none, some ⟨2, vs.map some, cfg.RING_SIZE, 0⟩,
            some ⟨0, (List.replicate cfg.RING_SIZE none).set 0 (some v), 1, 0⟩]⟩, 1, 2⟩) := by
  have hfill : ∀ k, k ≤ cfg.RING_SIZE →
      RingsQueue_run cfg (RingsQueue_new cfg) ((vs.take k).map Op.push)
        = some ([], ⟨⟨[none, some ⟨0,
            (vs.take k).map some ++ List.replicate (cfg.RING_SIZE - k) none, k, 0⟩]⟩,
            1, 1⟩) := by
    intro k hk
    have hkl : (vs.take k).length = k := by rw [List.length_take]; omega
    have h1 := RingsQueue.rq_run_fill cfg (vs.take k) [] (cfg.RING_SIZE - k) (RingsQueue_new cfg)
      (by simp [RingsQueue_new, Heap.malloc, Heap.empty, RingsQueueNode_new, hkl,
        Nat.add_sub_cancel' hk])
      rfl (by simp only [List.length_nil, hkl]; omega)
    rw [h1]
    simp [hkl, RingsQueue_new, Heap.malloc, Heap.empty]
  have hfull : RingsQueue_run cfg (RingsQueue_new cfg) (vs.map Op.push)
        = some ([], ⟨⟨[none, some ⟨0, vs.map some, cfg.RING_SIZE, 0⟩]⟩, 1, 1⟩) := by
    have h1 := hfill cfg.RING_SIZE (le_refl _)
    rw [← hlen, List.take_length] at h1
    rw [h1]
    simp [hlen]
  refine ⟨hfill, hfull, ?_⟩
  rw [List.map_append, RingsQueue_run_append, hfull]
  simp only [List.map_cons, List.map_nil, RingsQueue_run]
  rw [RingsQueue.rq_push_roll cfg hR v _ (vs.map some) rfl rfl]
  rfl

/-- C12, witness: `RING_SIZE = 4`; the pushes of 1,2,3,4 fill the first ring and the
push of 5 allocates the second ring. -/
theorem C12_RingsQueue_rollover_witness :
    (1 ≤ cfgEx.RING_SIZE ∧ [1, 2, 3, 4].length = cfgEx.RING_SIZE) ∧
    RingsQueue_run cfgEx (RingsQueue_new cfgEx) (([1, 2, 3, 4] ++ [5]).map Op.push)
        = some ([], ⟨⟨[none, some ⟨2, [1, 2, 3, 4].map some, cfgEx.RING_SIZE, 0⟩,
            some ⟨0, (List.replicate cfgEx.RING_SIZE none).set 0 (some 5), 1, 0⟩]⟩, 1, 2⟩) :=
  ⟨by decide, (C12_RingsQueue_rollover cfgEx (by decide) [1, 2, 3, 4] (by decide) 5).2.2⟩

/-- Every element of the reference FIFO content was there at the start or was pushed. -/
theorem pendingAfter_mem : ∀ (ops : List Op) (q : List Nat) (x : Nat),
    x ∈ pendingAfter q ops → x ∈ q ∨ x ∈ pushed ops := by
  intro ops
  induction ops with
  | nil => intro q x h; exact Or.inl h
  | cons op ops ih =>
    intro q x h
    cases op with
    | push v =>
      simp only [pendingAfter] at h
      rcases ih _ x h with h1 | h1
      · rcases List.mem_append.1 h1 with h2 | h2
        · exact Or.inl h2
        · right
          simp only [pushed]
          rw [List.mem_singleton.1 h2]
          exact List.mem_cons_self _ _
      · right
        simp only [pushed]
        exact List.mem_cons_of_mem _ h1
    | pop =>
      simp only [pendingAfter] at h
      rcases ih _ x h with h1 | h1
      · exact Or.inl (List.mem_of_mem_tail h1)
      · exact Or.inr h1

/-- The head of a list, with a default. -/
theorem headD_mem (q : List Nat) (d : Nat) : q.headD d = d ∨ q.headD d ∈ q := by
  cases q with
  | nil => exact Or.inl rfl
  | cons a q => exact Or.inr (List.mem_cons_self _ _)

/-- Every result of a pop of the reference FIFO is `EMPTY`, or was in the queue
at the start, or was pushed. -/
theorem fifo_mem (EMPTY : Nat) : ∀ (ops : List Op) (q : List Nat) (x : Nat),
    x ∈ fifo EMPTY q ops → x = EMPTY ∨ x ∈ q ∨ x ∈ pushed ops := by
  intro ops
  induction ops with
  | nil => intro q x h; simp [fifo] at h
  | cons op ops ih =>
    intro q x h
    cases op with
    | push v =>
      simp only [fifo] at h
      rcases ih _ x h with h1 | h1 | h1
      · exact Or.inl h1
      · rcases List.mem_append.1 h1 with h2 | h2
        · exact Or.inr (Or.inl h2)
        · right; right
          simp only [pushed]
          rw [List.mem_singleton.1 h2]
          exact List.mem_cons_self _ _
      · right; right
        simp only [pushed]
        exact List.mem_cons_of_mem _ h1
    | pop =>
      simp only [fifo, List.mem_cons] at h
      rcases h with h | h
      · rcases headD_mem q EMPTY with h1 | h1
        · exact Or.inl (h.trans h1)
        · exact Or.inr (Or.inl (h ▸ h1))
      · rcases ih _ x h with h1 | h1 | h1
        · exact Or.inl h1
        · exact Or.inr (Or.inl (List.mem_of_mem_tail h1))
        · exact Or.inr (Or.inr h1)

/-- C13. `TAKEN_VALUE` never surfaces to callers. Assuming `BUFFER_SIZE ≥ 1`,
`EMPTY_VALUE ≠ TAKEN_VALUE` and `RETIRED_THRESHOLD ≥ 1`, every sequence of push
(values distinct from `EMPTY_VALUE` and `TAKEN_VALUE`) and pop calls of one
registered thread on a fresh `BLQueue` runs to completion; every pop of the
sequence, and a pop issued in the state reached, returns a value that is not
`TAKEN_VALUE`: it is `EMPTY_VALUE` or one of the pushed values. -/
theorem C13_TAKEN_never_returned (cfg : Config) (hB : 1 ≤ cfg.BUFFER_SIZE)
    (hET : cfg.EMPTY_VALUE ≠ cfg.TAKEN_VALUE) (hT : 1 ≤ cfg.RETIRED_THRESHOLD)
    (me n : Nat) (hme : me < cfg.MAX_THREADS) (hn : n ≤ cfg.MAX_THREADS) (ops : List Op)
    (hvE : cfg.EMPTY_VALUE ∉ pushed ops) (hvT : cfg.TAKEN_VALUE ∉ pushed ops)
    (fuel : Nat) (hfuel : cfg.BUFFER_SIZE + 1 ≤ fuel) :
    ∃ outs q th1, BLQueue_run cfg fuel (Thread.registered me n) (BLQueue_new cfg) ops
        = some (outs, q, th1) ∧
      (∀ x ∈ outs, x ≠ cfg.TAKEN_VALUE ∧ (x = cfg.EMPTY_VALUE ∨ x ∈ pushed ops)) ∧
      ∃ v q1 th2, BLQueue_pop cfg fuel th1 q = some (v, q1, th2) ∧
        v ≠ cfg.TAKEN_VALUE ∧ (v = cfg.EMPTY_VALUE ∨ v ∈ pushed ops) := by
  obtain ⟨q, th1, hr, hinv⟩ := BLQueue.bl_run_spec cfg hB hET hT fuel hfuel ops _ _ [] hvE hvT
    (BLQueue.bl_inv_new cfg me n hme hn)
  have key : ∀ x, (x = cfg.EMPTY_VALUE ∨ x ∈ pushed ops) →
      x ≠ cfg.TAKEN_VALUE ∧ (x = cfg.EMPTY_VALUE ∨ x ∈ pushed ops) := by
    intro x hx
    refine ⟨?_, hx⟩
    rcases hx with hx | hx
    · rw [hx]; exact hET
    · intro h
      exact hvT (h ▸ hx)
  refine ⟨_, q, th1, hr, ?_, ?_⟩
  · intro x hx
    apply key
    rcases fifo_mem _ ops [] x hx with h | h | h
    · exact Or.inl h
    · simp at h
    · exact Or.inr h
  · obtain ⟨q1, th2, hp, _⟩ :=
      BLQueue.pop_spec cfg hB hT th1 q _ fuel hfuel hinv
    refine ⟨_, q1, th2, hp, ?_⟩
    apply key
    rcases headD_mem (pendingAfter [] ops) cfg.EMPTY_VALUE with h | h
    · exact Or.inl h
    · rcases pendingAfter_mem ops [] _ h with h1 | h1
      · simp at h1
      · exact Or.inr h1

/-- C13, witness: `BUFFER_SIZE = 4`; a run with pops on the empty queue, which stamp
`TAKEN_VALUE` into slots, between the pushes. -/
theorem C13_TAKEN_never_returned_witness :
    (1 ≤ cfgEx.BUFFER_SIZE ∧ cfgEx.EMPTY_VALUE ≠ cfgEx.TAKEN_VALUE ∧
      1 ≤ cfgEx.RETIRED_THRESHOLD ∧ 0 < cfgEx.MAX_THREADS ∧ 1 ≤ cfgEx.MAX_THREADS ∧
      cfgEx.EMPTY_VALUE ∉ pushed [.pop, .push 7, .push 8, .pop, .pop, .pop, .push 9] ∧
      cfgEx.TAKEN_VALUE ∉ pushed [.pop, .push 7, .push 8, .pop, .pop, .pop, .push 9] ∧
      cfgEx.BUFFER_SIZE + 1 ≤ 5) ∧
    ∃ outs q th1, BLQueue_run cfgEx 5 (Thread.registered 0 1) (BLQueue_new cfgEx)
        [.pop, .push 7, .push 8, .pop, .pop, .pop, .push 9] = some (outs, q, th1) ∧
      (∀ x ∈ outs, x ≠ cfgEx.TAKEN_VALUE ∧ (x = cfgEx.EMPTY_VALUE ∨
        x ∈ pushed [.pop, .push 7, .push 8, .pop, .pop, .pop, .push 9])) ∧
      ∃ v q1 th2, BLQueue_pop cfgEx 5 th1 q = some (v, q1, th2) ∧
        v ≠ cfgEx.TAKEN_VALUE ∧ (v = cfgEx.EMPTY_VALUE ∨
          v ∈ pushed [.pop, .push 7, .push 8, .pop, .pop, .pop, .push 9]) :=
  ⟨⟨by decide, by decide, by decide, by decide, by decide, by decide, by decide, by decide⟩,
    C13_TAKEN_never_returned cfgEx (by decide) (by decide) (by decide) 0 1 (by decide)
      (by decide) _ (by decide) (by decide) 5 (by decide)⟩

/-- C14 (amended). Frame property of the hazard-pointer operations of the thread
registered as `me = th._thread_id` (it has a hazard slot). `HazardPointer_protect`
returns the value `atom` held by the protected cell, leaves `pointer[me] = atom`,
changes no other hazard slot and no retired entry; `HazardPointer_clear` leaves
`pointer[me]` null, changes no other hazard slot and no retired entry. When the
cursor of `me` is inside its row at the call (`end ≤ RETIRED_THRESHOLD`, the row
having `RETIRED_THRESHOLD + 1` entries and the scan inspecting existing slots),
`HazardPointer_retire` returns, changes no hazard slot and no row `retired[j]` with
`j ≠ me`. -/
theorem C14_hazard_operations_frame (cfg : Config) (th : Thread) (hp : HazardPointer)
    (atom ptr : Nat) (hme : th._thread_id < hp.pointer.length) :
    (∃ hp1, HazardPointer_protect th hp atom = some (hp1, atom) ∧
      hp1.retired = hp.retired ∧ hp1.pointer[th._thread_id]? = some atom ∧
      ∀ j, j ≠ th._thread_id → hp1.pointer[j]? = hp.pointer[j]?) ∧
    (∃ hp1, HazardPointer_clear th hp = some hp1 ∧
      hp1.retired = hp.retired ∧ hp1.pointer[th._thread_id]? = some 0 ∧
      ∀ j, j ≠ th._thread_id → hp1.pointer[j]? = hp.pointer[j]?) ∧
    (∀ row : List Nat, hp.retired[th._thread_id]? = some row →
      row.length = cfg.RETIRED_THRESHOLD + 1 → th._num_threads ≤ hp.pointer.length →
      th.end_ ≤ cfg.RETIRED_THRESHOLD →
      ∃ hp1 th1 freed, HazardPointer_retire cfg th hp ptr = some (hp1, th1, freed) ∧
        hp1.pointer = hp.pointer ∧
        ∀ j, j ≠ th._thread_id → hp1.retired[j]? = hp.retired[j]?) := by
  refine ⟨⟨⟨hp.pointer.set th._thread_id atom, hp.retired⟩, ?_, rfl, ?_, ?_⟩,
    ⟨⟨hp.pointer.set th._thread_id 0, hp.retired⟩, ?_, rfl, ?_, ?_⟩, ?_⟩
  · simp [HazardPointer_protect, setAt?, hme]
  · exact List.getElem?_set_self hme
  · intro j hj
    exact List.getElem?_set_ne (Ne.symm hj)
  · simp [HazardPointer_clear, setAt?, hme]
  · exact List.getElem?_set_self hme
  · intro j hj
    exact List.getElem?_set_ne (Ne.symm hj)
  · intro row hrow hlen hn hend
    by_cases he : th.end_ = cfg.RETIRED_THRESHOLD
    · refine ⟨_, _, _, retire_scan cfg th hp ptr row hrow hlen he hn, rfl, ?_⟩
      intro j hj
      exact List.getElem?_set_ne (Ne.symm hj)
    · refine ⟨_, _, _, retire_no_scan cfg th hp ptr row hrow (by omega) he, rfl, ?_⟩
      intro j hj
      exact List.getElem?_set_ne (Ne.symm hj)

/-- C14, witness: thread 1 of 2 on a registry in which thread 0 protects node 5 and
has retired node 6; thread 1 has one retired entry, so its `retire` runs the scan. -/
theorem C14_hazard_operations_frame_witness :
    ((Thread.mk 1 2 1)._thread_id < (HazardPointer.mk [5, 0, 0, 0]
        [[6, 0], [8, 0], [0, 0], [0, 0]]).pointer.length ∧
      (HazardPointer.mk [5, 0, 0, 0] [[6, 0], [8, 0], [0, 0], [0, 0]]).retired[
        (Thread.mk 1 2 1)._thread_id]? = some [8, 0] ∧
      [8, 0].length = cfgEx.RETIRED_THRESHOLD + 1 ∧
      (Thread.mk 1 2 1)._num_threads ≤ (HazardPointer.mk [5, 0, 0, 0]
        [[6, 0], [8, 0], [0, 0], [0, 0]]).pointer.length ∧
      (Thread.mk 1 2 1).end_ ≤ cfgEx.RETIRED_THRESHOLD) ∧
    (∃ hp1, HazardPointer_protect (Thread.mk 1 2 1)
        (HazardPointer.mk [5, 0, 0, 0] [[6, 0], [8, 0], [0, 0], [0, 0]]) 9 = some (hp1, 9) ∧
      hp1.retired = [[6, 0], [8, 0], [0, 0], [0, 0]] ∧
      hp1.pointer[(Thread.mk 1 2 1)._thread_id]? = some 9 ∧
      ∀ j, j ≠ (Thread.mk 1 2 1)._thread_id → hp1.pointer[j]?
        = (HazardPointer.mk [5, 0, 0, 0] [[6, 0], [8, 0], [0, 0], [0, 0]]).pointer[j]?) ∧
    ∃ hp1 th1 freed, HazardPointer_retire cfgEx (Thread.mk 1 2 1)
        (HazardPointer.mk [5, 0, 0, 0] [[6, 0], [8, 0], [0, 0], [0, 0]]) 5
        = some (hp1, th1, freed) ∧
      hp1.pointer = [5, 0, 0, 0] ∧
      ∀ j, j ≠ (Thread.mk 1 2 1)._thread_id → hp1.retired[j]?
        = (HazardPointer.mk [5, 0, 0, 0] [[6, 0], [8, 0], [0, 0], [0, 0]]).retired[j]? :=
  ⟨⟨by decide, by decide, by decide, by decide, by decide⟩,
    (C14_hazard_operations_frame cfgEx (Thread.mk 1 2 1)
      (HazardPointer.mk [5, 0, 0, 0] [[6, 0], [8, 0], [0, 0], [0, 0]]) 9 5 (by decide)).1,
    (C14_hazard_operations_frame cfgEx (Thread.mk 1 2 1)
      (HazardPointer.mk [5, 0, 0, 0] [[6, 0], [8, 0], [0, 0], [0, 0]]) 9 5 (by decide)).2.2
      [8, 0] (by decide) (by decide) (by decide) (by decide)⟩

/-- C14 as stated fails. With `MAX_THREADS = 4`, `RETIRED_THRESHOLD = 1` and two
registered threads, thread `0` protects `5`, thread `1` protects `6`, and thread `0`
retires `5` and `6`: the scan of the second call keeps both, so the cursor of
thread `0` is left at `RETIRED_THRESHOLD + 1`, past the last entry of its row. A
further `HazardPointer_retire(7)` by thread `0` then stores at
`retired[0][RETIRED_THRESHOLD + 1]`, a cell that is not in row `0` (in the C array
the cell behind row `0` is `retired[1][0]`): the call has no result in which only
row `0` has changed. -/
theorem C14_counterexample :
    Registry.run cfgEx (Registry.init cfgEx 2)
        [(0, .protect 5), (1, .protect 6), (0, .retire 5), (0, .retire 6)]
      = some ⟨⟨[5, 6, 0, 0], [[5, 6], [0, 0], [0, 0], [0, 0]]⟩, 2, [2, 0, 0, 0], []⟩ ∧
    (2 : Nat) = cfgEx.RETIRED_THRESHOLD + 1 ∧
    ([5, 6] : List Nat).length = cfgEx.RETIRED_THRESHOLD + 1 ∧
    HazardPointer_retire cfgEx ⟨0, 2, 2⟩ ⟨[5, 6, 0, 0], [[5, 6], [0, 0], [0, 0], [0, 0]]⟩ 7
      = none ∧
    Registry.call cfgEx ⟨⟨[5, 6, 0, 0], [[5, 6], [0, 0], [0, 0], [0, 0]]⟩, 2, [2, 0, 0, 0], []⟩
      0 (.retire 7) = none ∧
    ¬ ∃ hp1 th1 freed,
      HazardPointer_retire cfgEx ⟨0, 2, 2⟩ ⟨[5, 6, 0, 0], [[5, 6], [0, 0], [0, 0], [0, 0]]⟩ 7
        = some (hp1, th1, freed) ∧
      hp1.pointer = [5, 6, 0, 0] ∧
      ∀ j, j ≠ 0 → hp1.retired[j]?
        = (HazardPointer.mk [5, 6, 0, 0] [[5, 6], [0, 0], [0, 0], [0, 0]]).retired[j]? := by
  have hnone : HazardPointer_retire cfgEx ⟨0, 2, 2⟩
      ⟨[5, 6, 0, 0], [[5, 6], [0, 0], [0, 0], [0, 0]]⟩ 7 = none := by decide
  refine ⟨by decide, by decide, by decide, hnone, by decide, ?_⟩
  rintro ⟨hp1, th1, freed, h, _⟩
  rw [hnone] at h
  cases h

/-- C17 (amended). With `RING_SIZE = 4`, after push 1,2,3,4 and two pops on a
fresh `RingsQueue`, push 5 and push 6 are stored in the first ring at positions 0
and 1 (no node is allocated); the ring then holds the four values 3,4,5,6, and the
following push 7 allocates a new ring, is stored at position 0 of it with
`push_idx = 1`, and the new ring is linked behind the first one and becomes the
tail. -/
theorem C17_wraparound_slot_placement :
    RingsQueue_run cfgEx (RingsQueue_new cfgEx)
        [.push 1, .push 2, .push 3, .push 4, .pop, .pop]
      = some ([1, 2], ⟨⟨[none, some ⟨0, [some 1, some 2, some 3, some 4], 4, 2⟩]⟩, 1, 1⟩) ∧
    RingsQueue_run cfgEx (RingsQueue_new cfgEx)
        [.push 1, .push 2, .push 3, .push 4, .pop, .pop, .push 5]
      = some ([1, 2], ⟨⟨[none, some ⟨0, [some 5, some 2, some 3, some 4], 5, 2⟩]⟩, 1, 1⟩) ∧
    RingsQueue_run cfgEx (RingsQueue_new cfgEx)
        [.push 1, .push 2, .push 3, .push 4, .pop, .pop, .push 5, .push 6]
      = some ([1, 2], ⟨⟨[none, some ⟨0, [some 5, some 6, some 3, some 4], 6, 2⟩]⟩, 1, 1⟩) ∧
    RingsQueue_run cfgEx (RingsQueue_new cfgEx)
        [.push 1, .push 2, .push 3, .push 4, .pop, .pop, .push 5, .push 6, .push 7]
      = some ([1, 2], ⟨⟨[none, some ⟨2, [some 5, some 6, some 3, some 4], 6, 2⟩,
          some ⟨0, [some 7, none, none, none], 1, 0⟩]⟩, 1, 2⟩) := by
  decide

/-- C17 as stated fails: in the state reached by
push 1,2,3,4, two pops and push 5,6,7 (`RING_SIZE = 4`), position 2 of the first
ring does not hold 7 (it still holds the unpopped value 3), and the queue has a
second ring, the tail, whose position 0 holds 7. -/
theorem C17_counterexample :
    ∃ outs q first second,
      RingsQueue_run cfgEx (RingsQueue_new cfgEx)
        [.push 1, .push 2, .push 3, .push 4, .pop, .pop, .push 5, .push 6, .push 7]
        = some (outs, q) ∧
      q.heap.deref q.head = some first ∧ first.buffer[2]? = some (some 3) ∧
      first.buffer[2]? ≠ some (some 7) ∧
      q.tail ≠ q.head ∧ first.next = q.tail ∧
      q.heap.deref q.tail = some second ∧ second.buffer[0]? = some (some 7) :=
  ⟨[1, 2], ⟨⟨[none, some ⟨2, [some 5, some 6, some 3, some 4], 6, 2⟩,
      some ⟨0, [some 7, none, none, none], 1, 0⟩]⟩, 1, 2⟩,
    ⟨2, [some 5, some 6, some 3, some 4], 6, 2⟩, ⟨0, [some 7, none, none, none], 1, 0⟩,
    by decide, by decide, by decide, by decide, by decide, by decide, by decide, by decide⟩

/-- C18, evaluation at the failing input: on a fresh queue used by thread 0
of 1, `BLQueue_is_empty` returns with `pointer[0]` still holding the address of
the head node (it never calls `HazardPointer_clear`), whereas `LLQueue_is_empty`
returns with `pointer[0]` null. -/
theorem C18_BLQueue_is_empty_keeps_hazard :
    (BLQueue_is_empty (Thread.registered 0 1) (BLQueue_new cfgEx)).map
        (fun r => (r.1, r.2.hp.pointer[0]?, r.2.head)) = some (true, some 1, 1) ∧
    (LLQueue_is_empty (Thread.registered 0 1) (LLQueue_new cfgEx)).map
        (fun r => (r.1, r.2.hp.pointer[0]?, r.2.head)) = some (true, some 0, 1) := by
  decide

/-- Behaviour of `BLQueue_is_empty` in every state: when it returns, the hazard slot of
the calling thread holds the head pointer it protected. -/
theorem BLQueue_is_empty_hazard (th : Thread) (q : BLQueue) (b : Bool) (q1 : BLQueue)
    (h : BLQueue_is_empty th q = some (b, q1)) :
    q1.hp.pointer[th._thread_id]? = some q.head := by
  by_cases hlt : th._thread_id < q.hp.pointer.length
  · simp only [BLQueue_is_empty, HazardPointer_protect, setAt?, hlt, if_true] at h
    cases hd : q.heap.deref q.head with
    | none => rw [hd] at h; exact absurd h (by simp)
    | some x =>
      rw [hd] at h
      simp only [Option.some.injEq, Prod.mk.injEq] at h
      rw [← h.2]
      exact List.getElem?_set_self hlt
  · simp [BLQueue_is_empty, HazardPointer_protect, setAt?, hlt] at h

/-- The entries that survive a scan are at most as many as the inspected hazard
slots, when the entries are pairwise distinct. -/
theorem filter_hazarded_length_le (pointer : List Nat) (n : Nat) (l : List Nat)
    (hl : l.Nodup) : (l.filter (hazarded pointer n)).length ≤ n := by
  have hsub : l.filter (hazarded pointer n) ⊆ pointer.take n := by
    intro p hp
    have := (List.mem_filter.1 hp).2
    simpa [hazarded] using this
  have h1 := (List.subperm_of_subset (hl.filter _) hsub).length_le
  have h2 : (pointer.take n).length ≤ n := by
    rw [List.length_take]; exact Nat.min_le_left _ _
  omega

/-- One `HazardPointer_retire` call from a state in which the row is in order: the call
returns, the row is in order again, and a scan releases at least one entry. -/
theorem RetiredRow.step (cfg : Config) (me n : Nat) (hnT : n ≤ cfg.RETIRED_THRESHOLD)
    (th : Thread) (hp : HazardPointer) (S hz : List Nat) (ptr : Nat)
    (h : RetiredRow cfg me n th hp S) (hn : n ≤ hz.length) (hp0 : ptr ≠ 0)
    (hnew : ptr ∉ S) :
    ∃ hp1 th1 freed S1,
      HazardPointer_retire cfg th { hp with pointer := hz } ptr = some (hp1, th1, freed) ∧
      RetiredRow cfg me n th1 hp1 S1 ∧ (∀ p ∈ S1, p = ptr ∨ p ∈ S) ∧
      (th.end_ = cfg.RETIRED_THRESHOLD → freed ≠ []) := by
  obtain ⟨hid, hnum, hend, hle, hrow, hnd, hnz⟩ := h
  obtain ⟨id, num, e⟩ := th
  simp only at hid hnum hend
  subst hid hnum hend
  have hnd1 : (S ++ [ptr]).Nodup := by
    rw [List.nodup_append]
    refine ⟨hnd, List.nodup_singleton _, ?_⟩
    intro a ha hb
    rw [List.mem_singleton.1 hb] at ha
    exact hnew ha
  have hnz1 : ∀ p ∈ S ++ [ptr], p ≠ 0 := by
    intro p hp
    rcases List.mem_append.1 hp with h1 | h1
    · exact hnz p h1
    · rw [List.mem_singleton.1 h1]; exact hp0
  by_cases he : S.length = cfg.RETIRED_THRESHOLD
  · -- the row is full after the write: scan
    have hrep : cfg.RETIRED_THRESHOLD + 1 - S.length = 0 + 1 := by omega
    have hset : (S ++ List.replicate (cfg.RETIRED_THRESHOLD + 1 - S.length) 0).set S.length ptr
        = S ++ [ptr] := by
      rw [hrep, List.replicate_succ, set_length_append]
      rfl
    have hr := retire_scan cfg ⟨id, num, S.length⟩ ⟨hz, hp.retired⟩ ptr _ hrow
      (by simp; omega) he hn
    simp only [hset] at hr
    have hlen := filter_hazarded_length hz num (S ++ [ptr])
    have hlel := filter_hazarded_length_le hz num (S ++ [ptr]) hnd1
    simp only [List.length_append, List.length_singleton] at hlen
    refine ⟨_, _, _, (S ++ [ptr]).filter (hazarded hz num), hr, ⟨rfl, rfl, rfl, by omega, ?_,
      hnd1.filter _, fun p hp => hnz1 p (List.mem_filter.1 hp).1⟩, ?_, ?_⟩
    · simp only
      rw [List.getElem?_set_self (by
        have := (List.getElem?_eq_some_iff.1 hrow).1
        exact this)]
      congr 3
      omega
    · intro p hp
      rcases List.mem_append.1 (List.mem_filter.1 hp).1 with h1 | h1
      · exact Or.inr h1
      · exact Or.inl (List.mem_singleton.1 h1)
    · intro _ hnil
      rw [hnil] at hlen
      simp only [List.length_nil] at hlen
      omega
  · -- room is left: no scan
    have hrep : cfg.RETIRED_THRESHOLD + 1 - S.length
        = (cfg.RETIRED_THRESHOLD + 1 - (S.length + 1)) + 1 := by omega
    have hset : (S ++ List.replicate (cfg.RETIRED_THRESHOLD + 1 - S.length) 0).set S.length ptr
        = (S ++ [ptr]) ++ List.replicate (cfg.RETIRED_THRESHOLD + 1 - (S.length + 1)) 0 := by
      rw [hrep, List.replicate_succ, set_length_append]
      simp
    have hr := retire_no_scan cfg ⟨id, num, S.length⟩ ⟨hz, hp.retired⟩ ptr _ hrow
      (by simp; omega) he
    simp only [hset] at hr
    refine ⟨_, _, _, S ++ [ptr], hr, ⟨rfl, rfl, by simp, by simp; omega, ?_, hnd1, hnz1⟩,
      ?_, ?_⟩
    · simp only
      rw [List.getElem?_set_self (by
        have := (List.getElem?_eq_some_iff.1 hrow).1
        exact this)]
      simp
    · intro p hp
      rcases List.mem_append.1 hp with h1 | h1
      · exact Or.inr h1
      · exact Or.inl (List.mem_singleton.1 h1)
    · intro h
      exact absurd h he

/-- A sequence of retire calls of pairwise distinct non-null pointers, not yet in
the row, from a state in which the row is in order: the sequence runs to
completion and the row is in order at the end. -/
theorem RetiredRow.seq (cfg : Config) (me n : Nat) (hnT : n ≤ cfg.RETIRED_THRESHOLD) :
    ∀ (calls : List (List Nat × Nat)) (th : Thread) (hp : HazardPointer) (S : List Nat),
      RetiredRow cfg me n th hp S → (∀ c ∈ calls, n ≤ c.1.length) →
      (∀ c ∈ calls, c.2 ≠ 0) → (calls.map Prod.snd).Nodup →
      (∀ c ∈ calls, c.2 ∉ S) →
      ∃ hp1 th1 S1, HazardPointer_retire_seq cfg th hp calls = some (hp1, th1) ∧
        RetiredRow cfg me n th1 hp1 S1 ∧ ∀ p ∈ S1, p ∈ S ∨ p ∈ calls.map Prod.snd := by
  intro calls
  induction calls with
  | nil =>
    intro th hp S h _ _ _ _
    exact ⟨hp, th, S, rfl, h, fun p hp => Or.inl hp⟩
  | cons c calls ih =>
    intro th hp S h hlen hnz hnd hnew
    obtain ⟨hz, ptr⟩ := c
    obtain ⟨hp1, th1, freed, S1, hr, h1, hsub, _⟩ := RetiredRow.step cfg me n hnT th hp S hz ptr h
      (hlen _ (List.mem_cons_self _ _)) (hnz _ (List.mem_cons_self _ _))
      (hnew _ (List.mem_cons_self _ _))
    simp only [List.map_cons, List.nodup_cons] at hnd
    obtain ⟨hp2, th2, S2, hr2, h2, hsub2⟩ := ih th1 hp1 S1 h1
      (fun c hc => hlen c (List.mem_cons_of_mem _ hc))
      (fun c hc => hnz c (List.mem_cons_of_mem _ hc)) hnd.2
      (by
        intro c hc hin
        rcases hsub _ hin with h3 | h3
        · exact hnd.1 (h3 ▸ List.mem_map_of_mem Prod.snd hc)
        · exact hnew c (List.mem_cons_of_mem _ hc) h3)
    refine ⟨hp2, th2, S2, ?_, h2, ?_⟩
    · simp only [HazardPointer_retire_seq, hr]
      exact hr2
    · intro p hp
      rcases hsub2 p hp with h3 | h3
      · rcases hsub p h3 with h4 | h4
        · exact Or.inr (by rw [h4]; exact List.mem_cons_self _ _)
        · exact Or.inl h4
      · exact Or.inr (List.mem_cons_of_mem _ h3)

/-- C19. The retired row never overflows. On a freshly initialised registry,
for a thread `me` registered with `num_threads ≤ RETIRED_THRESHOLD`, every sequence
of `HazardPointer_retire` calls with non-null, pairwise distinct pointers and arbitrary
contents of the hazard array at each call runs to completion (no write leaves the
row); on return the cursor satisfies `end ≤ RETIRED_THRESHOLD`, the positions below
`end` of the row are non-null, the positions from `end` to `RETIRED_THRESHOLD`
are null; and a further such call returns with the cursor inside the row again
and, when it runs the scan, releases at least one entry. -/
theorem C19_retired_row_never_overflows (cfg : Config) (me n : Nat)
    (hme : me < cfg.MAX_THREADS) (hnT : n ≤ cfg.RETIRED_THRESHOLD)
    (calls : List (List Nat × Nat)) (hz : List Nat) (ptr : Nat)
    (hlen : ∀ c ∈ calls ++ [(hz, ptr)], n ≤ c.1.length)
    (hnz : ∀ c ∈ calls ++ [(hz, ptr)], c.2 ≠ 0)
    (hnd : ((calls ++ [(hz, ptr)]).map Prod.snd).Nodup) :
    ∃ hp th row,
      HazardPointer_retire_seq cfg (Thread.registered me n) ( HazardPointer_initialize cfg) calls
        = some (hp, th) ∧
      th.end_ ≤ cfg.RETIRED_THRESHOLD ∧ hp.retired[me]? = some row ∧
      row.length = cfg.RETIRED_THRESHOLD + 1 ∧
      (∀ i, i < th.end_ → ∃ p, row[i]? = some p ∧ p ≠ 0) ∧
      (∀ i, th.end_ ≤ i → i ≤ cfg.RETIRED_THRESHOLD → row[i]? = some 0) ∧
      ∃ hp1 th1 freed,
        HazardPointer_retire cfg th { hp with pointer := hz } ptr = some (hp1, th1, freed) ∧
        th1.end_ ≤ cfg.RETIRED_THRESHOLD ∧
        (th.end_ = cfg.RETIRED_THRESHOLD → freed ≠ []) := by
  have h0 : RetiredRow cfg me n (Thread.registered me n) ( HazardPointer_initialize cfg) [] := by
    refine ⟨rfl, rfl, rfl, Nat.zero_le _, ?_, List.nodup_nil, fun p hp => absurd hp (by simp)⟩
    simp [ HazardPointer_initialize, hme]
  simp only [List.map_append, List.map_cons, List.map_nil] at hnd
  obtain ⟨hp, th, S, hr, hS, hsub⟩ := RetiredRow.seq cfg me n hnT calls _ _ [] h0
    (fun c hc => hlen c (List.mem_append_left _ hc))
    (fun c hc => hnz c (List.mem_append_left _ hc))
    (List.Nodup.of_append_left hnd) (fun c _ hin => absurd hin (by simp))
  have hfresh : ptr ∉ S := by
    intro hin
    rcases hsub _ hin with h1 | h1
    · simp at h1
    · exact (List.nodup_append.1 hnd).2.2 h1 (List.mem_singleton_self _)
  obtain ⟨hp1, th1, freed, S1, hr1, hS1, _, hrel⟩ := RetiredRow.step cfg me n hnT th hp S hz
    ptr hS (hlen (hz, ptr) (by simp)) (hnz (hz, ptr) (by simp)) hfresh
  obtain ⟨_, _, hend, hle, hrow, _, hnzS⟩ := hS
  refine ⟨hp, th, _, hr, by omega, hrow, by simp; omega, ?_, ?_, hp1, th1, freed, hr1,
    by rw [hS1.2.2.1]; exact hS1.2.2.2.1, hrel⟩
  · intro i hi
    rw [hend] at hi
    refine ⟨S[i], ?_, hnzS _ (List.getElem_mem _)⟩
    rw [List.getElem?_append_left hi]
    exact List.getElem?_eq_getElem hi
  · intro i hi hiT
    rw [hend] at hi
    rw [List.getElem?_append_right hi, List.getElem?_replicate, if_pos (by omega)]

/-- C19, witness: thread 0 of 1 with `RETIRED_THRESHOLD = 1` retires 5 and 6 while
slot 0 holds 5, then 7 while slot 0 holds 6; the second and the third call scan. -/
theorem C19_retired_row_never_overflows_witness :
    (0 < cfgEx.MAX_THREADS ∧ 1 ≤ cfgEx.RETIRED_THRESHOLD ∧
      (∀ c ∈ [([5, 0, 0, 0], 5), ([5, 0, 0, 0], 6)] ++ [([6, 0, 0, 0], 7)],
        1 ≤ c.1.length) ∧
      (∀ c ∈ [([5, 0, 0, 0], 5), ([5, 0, 0, 0], 6)] ++ [([6, 0, 0, 0], 7)],
        c.2 ≠ 0) ∧
      (([([5, 0, 0, 0], 5), ([5, 0, 0, 0], 6)]
        ++ [([6, 0, 0, 0], 7)]).map Prod.snd).Nodup) ∧
    ∃ hp th row,
      HazardPointer_retire_seq cfgEx (Thread.registered 0 1) ( HazardPointer_initialize cfgEx)
          [([5, 0, 0, 0], 5), ([5, 0, 0, 0], 6)]
        = some (hp, th) ∧
      th.end_ ≤ cfgEx.RETIRED_THRESHOLD ∧ hp.retired[0]? = some row ∧
      row.length = cfgEx.RETIRED_THRESHOLD + 1 ∧
      (∀ i, i < th.end_ → ∃ p, row[i]? = some p ∧ p ≠ 0) ∧
      (∀ i, th.end_ ≤ i → i ≤ cfgEx.RETIRED_THRESHOLD → row[i]? = some 0) ∧
      ∃ hp1 th1 freed,
        HazardPointer_retire cfgEx th { hp with pointer := [6, 0, 0, 0] } 7
          = some (hp1, th1, freed) ∧
        th1.end_ ≤ cfgEx.RETIRED_THRESHOLD ∧
        (th.end_ = cfgEx.RETIRED_THRESHOLD → freed ≠ []) :=
  ⟨⟨by decide, by decide, by decide, by decide, by decide⟩,
    C19_retired_row_never_overflows cfgEx 0 1 (by decide) (by decide)
      [([5, 0, 0, 0], 5), ([5, 0, 0, 0], 6)] [6, 0, 0, 0] 7
      (by decide) (by decide) (by decide)⟩

/-- C16. RingsQueue index invariant. For `RING_SIZE ≥ 1`, every sequence of
push and pop calls on a fresh queue runs to completion, and in the state reached
the nodes linked from `head` are the nodes at the addresses `head, …, tail`; each of
them satisfies `pop_idx ≤ push_idx ≤ pop_idx + RING_SIZE` (indices are naturals, so
`0 ≤ pop_idx`), each one other than the tail has `push_idx ≥ RING_SIZE`, and a pop
issued in that state returns: it reads no slot that was never written (reading
such a slot has no result in the model), and when the queue is not empty the
value it reads is one that was pushed. -/
theorem C16_RingsQueue_index_invariant (cfg : Config) (hR : 1 ≤ cfg.RING_SIZE)
    (ops : List Op) :
    ∃ outs q, RingsQueue_run cfg (RingsQueue_new cfg) ops = some (outs, q) ∧
      q.head ≤ q.tail ∧
      (∀ p, q.head ≤ p → p ≤ q.tail → ∃ node, q.heap.deref p = some node ∧
        node.next = (if p < q.tail then p + 1 else 0) ∧
        node.pop_idx ≤ node.push_idx ∧ node.push_idx ≤ node.pop_idx + cfg.RING_SIZE ∧
        (p ≠ q.tail → cfg.RING_SIZE ≤ node.push_idx)) ∧
      ∃ v q1, RingsQueue_pop cfg q = some (v, q1) ∧
        (pendingAfter [] ops ≠ [] → v ∈ pushed ops) := by
  obtain ⟨q, hr, hinv⟩ := RingsQueue.rq_run_spec cfg hR ops _ [] (RingsQueue.rq_inv_new cfg)
  refine ⟨_, q, hr, ?_, ?_, ?_⟩
  · obtain ⟨segs, hc, hne, htl, _⟩ := hinv
    have hL : 0 < segs.length := List.length_pos.2 hne
    omega
  · obtain ⟨segs, hc, hne, htl, _⟩ := hinv
    intro p hp1 hp2
    have hi : p - q.head < segs.length := by omega
    obtain ⟨node, hcell, hnext, hb, hidx, hlen, _, _, hcl⟩ :=
      hc.2.2 (p - q.head) _ (List.getElem?_eq_getElem hi)
    rw [show q.head + (p - q.head) = p by omega] at hcell hnext
    refine ⟨node, Heap.deref_of_cell _ _ _ hcell, ?_, by omega, by omega, ?_⟩
    · rw [hnext]
      by_cases hlt : p < q.tail
      · rw [if_pos hlt, if_pos (by omega)]
      · rw [if_neg hlt, if_neg (by omega)]
    · intro hne'
      exact hcl (by omega)
  · cases hpend : pendingAfter [] ops with
    | nil =>
      rw [hpend] at hinv
      exact ⟨_, _, RingsQueue.rq_pop_spec_nil cfg q hinv, fun h => absurd rfl h⟩
    | cons v r =>
      rw [hpend] at hinv
      obtain ⟨q1, h1, _⟩ := RingsQueue.rq_pop_spec_cons cfg q v r hinv
      refine ⟨v, q1, h1, fun _ => ?_⟩
      rcases pendingAfter_mem ops [] v (by rw [hpend]; exact List.mem_cons_self _ _) with h | h
      · simp at h
      · exact h

/-- C16, witness: the wraparound scenario with `RING_SIZE = 4`, which ends with two
rings. -/
theorem C16_RingsQueue_index_invariant_witness :
    1 ≤ cfgEx.RING_SIZE ∧
    ∃ outs q, RingsQueue_run cfgEx (RingsQueue_new cfgEx)
        [.push 1, .push 2, .push 3, .push 4, .pop, .pop, .push 5, .push 6, .push 7]
        = some (outs, q) ∧
      q.head ≤ q.tail ∧
      (∀ p, q.head ≤ p → p ≤ q.tail → ∃ node, q.heap.deref p = some node ∧
        node.next = (if p < q.tail then p + 1 else 0) ∧
        node.pop_idx ≤ node.push_idx ∧ node.push_idx ≤ node.pop_idx + cfgEx.RING_SIZE ∧
        (p ≠ q.tail → cfgEx.RING_SIZE ≤ node.push_idx)) ∧
      ∃ v q1, RingsQueue_pop cfgEx q = some (v, q1) ∧
        (pendingAfter []
          [.push 1, .push 2, .push 3, .push 4, .pop, .pop, .push 5, .push 6, .push 7] ≠ [] →
          v ∈ pushed
            [.push 1, .push 2, .push 3, .push 4, .pop, .pop, .push 5, .push 6, .push 7]) :=
  ⟨by decide, C16_RingsQueue_index_invariant cfgEx (by decide) _⟩

/-- A pop on a queue whose head node has no successor and holds `EMPTY_VALUE` in
every slot from `pop_idx = k` on: the slots `k .. BUFFER_SIZE-1` are stamped with
`TAKEN_VALUE`, `pop_idx` ends at `max k BUFFER_SIZE + 1`, and `EMPTY_VALUE` is
returned. -/
theorem BLQueue.pop_stamp (cfg : Config) (th : Thread) :
    ∀ (m f : Nat) (q : BLQueue) (buf : List Nat) (push k : Nat),
      q.heap.cells[q.head]? = some (some ⟨0, buf, push, k⟩) →
      buf.length = cfg.BUFFER_SIZE →
      (∀ j, k ≤ j → j < cfg.BUFFER_SIZE → buf[j]? = some cfg.EMPTY_VALUE) →
      th._thread_id < q.hp.pointer.length →
      cfg.BUFFER_SIZE ≤ k + m → m + 1 ≤ f →
      BLQueue_pop cfg f th q
        = some (cfg.EMPTY_VALUE,
            ⟨⟨q.heap.cells.set q.head (some ⟨0,
                buf.take k ++ List.replicate (cfg.BUFFER_SIZE - k) cfg.TAKEN_VALUE, push,
                max k cfg.BUFFER_SIZE + 1⟩)⟩, q.head, q.tail,
              ⟨q.hp.pointer.set th._thread_id 0, q.hp.retired⟩⟩, th) := by
  intro m
  induction m with
  | zero =>
    intro f q buf push k hh hlen hE hme hk hf
    obtain ⟨f, rfl⟩ : ∃ f', f = f' + 1 := ⟨f - 1, by omega⟩
    obtain ⟨⟨cells⟩, head, tail, ⟨pointer, retired⟩⟩ := q
    simp only at hh hme
    have hnlt : ¬ k < cfg.BUFFER_SIZE := by omega
    simp only [BLQueue_pop, HazardPointer_protect, HazardPointer_clear, setAt?, hme, if_true,
      Heap.deref_of_cell _ _ _ hh, Heap.store_of_cell _ _ _ _ hh, hnlt, if_false,
      List.length_set, List.set_set]
    rw [List.take_of_length_le (by omega), show cfg.BUFFER_SIZE - k = 0 by omega,
      Nat.max_eq_left (by omega)]
    simp
  | succ m ih =>
    intro f q buf push k hh hlen hE hme hk hf
    obtain ⟨f, rfl⟩ : ∃ f', f = f' + 1 := ⟨f - 1, by omega⟩
    obtain ⟨⟨cells⟩, head, tail, ⟨pointer, retired⟩⟩ := q
    simp only at hh hme
    by_cases hlt : k < cfg.BUFFER_SIZE
    · have hcl : head < cells.length := (List.getElem?_eq_some.1 hh).1
      have hc1 : (cells.set head (some (⟨0, buf, push, k + 1⟩ : BLNode)))[head]?
          = some (some ⟨0, buf, push, k + 1⟩) := List.getElem?_set_self hcl
      have hc2 : (cells.set head
          (some (⟨0, buf.set k cfg.TAKEN_VALUE, push, k + 1⟩ : BLNode)))[head]?
          = some (some ⟨0, buf.set k cfg.TAKEN_VALUE, push, k + 1⟩) :=
        List.getElem?_set_self hcl
      have h1 := ih f
        ⟨⟨cells.set head (some ⟨0, buf.set k cfg.TAKEN_VALUE, push, k + 1⟩)⟩, head, tail,
          ⟨pointer.set th._thread_id head, retired⟩⟩ (buf.set k cfg.TAKEN_VALUE) push (k + 1)
        hc2 (by simpa using hlen)
        (by
          intro j hj hjB
          rw [List.getElem?_set_ne (by omega)]
          exact hE j (by omega) hjB)
        (by simpa using hme) (by omega) (by omega)
      simp only [BLQueue_pop, HazardPointer_protect, setAt?, hme, if_true,
        Heap.deref_of_cell _ _ _ hh, Heap.store_of_cell _ _ _ _ hh, hlt,
        hE k (le_refl _) hlt, Heap.store_of_cell _ _ _ _ hc1, List.set_set, ne_eq,
        not_true_eq_false, if_false]
      rw [h1]
      simp only [List.set_set]
      rw [take_set_self_succ buf k cfg.TAKEN_VALUE (by omega),
        show cfg.BUFFER_SIZE - k = (cfg.BUFFER_SIZE - (k + 1)) + 1 by omega,
        List.replicate_succ, Nat.max_eq_right (by omega : k + 1 ≤ cfg.BUFFER_SIZE),
        Nat.max_eq_right (by omega : k ≤ cfg.BUFFER_SIZE)]
      simp
    · have hnlt : ¬ k < cfg.BUFFER_SIZE := hlt
      simp only [BLQueue_pop, HazardPointer_protect, HazardPointer_clear, setAt?, hme, if_true,
        Heap.deref_of_cell _ _ _ hh, Heap.store_of_cell _ _ _ _ hh, hnlt, if_false,
        List.length_set, List.set_set]
      rw [List.take_of_length_le (by omega), show cfg.BUFFER_SIZE - k = 0 by omega,
        Nat.max_eq_left (by omega)]
      simp

/-- A push into a queue whose tail node is the last cell of the heap and holds no
`EMPTY_VALUE` in the slots from `push_idx` on: no slot of the tail is written, a
successor node is allocated, receives the value in slot 0 and becomes the tail. -/
theorem BLQueue.push_closed (cfg : Config) (hB : 1 ≤ cfg.BUFFER_SIZE) (th : Thread)
    (item : Nat) :
    ∀ (m f : Nat) (q : BLQueue) (buf : List Nat) (push pop : Nat),
      q.heap.cells[q.tail]? = some (some ⟨0, buf, push, pop⟩) →
      q.heap.cells.length = q.tail + 1 →
      (∀ j, push ≤ j → j < cfg.BUFFER_SIZE → ∃ x, buf[j]? = some x ∧ x ≠ cfg.EMPTY_VALUE) →
      th._thread_id < q.hp.pointer.length →
      cfg.BUFFER_SIZE ≤ push + m → m + 1 ≤ f →
      BLQueue_push cfg th f q item
        = some ⟨⟨q.heap.cells.set q.tail (some ⟨q.tail + 1, buf,
                max push cfg.BUFFER_SIZE + 1, pop⟩)
              ++ [some ⟨0, (List.replicate cfg.BUFFER_SIZE cfg.EMPTY_VALUE).set 0 item, 1, 0⟩]⟩,
            q.head, q.tail + 1, ⟨q.hp.pointer.set th._thread_id 0, q.hp.retired⟩⟩ := by
  have base : ∀ (f : Nat) (q : BLQueue) (buf : List Nat) (push pop : Nat),
      q.heap.cells[q.tail]? = some (some ⟨0, buf, push, pop⟩) →
      q.heap.cells.length = q.tail + 1 →
      th._thread_id < q.hp.pointer.length →
      cfg.BUFFER_SIZE ≤ push →
      BLQueue_push cfg th (f + 1) q item
        = some ⟨⟨q.heap.cells.set q.tail (some ⟨q.tail + 1, buf,
                max push cfg.BUFFER_SIZE + 1, pop⟩)
              ++ [some ⟨0, (List.replicate cfg.BUFFER_SIZE cfg.EMPTY_VALUE).set 0 item, 1, 0⟩]⟩,
            q.head, q.tail + 1, ⟨q.hp.pointer.set th._thread_id 0, q.hp.retired⟩⟩ := by
    intro f q buf push pop ht hcl hme hk
    obtain ⟨⟨cells⟩, head, tail, ⟨pointer, retired⟩⟩ := q
    simp only at ht hme hcl
    have hnlt : ¬ push < cfg.BUFFER_SIZE := by omega
    have hlt : tail < cells.length := by omega
    have hc1 : (cells.set tail (some (⟨0, buf, push + 1, pop⟩ : BLNode))
        ++ [some (⟨0, (List.replicate cfg.BUFFER_SIZE cfg.EMPTY_VALUE).set 0 item, 1, 0⟩
          : BLNode)])[tail]? = some (some ⟨0, buf, push + 1, pop⟩) := by
      rw [List.getElem?_append_left (by simp; omega)]
      exact List.getElem?_set_self hlt
    simp only [BLQueue_push, HazardPointer_protect, HazardPointer_clear, setAt?, hme, if_true,
      Heap.deref_of_cell _ _ _ ht, Heap.store_of_cell _ _ _ _ ht, hnlt, if_false, ne_eq,
      not_true_eq_false, BLNode_new, List.length_replicate,
      show 0 < cfg.BUFFER_SIZE by omega, Heap.malloc, List.length_set,
      Heap.store_of_cell _ _ _ _ hc1, List.set_set]
    rw [List.set_append_left _ _ (by simp; omega), List.set_set, hcl,
      Nat.max_eq_left (by omega)]
  intro m
  induction m with
  | zero =>
    intro f q buf push pop ht hcl hne hme hk hf
    obtain ⟨f, rfl⟩ : ∃ f', f = f' + 1 := ⟨f - 1, by omega⟩
    exact base f q buf push pop ht hcl hme (by omega)
  | succ m ih =>
    intro f q buf push pop ht hcl hne hme hk hf
    obtain ⟨f, rfl⟩ : ∃ f', f = f' + 1 := ⟨f - 1, by omega⟩
    by_cases hlt : push < cfg.BUFFER_SIZE
    · obtain ⟨⟨cells⟩, head, tail, ⟨pointer, retired⟩⟩ := q
      simp only at ht hme hcl
      obtain ⟨x, hx, hxE⟩ := hne push (le_refl _) hlt
      have hc1 : (cells.set tail (some (⟨0, buf, push + 1, pop⟩ : BLNode)))[tail]?
          = some (some ⟨0, buf, push + 1, pop⟩) := List.getElem?_set_self (by omega)
      have h1 := ih f ⟨⟨cells.set tail (some ⟨0, buf, push + 1, pop⟩)⟩, head, tail,
          ⟨pointer.set th._thread_id tail, retired⟩⟩ buf (push + 1) pop hc1
        (by simpa using hcl) (fun j hj hjB => hne j (by omega) hjB) (by simpa using hme)
        (by omega) (by omega)
      simp only [BLQueue_push, HazardPointer_protect, setAt?, hme, if_true,
        Heap.deref_of_cell _ _ _ ht, Heap.store_of_cell _ _ _ _ ht, hlt, hx, hxE, if_false]
      rw [h1]
      simp only [List.set_set]
      rw [Nat.max_eq_right (by omega : push + 1 ≤ cfg.BUFFER_SIZE),
        Nat.max_eq_right (by omega : push ≤ cfg.BUFFER_SIZE)]
    · exact base f q buf push pop ht hcl hme (by omega)

/-- Shape of a queue that holds no value: one node, whose slots below `pop_idx`
hold `TAKEN_VALUE` and whose slots from `pop_idx` on hold `EMPTY_VALUE`. -/
theorem BLQueue.empty_shape (cfg : Config) (hB : 1 ≤ cfg.BUFFER_SIZE) (th : Thread)
    (q : BLQueue) (h : q.Inv cfg th []) :
    ∃ buf push k, q.tail = q.head ∧
      q.heap.cells[q.head]? = some (some ⟨0, buf, push, k⟩) ∧
      q.heap.cells.length = q.head + 1 ∧ buf.length = cfg.BUFFER_SIZE ∧
      (∀ j, k ≤ j → j < cfg.BUFFER_SIZE → buf[j]? = some cfg.EMPTY_VALUE) ∧
      (∀ j, j < k → j < cfg.BUFFER_SIZE → buf[j]? = some cfg.TAKEN_VALUE) ∧
      push ≤ cfg.BUFFER_SIZE ∧ th._thread_id < q.hp.pointer.length := by
  obtain ⟨segs, hc, hne, htl, hp, hhp⟩ := h
  match segs, hc, hne, htl, hp with
  | (v :: r0) :: more, _, _, _, hp => simp at hp
  | [] :: s1 :: more, hc, _, _, hp =>
    have hs1 := BLQueue.second_seg_ne_nil cfg hB hc
    match s1, hs1, hp with
    | v :: r1, _, hp => simp at hp
  | [[]], hc, _, htl, _ =>
    obtain ⟨hd, hh, hnx, hok⟩ := hc.2.2 0 [] (by simp)
    obtain ⟨nx, buf, push, k⟩ := hd
    rw [Nat.add_zero] at hh
    simp only [List.length_singleton] at hnx hok htl
    rw [if_neg (by omega)] at hnx
    subst hnx
    obtain ⟨hb, hlen, htk, _, hem, _, _, hpl⟩ := hok
    simp only at hb hlen htk hem hpl
    have hpB := hpl trivial
    simp only [List.length_nil] at hlen
    refine ⟨buf, push, k, by omega, hh, by simpa using hc.2.1, hb, ?_, htk, hpB, ?_⟩
    · intro j hj hjB
      exact hem j hj (by omega) hjB
    · rw [hhp.1.1]; exact hhp.2.1

/-- C20. A pop on an empty `BLQueue` is not state-preserving. Assume
`BUFFER_SIZE ≥ 1`, `EMPTY_VALUE ≠ TAKEN_VALUE`, `RETIRED_THRESHOLD ≥ 1`, and let a
registered thread run, on a fresh queue, calls `ops` (pushes of valid values and
pops) after which no pushed value is unpopped. The state reached has a single node
`hd`. A pop in that state returns `EMPTY_VALUE`, allocates nothing, and leaves the
head node with `TAKEN_VALUE` in every slot `hd.pop_idx .. BUFFER_SIZE-1`, the slots
below `hd.pop_idx` unchanged and `pop_idx = max hd.pop_idx BUFFER_SIZE + 1`. The
next push of a valid value `v` leaves the buffer of the head node unchanged,
allocates one node, stores `v` in slot 0 of it and makes it the tail, linked
behind the head; a following pop returns `v`. -/
theorem C20_pop_on_empty_changes_state (cfg : Config) (hB : 1 ≤ cfg.BUFFER_SIZE)
    (hET : cfg.EMPTY_VALUE ≠ cfg.TAKEN_VALUE) (hT : 1 ≤ cfg.RETIRED_THRESHOLD)
    (me n : Nat) (hme : me < cfg.MAX_THREADS) (hn : n ≤ cfg.MAX_THREADS) (ops : List Op)
    (hvE : cfg.EMPTY_VALUE ∉ pushed ops) (hvT : cfg.TAKEN_VALUE ∉ pushed ops)
    (hemp : pendingAfter [] ops = []) (v : Nat)
    (hv : v ≠ cfg.EMPTY_VALUE ∧ v ≠ cfg.TAKEN_VALUE)
    (fuel : Nat) (hfuel : cfg.BUFFER_SIZE + 1 ≤ fuel) :
    ∃ outs q th1 hd,
      BLQueue_run cfg fuel (Thread.registered me n) (BLQueue_new cfg) ops
        = some (outs, q, th1) ∧
      q.heap.deref q.head = some hd ∧ q.tail = q.head ∧
      ∃ q1 hd1, BLQueue_pop cfg fuel th1 q = some (cfg.EMPTY_VALUE, q1, th1) ∧
        q1.head = q.head ∧ q1.tail = q.tail ∧
        q1.heap.cells.length = q.heap.cells.length ∧
        q1.heap.deref q1.head = some hd1 ∧
        hd1.pop_idx = max hd.pop_idx cfg.BUFFER_SIZE + 1 ∧
        hd1.push_idx = hd.push_idx ∧ hd1.next = 0 ∧
        (∀ j, hd.pop_idx ≤ j → j < cfg.BUFFER_SIZE →
          hd1.buffer[j]? = some cfg.TAKEN_VALUE) ∧
        (∀ j, j < hd.pop_idx → hd1.buffer[j]? = hd.buffer[j]?) ∧
        ∃ q2 hd2 nd, BLQueue_push cfg th1 fuel q1 v = some q2 ∧
          q2.heap.cells.length = q1.heap.cells.length + 1 ∧
          q2.head = q1.head ∧ q2.tail = q1.heap.cells.length ∧
          q2.heap.deref q2.head = some hd2 ∧ hd2.buffer = hd1.buffer ∧
          hd2.next = q2.tail ∧
          q2.heap.deref q2.tail = some nd ∧ nd.buffer[0]? = some v ∧ nd.push_idx = 1 ∧
          ∃ q3 th3, BLQueue_pop cfg fuel th1 q2 = some (v, q3, th3) := by
  obtain ⟨q, th1, hr, hinv⟩ := BLQueue.bl_run_spec cfg hB hET hT fuel hfuel ops _ _ [] hvE hvT
    (BLQueue.bl_inv_new cfg me n hme hn)
  rw [hemp] at hinv
  obtain ⟨buf, push, k, htl, hh, hcl, hlen, hE, hTk, hpB, hme1⟩ :=
    BLQueue.empty_shape cfg hB th1 q hinv
  -- the pop on the empty queue
  have hpop := BLQueue.pop_stamp cfg th1 cfg.BUFFER_SIZE fuel q buf push k hh hlen hE hme1
    (Nat.le_add_left _ _) hfuel
  obtain ⟨q1', th1', hpop', hinv1, _, _⟩ := BLQueue.pop_spec cfg hB hT th1 q [] fuel hfuel hinv
  rw [hpop] at hpop'
  simp only [List.headD_nil, Option.some.injEq, Prod.mk.injEq, true_and] at hpop'
  obtain ⟨hq1, hth1⟩ := hpop'
  subst hq1 hth1
  simp only [List.tail_nil] at hinv1
  have hlt : q.head < q.heap.cells.length := by omega
  have hh1 : (q.heap.cells.set q.head (some (⟨0,
      buf.take k ++ List.replicate (cfg.BUFFER_SIZE - k) cfg.TAKEN_VALUE, push,
      max k cfg.BUFFER_SIZE + 1⟩ : BLNode)))[q.head]?
      = some (some ⟨0, buf.take k ++ List.replicate (cfg.BUFFER_SIZE - k) cfg.TAKEN_VALUE,
        push, max k cfg.BUFFER_SIZE + 1⟩) := List.getElem?_set_self hlt
  have hstamp : ∀ j, k ≤ j → j < cfg.BUFFER_SIZE →
      (buf.take k ++ List.replicate (cfg.BUFFER_SIZE - k) cfg.TAKEN_VALUE)[j]?
        = some cfg.TAKEN_VALUE := by
    intro j hj hjB
    have hl : (buf.take k).length = k := by rw [List.length_take]; omega
    rw [List.getElem?_append_right (by omega), hl, List.getElem?_replicate,
      if_pos (by omega)]
  have hkeep : ∀ j, j < k →
      (buf.take k ++ List.replicate (cfg.BUFFER_SIZE - k) cfg.TAKEN_VALUE)[j]? = buf[j]? := by
    intro j hj
    by_cases hjB : j < cfg.BUFFER_SIZE
    · rw [List.getElem?_append_left (by rw [List.length_take]; omega), List.getElem?_take,
        if_pos hj]
    · rw [List.getElem?_eq_none (by simp; omega), List.getElem?_eq_none (by omega)]
  -- the push after it
  have hpush := BLQueue.push_closed cfg hB th1 v cfg.BUFFER_SIZE fuel
    ⟨⟨q.heap.cells.set q.head (some ⟨0,
        buf.take k ++ List.replicate (cfg.BUFFER_SIZE - k) cfg.TAKEN_VALUE, push,
        max k cfg.BUFFER_SIZE + 1⟩)⟩, q.head, q.tail,
      ⟨q.hp.pointer.set th1._thread_id 0, q.hp.retired⟩⟩
    (buf.take k ++ List.replicate (cfg.BUFFER_SIZE - k) cfg.TAKEN_VALUE) push
    (max k cfg.BUFFER_SIZE + 1) (by rw [htl]; exact hh1) (by simp; omega)
    (by
      intro j _ hjB
      refine ⟨cfg.TAKEN_VALUE, ?_, Ne.symm hET⟩
      by_cases hjk : j < k
      · rw [hkeep j hjk]; exact hTk j hjk hjB
      · exact hstamp j (by omega) hjB)
    (by simpa using hme1) (Nat.le_add_left _ _) hfuel
  obtain ⟨q2', hpush', hinv2⟩ := BLQueue.bl_push_spec cfg hB hET th1 v hv [] fuel hfuel _ hinv1
  rw [hpush] at hpush'
  simp only [Option.some.injEq] at hpush'
  subst hpush'
  obtain ⟨q3, th3, hpop3, _⟩ := BLQueue.pop_spec cfg hB hT th1 _ _ fuel hfuel hinv2
  simp only [List.nil_append, List.headD_cons] at hpop3
  refine ⟨_, q, th1, ⟨0, buf, push, k⟩, hr, Heap.deref_of_cell _ _ _ hh, htl, _,
    ⟨0, buf.take k ++ List.replicate (cfg.BUFFER_SIZE - k) cfg.TAKEN_VALUE, push,
      max k cfg.BUFFER_SIZE + 1⟩, hpop, rfl, rfl, by simp, Heap.deref_of_cell _ _ _ hh1,
    rfl, rfl, rfl, hstamp, hkeep, _,
    ⟨q.tail + 1, buf.take k ++ List.replicate (cfg.BUFFER_SIZE - k) cfg.TAKEN_VALUE,
      max push cfg.BUFFER_SIZE + 1, max k cfg.BUFFER_SIZE + 1⟩,
    ⟨0, (List.replicate cfg.BUFFER_SIZE cfg.EMPTY_VALUE).set 0 v, 1, 0⟩, hpush,
    by simp, rfl, by simp; omega, ?_, rfl, rfl, ?_, ?_, rfl, q3, th3, hpop3⟩
  · apply Heap.deref_of_cell
    simp only [List.set_set]
    rw [List.getElem?_append_left (by simp; omega), htl]
    exact List.getElem?_set_self (by simpa using hlt)
  · apply Heap.deref_of_cell
    simp only [List.set_set]
    have hlast : ∀ (l : List (Option BLNode)), l.length = q.tail + 1 →
        ∀ x, (l ++ [x])[q.tail + 1]? = some x := by
      intro l hl x
      rw [List.getElem?_append_right (by omega), hl]
      simp
    exact hlast _ (by simp; omega) _
  · simp only
    exact List.getElem?_set_self (by simp; omega)

/-- C20, witness: `BUFFER_SIZE = 4`, after push 1 and pop the head node has
`pop_idx = 1`; the pop on the empty queue stamps the slots 1..3 and the push of 9
goes to a second node. -/
theorem C20_pop_on_empty_changes_state_witness :
    (1 ≤ cfgEx.BUFFER_SIZE ∧ cfgEx.EMPTY_VALUE ≠ cfgEx.TAKEN_VALUE ∧
      1 ≤ cfgEx.RETIRED_THRESHOLD ∧ 0 < cfgEx.MAX_THREADS ∧ 1 ≤ cfgEx.MAX_THREADS ∧
      cfgEx.EMPTY_VALUE ∉ pushed [.push 1, .pop] ∧
      cfgEx.TAKEN_VALUE ∉ pushed [.push 1, .pop] ∧
      pendingAfter [] [.push 1, .pop] = [] ∧
      (9 ≠ cfgEx.EMPTY_VALUE ∧ 9 ≠ cfgEx.TAKEN_VALUE) ∧ cfgEx.BUFFER_SIZE + 1 ≤ 5) ∧
    ∃ outs q th1 hd,
      BLQueue_run cfgEx 5 (Thread.registered 0 1) (BLQueue_new cfgEx) [.push 1, .pop]
        = some (outs, q, th1) ∧
      q.heap.deref q.head = some hd ∧ q.tail = q.head ∧
      ∃ q1 hd1, BLQueue_pop cfgEx 5 th1 q = some (cfgEx.EMPTY_VALUE, q1, th1) ∧
        q1.head = q.head ∧ q1.tail = q.tail ∧
        q1.heap.cells.length = q.heap.cells.length ∧
        q1.heap.deref q1.head = some hd1 ∧
        hd1.pop_idx = max hd.pop_idx cfgEx.BUFFER_SIZE + 1 ∧
        hd1.push_idx = hd.push_idx ∧ hd1.next = 0 ∧
        (∀ j, hd.pop_idx ≤ j → j < cfgEx.BUFFER_SIZE →
          hd1.buffer[j]? = some cfgEx.TAKEN_VALUE) ∧
        (∀ j, j < hd.pop_idx → hd1.buffer[j]? = hd.buffer[j]?) ∧
        ∃ q2 hd2 nd, BLQueue_push cfgEx th1 5 q1 9 = some q2 ∧
          q2.heap.cells.length = q1.heap.cells.length + 1 ∧
          q2.head = q1.head ∧ q2.tail = q1.heap.cells.length ∧
          q2.heap.deref q2.head = some hd2 ∧ hd2.buffer = hd1.buffer ∧
          hd2.next = q2.tail ∧
          q2.heap.deref q2.tail = some nd ∧ nd.buffer[0]? = some 9 ∧ nd.push_idx = 1 ∧
          ∃ q3 th3, BLQueue_pop cfgEx 5 th1 q2 = some (9, q3, th3) :=
  ⟨⟨by decide, by decide, by decide, by decide, by decide, by decide, by decide, by decide,
      by decide, by decide⟩,
    C20_pop_on_empty_changes_state cfgEx (by decide) (by decide) (by decide) 0 1 (by decide)
      (by decide) [.push 1, .pop] (by decide) (by decide) (by decide) 9 (by decide) 5
      (by decide)⟩

theorem BLSlot.step_trans (cfg : Config) (hET : cfg.EMPTY_VALUE ≠ cfg.TAKEN_VALUE)
    {x y z : Nat} (h1 : BLSlot.step cfg x y) (h2 : BLSlot.step cfg y z) :
    BLSlot.step cfg x z := by
  unfold BLSlot.step at *
  generalize cfg.EMPTY_VALUE = E at *
  generalize cfg.TAKEN_VALUE = T at *
  rcases h1 with rfl | ⟨rfl, h1, h1'⟩ | ⟨h1, h1', rfl⟩ | ⟨rfl, rfl⟩
  · exact h2
  · rcases h2 with rfl | ⟨rfl, _, _⟩ | ⟨_, _, rfl⟩ | ⟨rfl, _⟩
    · exact Or.inr (Or.inl ⟨rfl, h1, h1'⟩)
    · exact absurd rfl h1
    · exact Or.inr (Or.inr (Or.inr ⟨rfl, rfl⟩))
    · exact absurd rfl h1
  · rcases h2 with rfl | ⟨h2, _, _⟩ | ⟨_, h2, _⟩ | ⟨h2, _⟩
    · exact Or.inr (Or.inr (Or.inl ⟨h1, h1', rfl⟩))
    · exact absurd h2.symm hET
    · exact absurd rfl h2
    · exact absurd h2.symm hET
  · rcases h2 with rfl | ⟨h2, _, _⟩ | ⟨_, h2, _⟩ | ⟨h2, _⟩
    · exact Or.inr (Or.inr (Or.inr ⟨rfl, rfl⟩))
    · exact absurd h2.symm hET
    · exact absurd rfl h2
    · exact absurd h2.symm hET

/-- A slot that is not `EMPTY_VALUE` stays so, a slot holding `TAKEN_VALUE` keeps it. -/
theorem BLSlot.step_mono (cfg : Config) (hET : cfg.EMPTY_VALUE ≠ cfg.TAKEN_VALUE)
    {x y : Nat} (h : BLSlot.step cfg x y) :
    (x ≠ cfg.EMPTY_VALUE → y ≠ cfg.EMPTY_VALUE) ∧
    (x = cfg.TAKEN_VALUE → y = cfg.TAKEN_VALUE) := by
  unfold BLSlot.step at h
  rcases h with rfl | ⟨rfl, h1, h1'⟩ | ⟨h1, h1', rfl⟩ | ⟨rfl, rfl⟩
  · exact ⟨fun h => h, fun h => h⟩
  · exact ⟨fun h => absurd rfl h, fun h => absurd h hET⟩
  · exact ⟨fun _ => Ne.symm hET, fun _ => rfl⟩
  · exact ⟨fun _ => Ne.symm hET, fun _ => rfl⟩

theorem BLHeap.evolves_refl (cfg : Config) (h : Heap BLNode) : BLHeap.evolves cfg h h :=
  ⟨le_refl _, fun _ n1 _ hn => ⟨n1, hn, rfl, fun _ x y hx hy => by
    rw [hx] at hy; cases hy; exact Or.inl rfl⟩⟩

theorem BLHeap.evolves_trans (cfg : Config) (hET : cfg.EMPTY_VALUE ≠ cfg.TAKEN_VALUE)
    {h h1 h2 : Heap BLNode} (h01 : BLHeap.evolves cfg h h1) (h12 : BLHeap.evolves cfg h1 h2) :
    BLHeap.evolves cfg h h2 := by
  refine ⟨le_trans h01.1 h12.1, ?_⟩
  intro p n2 hp hn2
  obtain ⟨n1, hn1, hl1, hs1⟩ := h12.2 p n2 (lt_of_lt_of_le hp h01.1) hn2
  obtain ⟨n, hn, hl, hs⟩ := h01.2 p n1 hp hn1
  refine ⟨n, hn, hl1.trans hl, ?_⟩
  intro j x z hx hz
  have hj : j < n1.buffer.length := by
    rw [hl]; exact (List.getElem?_eq_some.1 hx).1
  exact BLSlot.step_trans cfg hET (hs j x _ hx (List.getElem?_eq_getElem hj))
    (hs1 j _ z (List.getElem?_eq_getElem hj) hz)

/-- Overwriting a node by one with the same number of slots, each changed along
the state machine. -/
theorem BLHeap.evolves_store (cfg : Config) {h h1 : Heap BLNode} {p : Nat} {n0 n1 : BLNode}
    (hd : h.deref p = some n0) (hs : h.store p n1 = some h1)
    (hl : n1.buffer.length = n0.buffer.length)
    (hstep : ∀ (j x y : Nat), n0.buffer[j]? = some x → n1.buffer[j]? = some y →
      BLSlot.step cfg x y) :
    BLHeap.evolves cfg h h1 ∧ h1.deref p = some n1 := by
  simp only [Heap.store, hd, Option.some.injEq] at hs
  subst hs
  have hp : p < h.cells.length := by
    rw [Heap.deref_eq_some] at hd
    exact (List.getElem?_eq_some.1 hd).1
  refine ⟨⟨by simp, ?_⟩, Heap.deref_of_cell _ _ _ (List.getElem?_set_self hp)⟩
  intro p' n' hp' hn'
  by_cases hpp : p' = p
  · subst hpp
    rw [Heap.deref_eq_some, List.getElem?_set_self hp] at hn'
    simp only [Option.some.injEq] at hn'
    subst hn'
    exact ⟨n0, hd, hl, hstep⟩
  · rw [Heap.deref_eq_some, List.getElem?_set_ne (Ne.symm hpp)] at hn'
    exact ⟨n', Heap.deref_of_cell _ _ _ hn', rfl, fun _ x y hx hy => by
      rw [hx] at hy; cases hy; exact Or.inl rfl⟩

theorem BLHeap.evolves_malloc (cfg : Config) (h : Heap BLNode) (x : BLNode) :
    BLHeap.evolves cfg h (h.malloc x).1 := by
  refine ⟨by simp [Heap.malloc], ?_⟩
  intro p n1 hp hn1
  rw [Heap.deref_eq_some] at hn1
  simp only [Heap.malloc] at hn1
  rw [List.getElem?_append_left hp] at hn1
  exact ⟨n1, Heap.deref_of_cell _ _ _ hn1, rfl, fun _ x y hx hy => by
    rw [hx] at hy; cases hy; exact Or.inl rfl⟩

theorem BLHeap.evolves_free (cfg : Config) {h h1 : Heap BLNode} {p : Nat}
    (hf : h.free p = some h1) : BLHeap.evolves cfg h h1 := by
  simp only [Heap.free] at hf
  by_cases hp : p = 0
  · rw [if_pos hp] at hf
    cases hf
    exact BLHeap.evolves_refl cfg h
  · rw [if_neg hp] at hf
    cases hd : h.deref p with
    | none => rw [hd] at hf; cases hf
    | some n0 =>
      rw [hd] at hf
      simp only [Option.some.injEq] at hf
      subst hf
      refine ⟨by simp, ?_⟩
      intro p' n' hp' hn'
      rw [Heap.deref_eq_some] at hn'
      by_cases hpp : p' = p
      · subst hpp
        rw [List.getElem?_set_self hp'] at hn'
        cases hn'
      · rw [List.getElem?_set_ne (Ne.symm hpp)] at hn'
        exact ⟨n', Heap.deref_of_cell _ _ _ hn', rfl, fun _ x y hx hy => by
          rw [hx] at hy; cases hy; exact Or.inl rfl⟩

theorem BLHeap.evolves_freeAll (cfg : Config) (hET : cfg.EMPTY_VALUE ≠ cfg.TAKEN_VALUE) :
    ∀ (ps : List Nat) (h h1 : Heap BLNode), h.freeAll ps = some h1 →
      BLHeap.evolves cfg h h1 := by
  intro ps
  induction ps with
  | nil =>
    intro h h1 hf
    simp only [Heap.freeAll, Option.some.injEq] at hf
    subst hf
    exact BLHeap.evolves_refl cfg h
  | cons p ps ih =>
    intro h h1 hf
    simp only [Heap.freeAll] at hf
    cases hfp : h.free p with
    | none => rw [hfp] at hf; cases hf
    | some h' =>
      rw [hfp] at hf
      exact BLHeap.evolves_trans cfg hET (BLHeap.evolves_free cfg hfp) (ih _ _ hf)

theorem BLSlot.step_same (cfg : Config) (b : List Nat) :
    ∀ (j x y : Nat), b[j]? = some x → b[j]? = some y → BLSlot.step cfg x y := by
  intro j x y hx hy
  rw [hx] at hy
  cases hy
  exact Or.inl rfl

theorem Heap.deref_malloc {α : Type} (h : Heap α) (y : α) {p : Nat} {x : α}
    (hd : h.deref p = some x) : (h.malloc y).1.deref p = some x := by
  rw [Heap.deref_eq_some] at hd ⊢
  simp only [Heap.malloc]
  rw [List.getElem?_append_left (List.getElem?_eq_some.1 hd).1]
  exact hd

theorem BLQueue.push_evolves (cfg : Config) (hET : cfg.EMPTY_VALUE ≠ cfg.TAKEN_VALUE)
    (th : Thread) (item : Nat) (hv : item ≠ cfg.EMPTY_VALUE ∧ item ≠ cfg.TAKEN_VALUE) :
    ∀ (fuel : Nat) (q q1 : BLQueue), BLQueue_push cfg th fuel q item = some q1 →
      BLHeap.evolves cfg q.heap q1.heap := by
  intro fuel
  induction fuel with
  | zero => intro q q1 h; simp [BLQueue_push] at h
  | succ f ih =>
    intro q q1 h
    simp only [BLQueue_push, HazardPointer_protect] at h
    split at h
    · cases h
    · rename_i hp1 tail hpr
      split at h
      · cases h
      · rename_i t hd
        split at h
        · cases h
        · rename_i heap1 hs1
          obtain ⟨e1, hd1⟩ := BLHeap.evolves_store cfg hd hs1 rfl (BLSlot.step_same cfg _)
          split at h
          · rename_i hlt
            split at h
            · cases h
            · rename_i cur hcur
              split at h
              · rename_i hce
                split at h
                · cases h
                · rename_i heap2 hs2
                  split at h
                  · cases h
                  · simp only [Option.some.injEq] at h
                    subst h
                    refine BLHeap.evolves_trans cfg hET e1
                      (BLHeap.evolves_store cfg hd1 hs2 (by simp) ?_).1
                    intro j x y hx hy
                    simp only at hx hy
                    by_cases hj : j = t.push_idx
                    · subst hj
                      rw [hcur] at hx
                      rw [List.getElem?_set_self (List.getElem?_eq_some.1 hcur).1] at hy
                      cases hx
                      cases hy
                      exact Or.inr (Or.inl ⟨hce, hv.1, hv.2⟩)
                    · rw [List.getElem?_set_ne (Ne.symm hj)] at hy
                      exact BLSlot.step_same cfg _ j x y hx hy
              · exact BLHeap.evolves_trans cfg hET e1 (ih _ _ h)
          · split at h
            · exact BLHeap.evolves_trans cfg hET e1 (ih _ _ h)
            · split at h
              · cases h
              · rename_i buf hbuf
                split at h
                · split at h
                  · cases h
                  · rename_i heap2 hs2
                    split at h
                    · cases h
                    · simp only [Option.some.injEq] at h
                      subst h
                      have e2 := BLHeap.evolves_malloc cfg heap1 ⟨(BLNode_new cfg).next, buf, 1,
                        (BLNode_new cfg).pop_idx⟩
                      have hd2 := Heap.deref_malloc heap1 ⟨(BLNode_new cfg).next, buf, 1,
                        (BLNode_new cfg).pop_idx⟩ hd1
                      exact BLHeap.evolves_trans cfg hET e1 (BLHeap.evolves_trans cfg hET e2
                        (BLHeap.evolves_store cfg hd2 hs2 rfl (BLSlot.step_same cfg _)).1)
                · split at h
                  · cases h
                  · rename_i heap2 hf2
                    exact BLHeap.evolves_trans cfg hET e1 (BLHeap.evolves_trans cfg hET
                      (BLHeap.evolves_malloc cfg heap1 _)
                      (BLHeap.evolves_trans cfg hET (BLHeap.evolves_free cfg hf2) (ih _ _ h)))

/-- Writing `TAKEN_VALUE` into a slot is allowed by the state machine whatever the
slot held. -/
theorem BLSlot.step_taken (cfg : Config) (x : Nat) : BLSlot.step cfg x cfg.TAKEN_VALUE := by
  by_cases h1 : x = cfg.TAKEN_VALUE
  · exact Or.inl h1.symm
  · by_cases h2 : x = cfg.EMPTY_VALUE
    · exact Or.inr (Or.inr (Or.inr ⟨h2, rfl⟩))
    · exact Or.inr (Or.inr (Or.inl ⟨h2, h1, rfl⟩))

theorem BLQueue.pop_evolves (cfg : Config) (hET : cfg.EMPTY_VALUE ≠ cfg.TAKEN_VALUE) :
    ∀ (fuel : Nat) (th : Thread) (q : BLQueue) (v : Nat) (q1 : BLQueue) (th1 : Thread),
      BLQueue_pop cfg fuel th q = some (v, q1, th1) → BLHeap.evolves cfg q.heap q1.heap := by
  intro fuel
  induction fuel with
  | zero => intro th q v q1 th1 h; simp [BLQueue_pop] at h
  | succ f ih =>
    intro th q v q1 th1 h
    simp only [BLQueue_pop, HazardPointer_protect] at h
    split at h
    · cases h
    · rename_i hp1 head hpr
      split at h
      · cases h
      · rename_i t hd
        split at h
        · cases h
        · rename_i heap1 hs1
          obtain ⟨e1, hd1⟩ := BLHeap.evolves_store cfg hd hs1 rfl (BLSlot.step_same cfg _)
          split at h
          · rename_i hlt
            split at h
            · cases h
            · rename_i val hval
              split at h
              · cases h
              · rename_i heap2 hs2
                have e2 : BLHeap.evolves cfg heap1 heap2 := by
                  refine (BLHeap.evolves_store cfg hd1 hs2 (by simp) ?_).1
                  intro j x y hx hy
                  simp only at hx hy
                  by_cases hj : j = t.pop_idx
                  · subst hj
                    rw [List.getElem?_set_self (List.getElem?_eq_some.1 hval).1] at hy
                    cases hy
                    exact BLSlot.step_taken cfg x
                  · rw [List.getElem?_set_ne (Ne.symm hj)] at hy
                    exact BLSlot.step_same cfg _ j x y hx hy
                split at h
                · split at h
                  · cases h
                  · simp only [Option.some.injEq, Prod.mk.injEq] at h
                    obtain ⟨_, h, _⟩ := h
                    subst h
                    exact BLHeap.evolves_trans cfg hET e1 e2
                · exact BLHeap.evolves_trans cfg hET e1
                    (BLHeap.evolves_trans cfg hET e2 (ih _ _ _ _ _ h))
          · split at h
            · split at h
              · cases h
              · simp only [Option.some.injEq, Prod.mk.injEq] at h
                obtain ⟨_, h, _⟩ := h
                subst h
                exact e1
            · split at h
              · split at h
                · cases h
                · rename_i hp2 th2 freed hret
                  split at h
                  · cases h
                  · rename_i heap2 hfa
                    exact BLHeap.evolves_trans cfg hET e1 (BLHeap.evolves_trans cfg hET
                      (BLHeap.evolves_freeAll cfg hET _ _ _ hfa) (ih _ _ _ _ _ h))
              · exact BLHeap.evolves_trans cfg hET e1 (ih _ _ _ _ _ h)

theorem BLQueue.run_evolves (cfg : Config) (hET : cfg.EMPTY_VALUE ≠ cfg.TAKEN_VALUE)
    (fuel : Nat) :
    ∀ (ops : List Op) (th : Thread) (q : BLQueue) (outs : List Nat) (q1 : BLQueue)
      (th1 : Thread), cfg.EMPTY_VALUE ∉ pushed ops → cfg.TAKEN_VALUE ∉ pushed ops →
      BLQueue_run cfg fuel th q ops = some (outs, q1, th1) →
      BLHeap.evolves cfg q.heap q1.heap := by
  intro ops
  induction ops with
  | nil =>
    intro th q outs q1 th1 _ _ h
    simp only [BLQueue_run, Option.some.injEq, Prod.mk.injEq] at h
    rw [← h.2.1]
    exact BLHeap.evolves_refl cfg _
  | cons op ops ih =>
    intro th q outs q1 th1 hvE hvT h
    cases op with
    | push v =>
      simp only [pushed, List.mem_cons, not_or] at hvE hvT
      simp only [BLQueue_run] at h
      split at h
      · cases h
      · rename_i q2 hpush
        exact BLHeap.evolves_trans cfg hET
          (BLQueue.push_evolves cfg hET th v ⟨Ne.symm hvE.1, Ne.symm hvT.1⟩ _ _ _ hpush)
          (ih _ _ _ _ _ hvE.2 hvT.2 h)
    | pop =>
      simp only [pushed] at hvE hvT
      simp only [BLQueue_run] at h
      split at h
      · cases h
      · rename_i v q2 th2 hpop
        split at h
        · cases h
        · rename_i vs q3 th3 hrun
          simp only [Option.some.injEq, Prod.mk.injEq] at h
          rw [← h.2.1]
          exact BLHeap.evolves_trans cfg hET (BLQueue.pop_evolves cfg hET _ _ _ _ _ _ hpop)
            (ih _ _ _ _ _ hvE hvT hrun)

/-- C15. BLQueue slot state machine. Assume `EMPTY_VALUE ≠ TAKEN_VALUE`. Let
calls of `BLQueue_push` (with values distinct from `EMPTY_VALUE` and
`TAKEN_VALUE`) and `BLQueue_pop`, run by one thread from any state `q`, return
in the state `q1`. Then every node that exists in `q` and in `q1` has kept its number
of slots, and each of its slots went from its content `x` to its content `y`
along the state machine: unchanged, `EMPTY → v`, `v → TAKEN` or `EMPTY → TAKEN`;
a slot that was not `EMPTY_VALUE` is not `EMPTY_VALUE`, a slot that held
`TAKEN_VALUE` holds it. `BLQueue_is_empty` changes no node at all. -/
theorem C15_BLQueue_slot_state_machine (cfg : Config)
    (hET : cfg.EMPTY_VALUE ≠ cfg.TAKEN_VALUE) (fuel : Nat) (th : Thread) (q : BLQueue)
    (ops : List Op) (outs : List Nat) (q1 : BLQueue) (th1 : Thread)
    (hvE : cfg.EMPTY_VALUE ∉ pushed ops) (hvT : cfg.TAKEN_VALUE ∉ pushed ops)
    (hrun : BLQueue_run cfg fuel th q ops = some (outs, q1, th1)) :
    (∀ (p : Nat) (n n1 : BLNode), q.heap.deref p = some n → q1.heap.deref p = some n1 →
      n1.buffer.length = n.buffer.length ∧
      ∀ (j x y : Nat), n.buffer[j]? = some x → n1.buffer[j]? = some y →
        BLSlot.step cfg x y ∧ (x ≠ cfg.EMPTY_VALUE → y ≠ cfg.EMPTY_VALUE) ∧
        (x = cfg.TAKEN_VALUE → y = cfg.TAKEN_VALUE)) ∧
    (∀ (b : Bool) (q2 : BLQueue), BLQueue_is_empty th1 q1 = some (b, q2) →
      q2.heap = q1.heap) := by
  have hev := BLQueue.run_evolves cfg hET fuel ops th q outs q1 th1 hvE hvT hrun
  refine ⟨?_, ?_⟩
  · intro p n n1 hn hn1
    have hp : p < q.heap.cells.length := by
      rw [Heap.deref_eq_some] at hn
      exact (List.getElem?_eq_some.1 hn).1
    obtain ⟨n', hn', hl, hs⟩ := hev.2 p n1 hp hn1
    rw [hn] at hn'
    cases hn'
    refine ⟨hl, fun j x y hx hy => ?_⟩
    have := hs j x y hx hy
    exact ⟨this, BLSlot.step_mono cfg hET this⟩
  · intro b q2 h
    simp only [BLQueue_is_empty] at h
    split at h
    · cases h
    · split at h
      · cases h
      · simp only [Option.some.injEq, Prod.mk.injEq] at h
        rw [← h.2]

/-- C15, witness: `BUFFER_SIZE = 4`; push 7, pop (slot 0 goes `EMPTY → 7 → TAKEN`),
pop on the empty queue (slots 1..3 go `EMPTY → TAKEN`). -/
theorem C15_BLQueue_slot_state_machine_witness :
    (cfgEx.EMPTY_VALUE ≠ cfgEx.TAKEN_VALUE ∧
      cfgEx.EMPTY_VALUE ∉ pushed [.push 7, .pop, .pop] ∧
      cfgEx.TAKEN_VALUE ∉ pushed [.push 7, .pop, .pop] ∧
      BLQueue_run cfgEx 5 (Thread.registered 0 1) (BLQueue_new cfgEx) [.push 7, .pop, .pop]
        = some ([7, 0], ⟨⟨[none, some ⟨0, [cfgEx.TAKEN_VALUE, cfgEx.TAKEN_VALUE,
            cfgEx.TAKEN_VALUE, cfgEx.TAKEN_VALUE], 1, 5⟩]⟩, 1, 1,
            ⟨[0, 0, 0, 0], [[0, 0], [0, 0], [0, 0], [0, 0]]⟩⟩, ⟨0, 1, 0⟩)) ∧
    ((∀ (p : Nat) (n n1 : BLNode), (BLQueue_new cfgEx).heap.deref p = some n →
      (Heap.mk [none, some (BLNode.mk 0 [cfgEx.TAKEN_VALUE, cfgEx.TAKEN_VALUE,
            cfgEx.TAKEN_VALUE, cfgEx.TAKEN_VALUE] 1 5)]).deref p = some n1 →
      n1.buffer.length = n.buffer.length ∧
      ∀ (j x y : Nat), n.buffer[j]? = some x → n1.buffer[j]? = some y →
        BLSlot.step cfgEx x y ∧ (x ≠ cfgEx.EMPTY_VALUE → y ≠ cfgEx.EMPTY_VALUE) ∧
        (x = cfgEx.TAKEN_VALUE → y = cfgEx.TAKEN_VALUE))) :=
  ⟨⟨by decide, by decide, by decide, by decide⟩,
    (C15_BLQueue_slot_state_machine cfgEx (by decide) 5 (Thread.registered 0 1)
      (BLQueue_new cfgEx) [.push 7, .pop, .pop] [7, 0]
      ⟨⟨[none, some ⟨0, [cfgEx.TAKEN_VALUE, cfgEx.TAKEN_VALUE, cfgEx.TAKEN_VALUE,
        cfgEx.TAKEN_VALUE], 1, 5⟩]⟩, 1, 1, ⟨[0, 0, 0, 0], [[0, 0], [0, 0], [0, 0], [0, 0]]⟩⟩
      ⟨0, 1, 0⟩ (by decide) (by decide) (by decide)).1⟩

/-! ### The hazard slot on return from the queue operations -/

theorem HazardPointer_clear_slot (th : Thread) (hp hp2 : HazardPointer)
    (h : HazardPointer_clear th hp = some hp2) : hp2.pointer[th._thread_id]? = some 0 := by
  simp only [HazardPointer_clear, setAt?] at h
  by_cases hlt : th._thread_id < hp.pointer.length
  · simp only [hlt, if_true, Option.some.injEq] at h
    rw [← h]
    exact List.getElem?_set_self hlt
  · simp [hlt] at h

theorem HazardPointer_retire_pointer (cfg : Config) (th : Thread) (hp : HazardPointer)
    (ptr : Nat) (hp1 : HazardPointer) (th1 : Thread) (freed : List Nat)
    (h : HazardPointer_retire cfg th hp ptr = some (hp1, th1, freed)) :
    hp1.pointer = hp.pointer ∧ th1._thread_id = th._thread_id := by
  simp only [HazardPointer_retire] at h
  split at h
  · cases h
  · split at h
    · cases h
    · split at h
      · split at h
        · cases h
        · simp only [Option.some.injEq, Prod.mk.injEq] at h
          rw [← h.1, ← h.2.1]
          exact ⟨rfl, rfl⟩
      · simp only [Option.some.injEq, Prod.mk.injEq] at h
        rw [← h.1, ← h.2.1]
        exact ⟨rfl, rfl⟩

/-- When `BLQueue_push` returns, the hazard slot of the calling thread is null. -/
theorem BLQueue_push_hazard (cfg : Config) (th : Thread) (item : Nat) :
    ∀ (fuel : Nat) (q q1 : BLQueue), BLQueue_push cfg th fuel q item = some q1 →
      q1.hp.pointer[th._thread_id]? = some 0 := by
  intro fuel
  induction fuel with
  | zero => intro q q1 h; simp [BLQueue_push] at h
  | succ f ih =>
    intro q q1 h
    simp only [BLQueue_push] at h
    split at h
    · cases h
    · split at h
      · cases h
      · split at h
        · cases h
        · split at h
          · split at h
            · cases h
            · split at h
              · split at h
                · cases h
                · split at h
                  · cases h
                  · rename_i hp2 hcl
                    simp only [Option.some.injEq] at h
                    rw [← h]
                    exact HazardPointer_clear_slot th _ hp2 hcl
              · exact ih _ _ h
          · split at h
            · exact ih _ _ h
            · split at h
              · cases h
              · split at h
                · split at h
                  · cases h
                  · split at h
                    · cases h
                    · rename_i hp2 hcl
                      simp only [Option.some.injEq] at h
                      rw [← h]
                      exact HazardPointer_clear_slot th _ hp2 hcl
                · split at h
                  · cases h
                  · exact ih _ _ h

/-- When `BLQueue_pop` returns, the hazard slot of the calling thread is null. -/
theorem BLQueue_pop_hazard (cfg : Config) :
    ∀ (fuel : Nat) (th : Thread) (q : BLQueue) (v : Nat) (q1 : BLQueue) (th1 : Thread),
      BLQueue_pop cfg fuel th q = some (v, q1, th1) →
      q1.hp.pointer[th._thread_id]? = some 0 := by
  intro fuel
  induction fuel with
  | zero => intro th q v q1 th1 h; simp [BLQueue_pop] at h
  | succ f ih =>
    intro th q v q1 th1 h
    simp only [BLQueue_pop] at h
    split at h
    · cases h
    · split at h
      · cases h
      · split at h
        · cases h
        · split at h
          · split at h
            · cases h
            · split at h
              · cases h
              · split at h
                · split at h
                  · cases h
                  · rename_i hp2 hcl
                    simp only [Option.some.injEq, Prod.mk.injEq] at h
                    rw [← h.2.1]
                    exact HazardPointer_clear_slot th _ hp2 hcl
                · exact ih _ _ _ _ _ h
          · split at h
            · split at h
              · cases h
              · rename_i hp2 hcl
                simp only [Option.some.injEq, Prod.mk.injEq] at h
                rw [← h.2.1]
                exact HazardPointer_clear_slot th _ hp2 hcl
            · split at h
              · split at h
                · cases h
                · rename_i hp2 th2 freed hret
                  split at h
                  · cases h
                  · have := ih _ _ _ _ _ h
                    rw [(HazardPointer_retire_pointer cfg th _ _ hp2 th2 freed hret).2] at this
                    exact this
              · exact ih _ _ _ _ _ h

/-- When `LLQueue_push` returns, the hazard slot of the calling thread is null. -/
theorem LLQueue_push_hazard (th : Thread) (item : Nat) (fuel : Nat) (q q1 : LLQueue)
    (h : LLQueue_push th fuel q item = some q1) : q1.hp.pointer[th._thread_id]? = some 0 := by
  have key : ∀ (node fuel : Nat) (q q1 : LLQueue), LLQueue_push_loop th node fuel q = some q1 →
      q1.hp.pointer[th._thread_id]? = some 0 := by
    intro node fuel
    induction fuel with
    | zero => intro q q1 h; simp [LLQueue_push_loop] at h
    | succ f ih =>
      intro q q1 h
      simp only [LLQueue_push_loop] at h
      split at h
      · cases h
      · split at h
        · cases h
        · split at h
          · split at h
            · cases h
            · split at h
              · cases h
              · rename_i hp2 hcl
                simp only [Option.some.injEq] at h
                rw [← h]
                exact HazardPointer_clear_slot th _ hp2 hcl
          · exact ih _ _ h
  exact key _ _ _ _ h

/-- When `LLQueue_pop` returns, the hazard slot of the calling thread is null. -/
theorem LLQueue_pop_hazard (cfg : Config) (th : Thread) :
    ∀ (fuel : Nat) (q : LLQueue) (v : Nat) (q1 : LLQueue) (th1 : Thread),
      LLQueue_pop cfg th fuel q = some (v, q1, th1) →
      q1.hp.pointer[th._thread_id]? = some 0 := by
  intro fuel
  induction fuel with
  | zero => intro q v q1 th1 h; simp [LLQueue_pop] at h
  | succ f ih =>
    intro q v q1 th1 h
    simp only [LLQueue_pop] at h
    split at h
    · cases h
    · split at h
      · cases h
      · split at h
        · split at h
          · cases h
          · rename_i hp2 hcl
            simp only [Option.some.injEq, Prod.mk.injEq] at h
            rw [← h.2.1]
            exact HazardPointer_clear_slot th _ hp2 hcl
        · split at h
          · cases h
          · split at h
            · split at h
              · cases h
              · split at h
                · cases h
                · rename_i hp2 hcl
                  split at h
                  · cases h
                  · rename_i hp3 th3 freed hret
                    split at h
                    · cases h
                    · simp only [Option.some.injEq, Prod.mk.injEq] at h
                      rw [← h.2.1]
                      simp only
                      rw [(HazardPointer_retire_pointer cfg th _ _ hp3 th3 freed hret).1]
                      exact HazardPointer_clear_slot th _ hp2 hcl
            · exact ih _ _ _ _ h

/-- When `LLQueue_is_empty` returns, the hazard slot of the calling thread is null. -/
theorem LLQueue_is_empty_hazard (th : Thread) (q : LLQueue) (b : Bool) (q1 : LLQueue)
    (h : LLQueue_is_empty th q = some (b, q1)) : q1.hp.pointer[th._thread_id]? = some 0 := by
  simp only [LLQueue_is_empty] at h
  split at h
  · cases h
  · split at h
    · cases h
    · split at h
      · cases h
      · rename_i hp2 hcl
        simp only [Option.some.injEq, Prod.mk.injEq] at h
        rw [← h.2]
        exact HazardPointer_clear_slot th _ hp2 hcl

end Queues
